import Mathlib

/-!
# PathfindingVisualiser: the A* search engine of `script.js`

A shallow embedding of the search core of `src/script.js` (the `Node` class, `heuristic`,
`initializeGrid`, `aStarStep`, `reconstructPath`, `resetAStarState`) and of its event handlers
(canvas `mousedown`, the Start, Set Start, Set End and Reset buttons), and proofs about them.

Conventions of the embedding.

* A JavaScript reference to a grid node is modelled by its coordinates `Pos`: `grid[i][j]` is the
  object built by `new Node(i, j)`, whose `col` and `row` fields are `i` and `j` and are never
  written afterwards, so `===` on node references is equality of coordinates.
* The global `grid` is a store `Pos → Node`; only the cells with `col < COLS` and `row < ROWS`
  exist in the program, and the loops over the grid are folds over exactly those cells.
* The constants `COLS = 25` and `ROWS = 20` of the program are parameters of the definitions.
* The costs `f`, `g`, `h` only ever hold `0`, a `g + 1`, a `heuristic` value or a sum of two such
  values, so they are natural numbers.
* The canvas and DOM side (drawing, status text, `requestAnimationFrame`) is left out; which
  `return` of `aStarStep` was taken is reported as a `Branch`.
-/

set_option autoImplicit false

namespace Pathfinding

/-! ## Data model -/

/-- A cell reference: the coordinates `(col, row)` of a node of the grid. -/
structure Pos where
  col : Nat
  row : Nat
  deriving DecidableEq, Repr, Inhabited

/-- The fields of `class Node` that the search reads or writes (`x`, `y` only serve drawing). -/
structure Node where
  isWall : Bool
  f : Nat
  g : Nat
  h : Nat
  neighbors : List Pos
  previous : Option Pos
  deriving DecidableEq, Repr

/-- The node built by `new Node(col, row)`: not a wall, zero costs, no neighbours, no previous. -/
def Node.new : Node :=
  { isWall := false, f := 0, g := 0, h := 0, neighbors := [], previous := none }

/-- The global variables of the script that the search engine uses. -/
structure State where
  grid : Pos → Node
  startNode : Pos
  endNode : Pos
  openSet : List Pos
  closedSet : List Pos
  path : List Pos
  noSolution : Bool
  algorithmRunning : Bool

/-- Which exit of `aStarStep` a call took: the `'Path found'` return, the `'No solution'` return,
or the fall-through after expanding a node. -/
inductive Branch where
  | pathFound
  | noSolution
  | running
  deriving DecidableEq, Repr

/-- The assignment `grid[p.col][p.row] := n` on the node store. -/
def setNode (grid : Pos → Node) (p : Pos) (n : Node) : Pos → Node :=
  fun q => if q = p then n else grid q

/-- The nested loop `for (i = 0; i < COLS; i++) for (j = 0; j < ROWS; j++) body(i, j)`. -/
def forCells {σ : Type} (COLS ROWS : Nat) (body : Nat → Nat → σ → σ) (init : σ) : σ :=
  (List.range COLS).foldl
    (fun acc i => (List.range ROWS).foldl (fun acc2 j => body i j acc2) acc) init

/-! ## Operations -/

/-- The method `Node.addNeighbors` for the node at column `i`, row `j`: pushes the in-bounds
horizontal and vertical neighbours onto the node's `neighbors` array. -/
def addNeighbors (COLS ROWS : Nat) (i j : Nat) (neighbors : List Pos) : List Pos :=
  let n1 := if i < COLS - 1 then neighbors ++ [⟨i + 1, j⟩] else neighbors
  let n2 := if i > 0 then n1 ++ [⟨i - 1, j⟩] else n1
  let n3 := if j < ROWS - 1 then n2 ++ [⟨i, j + 1⟩] else n2
  if j > 0 then n3 ++ [⟨i, j - 1⟩] else n3

/-- The function `heuristic(nodeA, nodeB)`: `Math.abs(a.col - b.col) + Math.abs(a.row - b.row)`. -/
def heuristic (nodeA nodeB : Pos) : Nat :=
  Int.natAbs ((nodeA.col : Int) - (nodeB.col : Int))
    + Int.natAbs ((nodeA.row : Int) - (nodeB.row : Int))

/-- The function `initializeGrid`: a fresh grid of `new Node(i, j)`, then `addNeighbors` on
every node, the start at `grid[0][0]`, the end at `grid[COLS - 1][ROWS - 1]`, and the search
arrays reset. -/
def initializeGrid (COLS ROWS : Nat) : State :=
  let grid1 : Pos → Node :=
    forCells COLS ROWS (fun i j grid => setNode grid ⟨i, j⟩ Node.new) (fun _ => Node.new)
  let grid2 : Pos → Node :=
    forCells COLS ROWS
      (fun i j grid =>
        setNode grid ⟨i, j⟩
          { grid ⟨i, j⟩ with neighbors := addNeighbors COLS ROWS i j (grid ⟨i, j⟩).neighbors })
      grid1
  { grid := grid2
    startNode := ⟨0, 0⟩
    endNode := ⟨COLS - 1, ROWS - 1⟩
    openSet := [⟨0, 0⟩]
    closedSet := []
    path := []
    noSolution := false
    algorithmRunning := false }

/-- The function `resetAStarState`: the search arrays are reset and `f`, `g`, `h`, `previous`
of every node of the grid are cleared. -/
def resetAStarState (COLS ROWS : Nat) (s : State) : State :=
  { s with
    openSet := [s.startNode]
    closedSet := []
    path := []
    noSolution := false
    algorithmRunning := false
    grid :=
      forCells COLS ROWS
        (fun i j grid =>
          setNode grid ⟨i, j⟩ { grid ⟨i, j⟩ with f := 0, g := 0, h := 0, previous := none })
        s.grid }

/-- The scan of `aStarStep` for the index of the lowest `f` in `openSet`:
`lowestFIndex = 0; for i: if (openSet[i].f < openSet[lowestFIndex].f) lowestFIndex = i`. -/
def lowestFIndex (grid : Pos → Node) (openSet : List Pos) : Nat :=
  (List.range openSet.length).foldl
    (fun lowest i =>
      if (grid (openSet.getD i default)).f < (grid (openSet.getD lowest default)).f then i
      else lowest)
    0

/-- The `while (temp.previous)` loop of `reconstructPath`, with `fuel` bounding the number of
tests of the loop condition; `none` when the fuel runs out before the loop ends. -/
def reconstructLoop (grid : Pos → Node) : Nat → Pos → List Pos → Option (List Pos)
  | 0, _, _ => none
  | fuel + 1, temp, path =>
    match (grid temp).previous with
    | some prev => reconstructLoop grid fuel prev (path ++ [temp])
    | none => some path

/-- The function `reconstructPath(current)`: follow `previous` from `current`, pushing each
node that has a `previous`, then reverse. -/
def reconstructPath (grid : Pos → Node) (fuel : Nat) (current : Pos) : Option (List Pos) :=
  (reconstructLoop grid fuel current []).map List.reverse

/-- The body of the neighbour loop of `aStarStep` for one `neighbor`, on the node store and the
open set; `currentNode`, `endNode` and `closedSet` do not change during the loop. -/
def visitNeighbor (currentNode endNode : Pos) (closedSet : List Pos)
    (acc : (Pos → Node) × List Pos) (neighbor : Pos) : (Pos → Node) × List Pos :=
  let grid := acc.1
  let openSet := acc.2
  if !(grid neighbor).isWall && !closedSet.contains neighbor then
    let tempG := (grid currentNode).g + 1
    let relaxed : Node :=
      { grid neighbor with
        g := tempG
        h := heuristic neighbor endNode
        f := tempG + heuristic neighbor endNode
        previous := some currentNode }
    if openSet.contains neighbor then
      if tempG < (grid neighbor).g then (setNode grid neighbor relaxed, openSet)
      else (grid, openSet)
    else (setNode grid neighbor relaxed, openSet ++ [neighbor])
  else (grid, openSet)

/-- The node that `aStarStep` selects: `const currentNode = openSet[lowestFIndex]`. -/
def currentNode (s : State) : Pos :=
  s.openSet.getD (lowestFIndex s.grid s.openSet) default

/-- The part of `aStarStep` that expands the selected node: `openSet.splice(lowestFIndex, 1)`,
`closedSet.push(currentNode)`, then the loop over `currentNode.neighbors`. -/
def expand (s : State) : State :=
  let openSet1 := s.openSet.eraseIdx (lowestFIndex s.grid s.openSet)
  let closedSet1 := s.closedSet ++ [currentNode s]
  let acc := (s.grid (currentNode s)).neighbors.foldl
    (visitNeighbor (currentNode s) s.endNode closedSet1) (s.grid, openSet1)
  { s with grid := acc.1, openSet := acc.2, closedSet := closedSet1 }

/-- One call of `aStarStep`. `fuel` bounds the loop of `reconstructPath`; the result is `none`
only when that loop does not end within `fuel` tests. -/
def aStarStep (fuel : Nat) (s : State) : Option (Branch × State) :=
  if s.openSet.length > 0 then
    if currentNode s = s.endNode then
      match reconstructPath s.grid fuel (currentNode s) with
      | some path => some (Branch.pathFound, { s with algorithmRunning := false, path := path })
      | none => none
    else
      some (Branch.running, expand s)
  else
    some (Branch.noSolution, { s with noSolution := true, algorithmRunning := false })

/-- The search as the claims describe it: `aStarStep` called again and again until a call takes
a terminal branch, for at most `steps` calls; `none` when no terminal branch is reached within
`steps` calls (or the fuel of a path reconstruction runs out). The scheduling of the next call
(`requestAnimationFrame`, guarded by `algorithmRunning`) is not part of this definition. -/
def search (fuel : Nat) : Nat → State → Option (Branch × State)
  | 0, _ => none
  | steps + 1, s =>
    match aStarStep fuel s with
    | some (Branch.running, s1) => search fuel steps s1
    | some (b, s1) => some (b, s1)
    | none => none

/-- The `MODE_DRAW_WALL` branch of the canvas `mousedown` handler for a click that lands on
column `col`, row `row`: inside the grid and off the start and end nodes, the wall flag of the
clicked node is toggled. -/
def clickWall (COLS ROWS : Nat) (s : State) (col row : Nat) : State :=
  if col < COLS ∧ row < ROWS then
    let clickedNode : Pos := ⟨col, row⟩
    if clickedNode ≠ s.startNode ∧ clickedNode ≠ s.endNode then
      { s with
        grid := setNode s.grid clickedNode
          { s.grid clickedNode with isWall := !(s.grid clickedNode).isWall } }
    else s
  else s

/-! ## The page: interaction modes and event handlers -/

/-- The interaction modes `MODE_DRAW_WALL = 0`, `MODE_SET_START = 1`, `MODE_SET_END = 2`. -/
inductive Mode where
  | drawWall
  | setStart
  | setEnd
  deriving DecidableEq, Repr

/-- All the global variables of the script: those of the search and `currentMode`. -/
structure Page where
  state : State
  currentMode : Mode

/-- The events of the page: a `mousedown` on the canvas whose position falls in column `col`,
row `row` (`Math.floor` of the position over `CELL_SIZE`, possibly outside the grid), a click on
one of the four buttons, and an animation frame that calls `aStarStep`. -/
inductive Event where
  | mousedown (col row : Int)
  | startButton
  | setStartButton
  | setEndButton
  | resetButton
  | frame

/-- The canvas `mousedown` handler: nothing while the algorithm is running or for a click
outside the grid; otherwise the clicked node is toggled as a wall, or becomes the start node,
or becomes the end node, according to `currentMode`. -/
def canvasMouseDown (COLS ROWS : Nat) (u : Page) (col row : Int) : Page :=
  if u.state.algorithmRunning then u
  else if col ≥ 0 ∧ col < (COLS : Int) ∧ row ≥ 0 ∧ row < (ROWS : Int) then
    let s := u.state
    let clickedNode : Pos := ⟨col.toNat, row.toNat⟩
    match u.currentMode with
    | Mode.drawWall =>
      if clickedNode ≠ s.startNode ∧ clickedNode ≠ s.endNode then
        let toggled : Node :=
          { s.grid clickedNode with isWall := !(s.grid clickedNode).isWall }
        { u with state := { s with grid := setNode s.grid clickedNode toggled } }
      else u
    | Mode.setStart =>
      if clickedNode ≠ s.endNode ∧ (s.grid clickedNode).isWall = false then
        let grid1 := setNode s.grid s.startNode { s.grid s.startNode with isWall := false }
        { u with state :=
            resetAStarState COLS ROWS { s with grid := grid1, startNode := clickedNode } }
      else u
    | Mode.setEnd =>
      if clickedNode ≠ s.startNode ∧ (s.grid clickedNode).isWall = false then
        let grid1 := setNode s.grid s.endNode { s.grid s.endNode with isWall := false }
        { u with state :=
            resetAStarState COLS ROWS { s with grid := grid1, endNode := clickedNode } }
      else u
  else u

/-- The click handler of the Start button: when the algorithm is not running and no
`'No solution'` is recorded, `algorithmRunning = true`, then `resetAStarState()`, then one call
of `aStarStep()`; otherwise nothing changes (only the status text). -/
def startButtonClick (COLS ROWS fuel : Nat) (u : Page) : Option Page :=
  if !u.state.algorithmRunning && !u.state.noSolution then
    let s1 := { u.state with algorithmRunning := true }
    let s2 := resetAStarState COLS ROWS s1
    (aStarStep fuel s2).map (fun r => { u with state := r.2 })
  else some u

/-- The click handlers of the Set Start and Set End buttons: the mode changes unless the
algorithm is running. -/
def modeButtonClick (m : Mode) (u : Page) : Page :=
  if !u.state.algorithmRunning then { u with currentMode := m } else u

/-- The click handler of the Reset button: `initializeGrid()` and back to wall drawing. -/
def resetButtonClick (COLS ROWS : Nat) : Page :=
  { state := initializeGrid COLS ROWS, currentMode := Mode.drawWall }

/-- The effect of one event on the page; `none` only when a path reconstruction inside
`aStarStep` runs out of `fuel`. -/
def handle (COLS ROWS fuel : Nat) (u : Page) : Event → Option Page
  | Event.mousedown col row => some (canvasMouseDown COLS ROWS u col row)
  | Event.startButton => startButtonClick COLS ROWS fuel u
  | Event.setStartButton => some (modeButtonClick Mode.setStart u)
  | Event.setEndButton => some (modeButtonClick Mode.setEnd u)
  | Event.resetButton => some (resetButtonClick COLS ROWS)
  | Event.frame => (aStarStep fuel u.state).map (fun r => { u with state := r.2 })

/-- The page when the script has loaded: `initializeGrid()` with the default mode. -/
def initialPage (COLS ROWS : Nat) : Page :=
  { state := initializeGrid COLS ROWS, currentMode := Mode.drawWall }

/-- The pages reached from the initial page by any sequence of events. -/
inductive PageReachable (COLS ROWS : Nat) : Page → Prop where
  | init : PageReachable COLS ROWS (initialPage COLS ROWS)
  | event {u u1 : Page} (fuel : Nat) (ev : Event) : PageReachable COLS ROWS u →
      handle COLS ROWS fuel u ev = some u1 → PageReachable COLS ROWS u1

/-- The states reached from `s` by any number of calls of `aStarStep`, whatever branch each
call takes. -/
inductive Calls (s : State) : State → Prop where
  | none : Calls s s
  | call {s1 s2 : State} (fuel : Nat) (b : Branch) : Calls s s1 →
      aStarStep fuel s1 = some (b, s2) → Calls s s2

/-- The node reached from `n` by following `previous` links `k` times, if the chain is that
long. -/
def ancestor (grid : Pos → Node) : Nat → Pos → Option Pos
  | 0, n => some n
  | k + 1, n =>
    match (grid n).previous with
    | some prev => ancestor grid k prev
    | none => none

/-- The endpoint condition: the start and end nodes differ and neither is a wall. -/
def EndpointsOK (s : State) : Prop :=
  s.startNode ≠ s.endNode ∧ (s.grid s.startNode).isWall = false
    ∧ (s.grid s.endNode).isWall = false

/-! ## Example states -/

/-- The grid of 2 columns and 1 row after `initializeGrid`: start `(0,0)`, end `(1,0)`. -/
def lineGrid : State :=
  initializeGrid 2 1

/-- The state in which the search on `lineGrid` ends: the start node expanded once, then the
end node selected and the path `[(1,0)]` reported. -/
def lineGridFound : State :=
  { expand (resetAStarState 2 1 lineGrid) with algorithmRunning := false, path := [⟨1, 0⟩] }

/-- The grid of 2 columns and 2 rows with a wall drawn on `(1,0)`: start `(0,0)`, end `(1,1)`. -/
def cornerGrid : State :=
  clickWall 2 2 (initializeGrid 2 2) 1 0

/-- The state in which the search on `cornerGrid` ends: `(0,0)` and `(0,1)` expanded, then the
end node selected and the path `[(0,1), (1,1)]` reported. -/
def cornerGridFound : State :=
  { expand (expand (resetAStarState 2 2 cornerGrid)) with
    algorithmRunning := false, path := [⟨0, 1⟩, ⟨1, 1⟩] }

/-- The grid of 3 columns and 3 rows with walls drawn on `(1,2)` and `(2,1)`, the two neighbours
of the end node `(2,2)`. -/
def enclosedGrid : State :=
  clickWall 3 3 (clickWall 3 3 (initializeGrid 3 3) 1 2) 2 1

/-- The grid of 3 columns and 3 rows after `initializeGrid`: start `(0,0)`, end `(2,2)`. -/
def squareGrid : State :=
  initializeGrid 3 3

/-- The grid of 3 columns and 3 rows with the start node set to `(1,1)` and the end node set
to `(0,0)`, after the start node has been expanded once: `openSet` holds the four neighbours
of `(1,1)` in the order `(2,1), (0,1), (1,2), (1,0)` with `f = 4, 2, 4, 2`. -/
def centreGridExpanded : State :=
  expand (resetAStarState 3 3 { initializeGrid 3 3 with startNode := ⟨1, 1⟩, endNode := ⟨0, 0⟩ })

/-- The state of the search on `enclosedGrid` after six expansions, when `openSet` has run
empty: the six cells that can be reached from `(0,0)` are closed. -/
def enclosedGridExhausted : State :=
  expand (expand (expand (expand (expand (expand (resetAStarState 3 3 enclosedGrid))))))

/-- The page of the 3 × 3 grid after a click on Start: `resetAStarState` and one call of
`aStarStep`, which has expanded the start node `(0,0)`. -/
def startedPage : Page :=
  { state := expand (resetAStarState 3 3 { initializeGrid 3 3 with algorithmRunning := true })
    currentMode := Mode.drawWall }

/-- The page in wall-drawing mode whose search on `enclosedGrid` has ended in the
`'No solution'` branch. -/
def noSolutionPage : Page :=
  { state := { enclosedGridExhausted with noSolution := true, algorithmRunning := false }
    currentMode := Mode.drawWall }

/-- The page `noSolutionPage` after a `mousedown` on the wall `(1,2)` in wall-drawing mode,
which opens a way to the end node. -/
def noSolutionPageOpened : Page :=
  canvasMouseDown 3 3 noSolutionPage 1 2

/-! ## Specification vocabulary -/

/-- The cell `p` is a cell of the `COLS × ROWS` grid. -/
def InBounds (COLS ROWS : Nat) (p : Pos) : Prop :=
  p.col < COLS ∧ p.row < ROWS

instance (COLS ROWS : Nat) (p : Pos) : Decidable (InBounds COLS ROWS p) :=
  inferInstanceAs (Decidable (p.col < COLS ∧ p.row < ROWS))

/-- Two cells share an edge: they differ by exactly 1 in exactly one of `col`, `row`. -/
def Adjacent (a b : Pos) : Prop :=
  (a.row = b.row ∧ (a.col + 1 = b.col ∨ b.col + 1 = a.col))
    ∨ (a.col = b.col ∧ (a.row + 1 = b.row ∨ b.row + 1 = a.row))

instance (a b : Pos) : Decidable (Adjacent a b) :=
  inferInstanceAs (Decidable ((a.row = b.row ∧ (a.col + 1 = b.col ∨ b.col + 1 = a.col))
    ∨ (a.col = b.col ∧ (a.row + 1 = b.row ∨ b.row + 1 = a.row))))

/-- The neighbours array that `addNeighbors` builds for the node at `p` from the empty array of
its constructor. -/
def neighborsOf (COLS ROWS : Nat) (p : Pos) : List Pos :=
  addNeighbors COLS ROWS p.col p.row []

/-- Every node of the grid carries the neighbours array built by `initializeGrid`. -/
def GridOK (COLS ROWS : Nat) (grid : Pos → Node) : Prop :=
  ∀ p, InBounds COLS ROWS p → (grid p).neighbors = neighborsOf COLS ROWS p

/-- A route: a sequence of cells of the grid, none a wall, each sharing an edge with the next. -/
def IsRoute (COLS ROWS : Nat) (grid : Pos → Node) (r : List Pos) : Prop :=
  (∀ p ∈ r, InBounds COLS ROWS p ∧ (grid p).isWall = false) ∧ List.Chain' Adjacent r

/-- A route from `a` to `b`: a route whose first cell is `a` and whose last cell is `b`. -/
def IsRouteFromTo (COLS ROWS : Nat) (grid : Pos → Node) (a b : Pos) (r : List Pos) : Prop :=
  IsRoute COLS ROWS grid r ∧ r.head? = some a ∧ r.getLast? = some b

/-- The cell `x` is reached from `st` in exactly `k` moves, each to a non-wall neighbour. -/
inductive Reach (COLS ROWS : Nat) (wall : Pos → Bool) (st : Pos) : Nat → Pos → Prop where
  | start : Reach COLS ROWS wall st 0 st
  | move {k : Nat} {x y : Pos} : Reach COLS ROWS wall st k x → y ∈ neighborsOf COLS ROWS x →
      wall y = false → Reach COLS ROWS wall st (k + 1) y

/-- The state a search starts from: the grid carries its neighbours arrays, the start and end
nodes are distinct cells of the grid and neither is a wall. -/
structure WellFormed (COLS ROWS : Nat) (s : State) : Prop where
  gridOK : GridOK COLS ROWS s.grid
  startIn : InBounds COLS ROWS s.startNode
  endIn : InBounds COLS ROWS s.endNode
  distinct : s.startNode ≠ s.endNode
  startFree : (s.grid s.startNode).isWall = false
  endFree : (s.grid s.endNode).isWall = false

/-- The wall layout of a state. -/
def wallsOf (s : State) : Pos → Bool :=
  fun p => (s.grid p).isWall

/-! ## The search invariant -/

/-- The invariant of the search, stated on the node store and the two sets so that it can be
followed through the neighbour loop of `aStarStep`: `cur` is the node being expanded and `todo`
the neighbours of `cur` that the loop has not visited yet (`todo = []` between calls).
`W`, `st`, `en` are the wall layout, the start node and the end node of the search. -/
structure CoreInv (COLS ROWS : Nat) (W : Pos → Bool) (st en cur : Pos) (todo : List Pos)
    (grid : Pos → Node) (openSet closedSet : List Pos) : Prop where
  walls : ∀ p, (grid p).isWall = W p
  gridOK : GridOK COLS ROWS grid
  open_nodup : openSet.Nodup
  closed_nodup : closedSet.Nodup
  disjoint : ∀ p, p ∈ openSet → p ∉ closedSet
  seen_ok : ∀ p, p ∈ openSet ∨ p ∈ closedSet → InBounds COLS ROWS p ∧ W p = false
  start_seen : st ∈ closedSet ∨ (openSet = [st] ∧ closedSet = [])
  start_g : (grid st).g = 0
  start_prev : (grid st).previous = none
  prev : ∀ n, n ∈ openSet ∨ n ∈ closedSet → n ≠ st →
    ∃ p, (grid n).previous = some p ∧ p ∈ closedSet ∧ n ∈ neighborsOf COLS ROWS p
      ∧ (grid n).g = (grid p).g + 1
  fval : ∀ n, n ∈ openSet → n ≠ st → (grid n).f = (grid n).g + heuristic n en
  reach : ∀ n, n ∈ openSet ∨ n ∈ closedSet → Reach COLS ROWS W st (grid n).g n
  closed_opt : ∀ c, c ∈ closedSet → ∀ k, Reach COLS ROWS W st k c → (grid c).g ≤ k
  closed_nbr : ∀ c, c ∈ closedSet → ∀ nb, nb ∈ neighborsOf COLS ROWS c → W nb = false →
    (c = cur → nb ∉ todo) →
      (nb ∈ openSet ∨ nb ∈ closedSet) ∧ (grid nb).g ≤ (grid c).g + 1
  end_open : en ∉ closedSet
  g_open : ∀ n, n ∈ openSet → (grid n).g ≤ closedSet.length
  g_closed : ∀ c, c ∈ closedSet → (grid c).g < closedSet.length

/-- The invariant of the search on a state between two calls of `aStarStep`. -/
def SearchInv (COLS ROWS : Nat) (W : Pos → Bool) (st en : Pos) (s : State) : Prop :=
  s.startNode = st ∧ s.endNode = en
    ∧ CoreInv COLS ROWS W st en st [] s.grid s.openSet s.closedSet

/-- The states of a search: the reset state of `s0` and every state that calls of `aStarStep`
taking the fall-through branch lead to from it. -/
inductive Reachable (COLS ROWS : Nat) (s0 : State) : State → Prop where
  | reset : Reachable COLS ROWS s0 (resetAStarState COLS ROWS s0)
  | step {s s1 : State} (fuel : Nat) : Reachable COLS ROWS s0 s →
      aStarStep fuel s = some (Branch.running, s1) → Reachable COLS ROWS s0 s1

/-! ## The node store and the grid loops -/

theorem setNode_same (grid : Pos → Node) (p : Pos) (n : Node) : setNode grid p n p = n := by
  simp [setNode]

theorem setNode_other (grid : Pos → Node) (p q : Pos) (n : Node) (h : q ≠ p) :
    setNode grid p n q = grid q := by
  simp [setNode, h]

/-- The inner loop of a grid sweep that rewrites each node from its own old value. -/
theorem rowLoop_apply (F : Pos → Node → Node) (i ROWS : Nat) (grid : Pos → Node) (p : Pos) :
    (List.range ROWS).foldl (fun acc j => setNode acc ⟨i, j⟩ (F ⟨i, j⟩ (acc ⟨i, j⟩))) grid p
      = if p.col = i ∧ p.row < ROWS then F p (grid p) else grid p := by
  induction ROWS generalizing p with
  | zero => simp
  | succ R ih =>
    rw [List.range_succ, List.foldl_append]
    simp only [List.foldl_cons, List.foldl_nil]
    by_cases hp : p = ⟨i, R⟩
    · subst hp
      rw [setNode_same, ih]
      simp
    · rw [setNode_other _ _ _ _ hp, ih]
      have : ¬ (p.col = i ∧ p.row = R) := by
        rintro ⟨h1, h2⟩; exact hp (by cases p; simp_all)
      have hiff : (p.col = i ∧ p.row < R) ↔ (p.col = i ∧ p.row < R + 1) := by omega
      exact if_congr hiff rfl rfl

/-- A grid sweep that rewrites each node from its own old value changes exactly the cells of the
grid, each once. -/
theorem forCells_apply (F : Pos → Node → Node) (COLS ROWS : Nat) (grid : Pos → Node) (p : Pos) :
    forCells COLS ROWS (fun i j acc => setNode acc ⟨i, j⟩ (F ⟨i, j⟩ (acc ⟨i, j⟩))) grid p
      = if InBounds COLS ROWS p then F p (grid p) else grid p := by
  unfold forCells InBounds
  induction COLS generalizing p with
  | zero => simp
  | succ C ih =>
    rw [List.range_succ, List.foldl_append]
    simp only [List.foldl_cons, List.foldl_nil]
    rw [rowLoop_apply, ih]
    by_cases h1 : p.col = C
    · simp [h1]
    · by_cases h2 : p.col < C
      · have : p.col < C + 1 := by omega
        simp [h1, h2, this]
      · have : ¬ p.col < C + 1 := by omega
        simp [h1, h2, this]

theorem resetAStarState_grid (COLS ROWS : Nat) (s : State) (p : Pos) :
    (resetAStarState COLS ROWS s).grid p
      = if InBounds COLS ROWS p then
          { s.grid p with f := 0, g := 0, h := 0, previous := none }
        else s.grid p := by
  simp only [resetAStarState]
  exact forCells_apply (fun _ n => { n with f := 0, g := 0, h := 0, previous := none })
    COLS ROWS s.grid p

theorem initializeGrid_grid (COLS ROWS : Nat) (p : Pos) :
    (initializeGrid COLS ROWS).grid p
      = if InBounds COLS ROWS p then
          { Node.new with neighbors := neighborsOf COLS ROWS p }
        else Node.new := by
  simp only [initializeGrid]
  rw [forCells_apply (fun q n => { n with neighbors := addNeighbors COLS ROWS q.col q.row n.neighbors })]
  rw [forCells_apply (fun _ _ => Node.new)]
  by_cases h : InBounds COLS ROWS p <;> simp [h, neighborsOf, Node.new]

theorem mem_neighborsOf (COLS ROWS : Nat) (p q : Pos) :
    q ∈ neighborsOf COLS ROWS p ↔
      (p.col < COLS - 1 ∧ q = ⟨p.col + 1, p.row⟩) ∨ (0 < p.col ∧ q = ⟨p.col - 1, p.row⟩)
        ∨ (p.row < ROWS - 1 ∧ q = ⟨p.col, p.row + 1⟩) ∨ (0 < p.row ∧ q = ⟨p.col, p.row - 1⟩) := by
  unfold neighborsOf addNeighbors
  by_cases h1 : p.col < COLS - 1 <;> by_cases h2 : 0 < p.col <;>
    by_cases h3 : p.row < ROWS - 1 <;> by_cases h4 : 0 < p.row <;>
    simp [h1, h2, h3, h4]

theorem mem_neighborsOf_iff_adjacent (COLS ROWS : Nat) (p q : Pos) (hp : InBounds COLS ROWS p) :
    q ∈ neighborsOf COLS ROWS p ↔ Adjacent p q ∧ InBounds COLS ROWS q := by
  rw [mem_neighborsOf]
  obtain ⟨pc, pr⟩ := p
  obtain ⟨qc, qr⟩ := q
  simp only [Adjacent, InBounds, Pos.mk.injEq] at *
  omega

/-! ## The minimum scan -/

/-- The scan loop over the first `n` indices, on an arbitrary key function. -/
theorem scan_spec (v : Nat → Nat) (n : Nat) :
    let k := (List.range n).foldl (fun lowest i => if v i < v lowest then i else lowest) 0
    (k < n ∨ k = 0) ∧ (∀ i, i < n → v k ≤ v i) ∧ (∀ i, i < k → v k < v i) := by
  induction n with
  | zero => simp
  | succ n ih =>
    rw [List.range_succ, List.foldl_append]
    simp only [List.foldl_cons, List.foldl_nil]
    generalize (List.range n).foldl (fun lowest i => if v i < v lowest then i else lowest) 0 = k
      at ih ⊢
    obtain ⟨h1, h2, h3⟩ := ih
    by_cases hlt : v n < v k
    · simp only [hlt, if_true]
      refine ⟨Or.inl (Nat.lt_succ_self n), ?_, ?_⟩
      · intro i hi
        rcases Nat.lt_succ_iff_lt_or_eq.mp hi with h | h
        · exact Nat.le_of_lt (Nat.lt_of_lt_of_le hlt (h2 i h))
        · subst h; exact Nat.le_refl _
      · intro i hi
        exact Nat.lt_of_lt_of_le hlt (h2 i hi)
    · simp only [hlt, if_false]
      refine ⟨?_, ?_, h3⟩
      · rcases h1 with h | h
        · exact Or.inl (Nat.lt_succ_of_lt h)
        · exact Or.inr h
      · intro i hi
        rcases Nat.lt_succ_iff_lt_or_eq.mp hi with h | h
        · exact h2 i h
        · subst h; exact Nat.le_of_not_lt hlt

theorem lowestFIndex_lt (grid : Pos → Node) (openSet : List Pos) (h : 0 < openSet.length) :
    lowestFIndex grid openSet < openSet.length := by
  have := (scan_spec (fun i => (grid (openSet.getD i default)).f) openSet.length).1
  unfold lowestFIndex
  rcases this with h1 | h1
  · exact h1
  · rw [h1]; exact h

theorem lowestFIndex_le (grid : Pos → Node) (openSet : List Pos) (i : Nat)
    (hi : i < openSet.length) :
    (grid (openSet.getD (lowestFIndex grid openSet) default)).f
      ≤ (grid (openSet.getD i default)).f :=
  (scan_spec (fun i => (grid (openSet.getD i default)).f) openSet.length).2.1 i hi

theorem lowestFIndex_first (grid : Pos → Node) (openSet : List Pos) (i : Nat)
    (hi : i < lowestFIndex grid openSet) :
    (grid (openSet.getD (lowestFIndex grid openSet) default)).f
      < (grid (openSet.getD i default)).f :=
  (scan_spec (fun i => (grid (openSet.getD i default)).f) openSet.length).2.2 i hi

/-- The selected node is a member of the open set. -/
theorem selected_mem (grid : Pos → Node) (openSet : List Pos) (h : 0 < openSet.length) :
    openSet.getD (lowestFIndex grid openSet) default ∈ openSet := by
  rw [List.getD_eq_getElem _ _ (lowestFIndex_lt grid openSet h)]
  exact List.getElem_mem _

/-- The selected node has the least `f` of the open set. -/
theorem selected_le (grid : Pos → Node) (openSet : List Pos) (y : Pos) (hy : y ∈ openSet) :
    (grid (openSet.getD (lowestFIndex grid openSet) default)).f ≤ (grid y).f := by
  obtain ⟨i, hi, rfl⟩ := List.getElem_of_mem hy
  have := lowestFIndex_le grid openSet i hi
  rwa [List.getD_eq_getElem _ _ hi] at this

/-! ## The heuristic -/

theorem heuristic_self (e : Pos) : heuristic e e = 0 := by
  simp [heuristic]

/-- Consistency: one move changes the heuristic by at most 1. -/
theorem heuristic_neighbor (COLS ROWS : Nat) (x y e : Pos) (h : y ∈ neighborsOf COLS ROWS x) :
    heuristic x e ≤ heuristic y e + 1 := by
  rw [mem_neighborsOf] at h
  unfold heuristic
  rcases h with ⟨_, rfl⟩ | ⟨_, rfl⟩ | ⟨_, rfl⟩ | ⟨_, rfl⟩ <;> simp only <;> omega

/-! ## The invariant through the neighbour loop -/

theorem reach_inBounds (COLS ROWS : Nat) (W : Pos → Bool) (st : Pos)
    (hst : InBounds COLS ROWS st) {k : Nat} {x : Pos} (h : Reach COLS ROWS W st k x) :
    InBounds COLS ROWS x := by
  induction h with
  | start => exact hst
  | move _ hy _ ih => exact ((mem_neighborsOf_iff_adjacent COLS ROWS _ _ ih).mp hy).2

/-- A neighbour that the loop leaves untouched: a wall, a closed node, or an open node whose
`g` is not improved. -/
theorem visit_skip {COLS ROWS : Nat} {W : Pos → Bool} {st en cur nb : Pos} {rest : List Pos}
    {grid : Pos → Node} {openSet closedSet : List Pos}
    (inv : CoreInv COLS ROWS W st en cur (nb :: rest) grid openSet closedSet)
    (hcur : cur ∈ closedSet) (hnb : nb ∈ neighborsOf COLS ROWS cur)
    (hskip : W nb = true ∨ nb ∈ closedSet
      ∨ (nb ∈ openSet ∧ (grid nb).g ≤ (grid cur).g + 1)) :
    CoreInv COLS ROWS W st en cur rest grid openSet closedSet := by
  refine { inv with closed_nbr := ?_ }
  intro c hc x hx hwx hex
  by_cases hcase : c = cur ∧ x = nb
  · obtain ⟨rfl, rfl⟩ := hcase
    rcases hskip with h | h | h
    · rw [h] at hwx; exact absurd hwx (by simp)
    · refine ⟨Or.inr h, ?_⟩
      exact inv.closed_opt x h _ (Reach.move (inv.reach c (Or.inr hc)) hx hwx)
    · exact ⟨Or.inl h.1, h.2⟩
  · apply inv.closed_nbr c hc x hx hwx
    intro hcc hmem
    rcases List.mem_cons.mp hmem with h | h
    · exact hcase ⟨hcc, h⟩
    · exact hex hcc h

/-- A neighbour that the loop adds to the open set or whose `g` it improves. -/
theorem visit_relax {COLS ROWS : Nat} {W : Pos → Bool} {st en cur nb : Pos} {rest : List Pos}
    {grid : Pos → Node} {openSet closedSet : List Pos}
    (inv : CoreInv COLS ROWS W st en cur (nb :: rest) grid openSet closedSet)
    (hcur : cur ∈ closedSet) (hnb : nb ∈ neighborsOf COLS ROWS cur)
    (hw : W nb = false) (hncl : nb ∉ closedSet)
    (himp : nb ∈ openSet → (grid cur).g + 1 < (grid nb).g)
    (open1 : List Pos) (hopen1 : open1 = if nb ∈ openSet then openSet else openSet ++ [nb]) :
    CoreInv COLS ROWS W st en cur rest
      (setNode grid nb
        { grid nb with
          g := (grid cur).g + 1
          h := heuristic nb en
          f := (grid cur).g + 1 + heuristic nb en
          previous := some cur })
      open1 closedSet := by
  have hst : st ∈ closedSet := by
    rcases inv.start_seen with h | ⟨_, h⟩
    · exact h
    · rw [h] at hcur; cases hcur
  have hne_st : nb ≠ st := fun h => hncl (h ▸ hst)
  have hne_cur : cur ≠ nb := fun h => hncl (h ▸ hcur)
  have hmem : ∀ q, q ∈ open1 ↔ q ∈ openSet ∨ q = nb := by
    intro q
    rw [hopen1]
    by_cases h : nb ∈ openSet
    · simp only [h, if_true]
      constructor
      · exact Or.inl
      · rintro (h1 | h1)
        · exact h1
        · rw [h1]; exact h
    · simp [h]
  have hcl : ∀ q, q ∈ closedSet → q ≠ nb := fun q hq h => hncl (h ▸ hq)
  have hseen : ∀ q, q ∈ open1 ∨ q ∈ closedSet → q ≠ nb → q ∈ openSet ∨ q ∈ closedSet := by
    intro q hq hne
    rcases hq with h | h
    · rcases (hmem q).mp h with h1 | h1
      · exact Or.inl h1
      · exact absurd h1 hne
    · exact Or.inr h
  have hcurIn : InBounds COLS ROWS cur := (inv.seen_ok cur (Or.inr hcur)).1
  have hnbIn : InBounds COLS ROWS nb :=
    ((mem_neighborsOf_iff_adjacent COLS ROWS cur nb hcurIn).mp hnb).2
  constructor
  · intro p
    by_cases h : p = nb
    · subst h; rw [setNode_same]; exact inv.walls p
    · rw [setNode_other _ _ _ _ h]; exact inv.walls p
  · intro p hp
    by_cases h : p = nb
    · subst h; rw [setNode_same]; exact inv.gridOK p hp
    · rw [setNode_other _ _ _ _ h]; exact inv.gridOK p hp
  · rw [hopen1]
    by_cases h : nb ∈ openSet
    · simp only [h, if_true]; exact inv.open_nodup
    · simp only [h, if_false]
      exact List.Nodup.append inv.open_nodup (List.nodup_singleton nb)
        (by simpa [List.disjoint_singleton] using h)
  · exact inv.closed_nodup
  · intro q hq
    rcases (hmem q).mp hq with h | h
    · exact inv.disjoint q h
    · rw [h]; exact hncl
  · intro q hq
    by_cases h : q = nb
    · rw [h]; exact ⟨hnbIn, hw⟩
    · exact inv.seen_ok q (hseen q hq h)
  · exact Or.inl hst
  · rw [setNode_other _ _ _ _ (Ne.symm hne_st)]; exact inv.start_g
  · rw [setNode_other _ _ _ _ (Ne.symm hne_st)]; exact inv.start_prev
  · intro n hn hnst
    by_cases h : n = nb
    · subst h
      refine ⟨cur, ?_, hcur, hnb, ?_⟩
      · rw [setNode_same]
      · rw [setNode_same, setNode_other _ _ _ _ hne_cur]
    · obtain ⟨q, h1, h2, h3, h4⟩ := inv.prev n (hseen n hn h) hnst
      refine ⟨q, ?_, h2, h3, ?_⟩
      · rw [setNode_other _ _ _ _ h]; exact h1
      · rw [setNode_other _ _ _ _ h, setNode_other _ _ _ _ (hcl q h2)]; exact h4
  · intro n hn hnst
    by_cases h : n = nb
    · subst h; rw [setNode_same]
    · rw [setNode_other _ _ _ _ h]
      rcases (hmem n).mp hn with h1 | h1
      · exact inv.fval n h1 hnst
      · exact absurd h1 h
  · intro n hn
    by_cases h : n = nb
    · subst h
      rw [setNode_same]
      exact Reach.move (inv.reach cur (Or.inr hcur)) hnb hw
    · rw [setNode_other _ _ _ _ h]
      exact inv.reach n (hseen n hn h)
  · intro c hc k hk
    rw [setNode_other _ _ _ _ (hcl c hc)]
    exact inv.closed_opt c hc k hk
  · intro c hc x hx hwx hex
    rw [setNode_other _ _ _ _ (hcl c hc)]
    by_cases h : x = nb
    · subst h
      rw [setNode_same]
      refine ⟨Or.inl ((hmem x).mpr (Or.inr rfl)), ?_⟩
      by_cases hcc : c = cur
      · rw [hcc]
      · have hold := inv.closed_nbr c hc x hx hwx (fun h1 => absurd h1 hcc)
        rcases hold.1 with h1 | h1
        · have := himp h1
          show (grid cur).g + 1 ≤ (grid c).g + 1
          omega
        · exact absurd h1 hncl
    · rw [setNode_other _ _ _ _ h]
      have hold := inv.closed_nbr c hc x hx hwx (by
        intro hcc hmem2
        rcases List.mem_cons.mp hmem2 with h1 | h1
        · exact h h1
        · exact hex hcc h1)
      refine ⟨?_, hold.2⟩
      rcases hold.1 with h1 | h1
      · exact Or.inl ((hmem x).mpr (Or.inl h1))
      · exact Or.inr h1
  · exact inv.end_open
  · intro n hn
    by_cases h : n = nb
    · subst h
      rw [setNode_same]
      have := inv.g_closed cur hcur
      show (grid cur).g + 1 ≤ closedSet.length
      omega
    · rw [setNode_other _ _ _ _ h]
      rcases (hmem n).mp hn with h1 | h1
      · exact inv.g_open n h1
      · exact absurd h1 h
  · intro c hc
    rw [setNode_other _ _ _ _ (hcl c hc)]
    exact inv.g_closed c hc

/-- One iteration of the neighbour loop keeps the invariant and settles the visited neighbour. -/
theorem visitNeighbor_inv {COLS ROWS : Nat} {W : Pos → Bool} {st en cur nb : Pos}
    {rest : List Pos} {grid : Pos → Node} {openSet closedSet : List Pos}
    (inv : CoreInv COLS ROWS W st en cur (nb :: rest) grid openSet closedSet)
    (hcur : cur ∈ closedSet) (hnb : nb ∈ neighborsOf COLS ROWS cur) :
    CoreInv COLS ROWS W st en cur rest
      (visitNeighbor cur en closedSet (grid, openSet) nb).1
      (visitNeighbor cur en closedSet (grid, openSet) nb).2 closedSet := by
  unfold visitNeighbor
  by_cases hw : (grid nb).isWall = true
  · have : W nb = true := by rw [← inv.walls nb]; exact hw
    simp only [hw, Bool.not_true, Bool.false_and, Bool.false_eq_true, if_false]
    exact visit_skip inv hcur hnb (Or.inl this)
  · have hw2 : (grid nb).isWall = false := by simpa using hw
    have hW : W nb = false := by rw [← inv.walls nb]; exact hw2
    by_cases hcl : nb ∈ closedSet
    · have : closedSet.contains nb = true := by simpa using hcl
      simp only [this, Bool.not_true, Bool.and_false, Bool.false_eq_true, if_false]
      exact visit_skip inv hcur hnb (Or.inr (Or.inl hcl))
    · have hc : closedSet.contains nb = false := by simpa using hcl
      simp only [hw2, hc, Bool.not_false, Bool.and_self, if_true]
      by_cases hop : nb ∈ openSet
      · have ho : openSet.contains nb = true := by simpa using hop
        simp only [ho, if_true]
        by_cases hlt : (grid cur).g + 1 < (grid nb).g
        · simp only [hlt, if_true]
          have h := visit_relax inv hcur hnb hW hcl (fun _ => hlt) openSet (by simp [hop])
          simpa only [hw2] using h
        · simp only [hlt, if_false]
          exact visit_skip inv hcur hnb (Or.inr (Or.inr ⟨hop, Nat.le_of_not_lt hlt⟩))
      · have ho : openSet.contains nb = false := by simpa using hop
        simp only [ho, Bool.false_eq_true, if_false]
        have h := visit_relax inv hcur hnb hW hcl (fun h => absurd h hop) (openSet ++ [nb])
          (by simp [hop])
        simpa only [hw2] using h

/-- The whole neighbour loop keeps the invariant and settles every neighbour it visits. -/
theorem neighborLoop_inv {COLS ROWS : Nat} {W : Pos → Bool} {st en cur : Pos}
    {closedSet : List Pos} (hcur : cur ∈ closedSet) (todo : List Pos) :
    ∀ (acc : (Pos → Node) × List Pos),
      (∀ nb, nb ∈ todo → nb ∈ neighborsOf COLS ROWS cur) →
      CoreInv COLS ROWS W st en cur todo acc.1 acc.2 closedSet →
      CoreInv COLS ROWS W st en cur []
        (todo.foldl (visitNeighbor cur en closedSet) acc).1
        (todo.foldl (visitNeighbor cur en closedSet) acc).2 closedSet := by
  induction todo with
  | nil => intro acc _ inv; exact inv
  | cons nb rest ih =>
    intro acc hsub inv
    rw [List.foldl_cons]
    apply ih
    · intro x hx; exact hsub x (List.mem_cons_of_mem _ hx)
    · exact visitNeighbor_inv inv hcur (hsub nb (List.mem_cons_self _ _))

/-! ## Selecting and closing a node -/

/-- Removing the entry at index `k` of a duplicate-free list removes exactly that cell. -/
theorem mem_eraseIdx_nodup {l : List Pos} (hl : l.Nodup) (k : Nat) (hk : k < l.length)
    (p : Pos) : p ∈ l.eraseIdx k ↔ p ∈ l ∧ p ≠ l.getD k default := by
  rw [List.getD_eq_getElem _ _ hk, ← hl.erase_getElem k hk, hl.mem_erase_iff]
  exact And.comm

/-- Every route from the start either ends in a closed node whose `g` is at most the number of
moves of the route, or is matched by an open node whose `g` plus heuristic is at most the number
of moves plus the heuristic of the last cell of the route. -/
theorem frontier {COLS ROWS : Nat} {W : Pos → Bool} {st en cur : Pos}
    {grid : Pos → Node} {openSet closedSet : List Pos}
    (inv : CoreInv COLS ROWS W st en cur [] grid openSet closedSet)
    {k : Nat} {x : Pos} (h : Reach COLS ROWS W st k x) :
    (x ∈ closedSet ∧ (grid x).g ≤ k)
      ∨ ∃ y, y ∈ openSet ∧ (grid y).g + heuristic y en ≤ k + heuristic x en := by
  induction h with
  | start =>
    rcases inv.start_seen with h1 | ⟨h1, _⟩
    · exact Or.inl ⟨h1, by rw [inv.start_g]⟩
    · refine Or.inr ⟨st, by rw [h1]; exact List.mem_singleton_self st, ?_⟩
      rw [inv.start_g]
  | @move k x y _ hy hwy ih =>
    have hcons := heuristic_neighbor COLS ROWS x y en hy
    rcases ih with ⟨hx, hg⟩ | ⟨z, hz, hzle⟩
    · have hn := inv.closed_nbr x hx y hy hwy (fun _ h => by cases h)
      rcases hn.1 with h1 | h1
      · exact Or.inr ⟨y, h1, by omega⟩
      · exact Or.inl ⟨h1, by omega⟩
    · exact Or.inr ⟨z, hz, by omega⟩

/-- The selected node carries the least number of moves of any route to it. -/
theorem selected_optimal {COLS ROWS : Nat} {W : Pos → Bool} {st en cur : Pos}
    {grid : Pos → Node} {openSet closedSet : List Pos}
    (inv : CoreInv COLS ROWS W st en cur [] grid openSet closedSet)
    (h0 : 0 < openSet.length) {k : Nat}
    (h : Reach COLS ROWS W st k (openSet.getD (lowestFIndex grid openSet) default)) :
    (grid (openSet.getD (lowestFIndex grid openSet) default)).g ≤ k := by
  have hsel := selected_mem grid openSet h0
  generalize hn : openSet.getD (lowestFIndex grid openSet) default = n at h hsel
  by_cases hst : n = st
  · rw [hst, inv.start_g]; exact Nat.zero_le _
  · rcases frontier inv h with ⟨hc, _⟩ | ⟨y, hy, hle⟩
    · exact absurd hc (inv.disjoint n hsel)
    · have hmin := selected_le grid openSet y hy
      rw [hn] at hmin
      have hyst : y ≠ st := by
        intro hys
        rcases inv.start_seen with h1 | ⟨h1, _⟩
        · exact inv.disjoint y hy (hys ▸ h1)
        · rw [h1] at hsel
          exact hst (List.mem_singleton.mp hsel)
      rw [inv.fval n hsel hst, inv.fval y hy hyst] at hmin
      omega

/-- Moving the selected node from the open set to the closed set, before the neighbour loop:
the invariant holds with every neighbour of the node still to visit. -/
theorem close_selected {COLS ROWS : Nat} {W : Pos → Bool} {st en : Pos}
    {grid : Pos → Node} {openSet closedSet : List Pos}
    (inv : CoreInv COLS ROWS W st en st [] grid openSet closedSet)
    (h0 : 0 < openSet.length)
    (hne : openSet.getD (lowestFIndex grid openSet) default ≠ en) :
    CoreInv COLS ROWS W st en (openSet.getD (lowestFIndex grid openSet) default)
      (neighborsOf COLS ROWS (openSet.getD (lowestFIndex grid openSet) default)) grid
      (openSet.eraseIdx (lowestFIndex grid openSet))
      (closedSet ++ [openSet.getD (lowestFIndex grid openSet) default]) := by
  have hopt := fun k h => selected_optimal (k := k) inv h0 h
  have hsel := selected_mem grid openSet h0
  have hmem := mem_eraseIdx_nodup inv.open_nodup _ (lowestFIndex_lt grid openSet h0)
  generalize openSet.getD (lowestFIndex grid openSet) default = cur at hne hopt hsel hmem ⊢
  have hseen : ∀ q, q ∈ openSet.eraseIdx (lowestFIndex grid openSet) ∨ q ∈ closedSet ++ [cur] →
      q ∈ openSet ∨ q ∈ closedSet := by
    intro q hq
    rcases hq with h | h
    · exact Or.inl ((hmem q).mp h).1
    · rcases List.mem_append.mp h with h1 | h1
      · exact Or.inr h1
      · rw [List.mem_singleton.mp h1]; exact Or.inl hsel
  have hseen2 : ∀ q, q ∈ openSet ∨ q ∈ closedSet →
      q ∈ openSet.eraseIdx (lowestFIndex grid openSet) ∨ q ∈ closedSet ++ [cur] := by
    intro q hq
    rcases hq with h | h
    · by_cases hqc : q = cur
      · exact Or.inr (List.mem_append.mpr (Or.inr (by rw [hqc]; exact List.mem_singleton_self _)))
      · exact Or.inl ((hmem q).mpr ⟨h, hqc⟩)
    · exact Or.inr (List.mem_append.mpr (Or.inl h))
  have hcurncl : cur ∉ closedSet := inv.disjoint cur hsel
  constructor
  · exact inv.walls
  · exact inv.gridOK
  · exact inv.open_nodup.eraseIdx _
  · exact List.Nodup.append inv.closed_nodup (List.nodup_singleton cur)
      (by simpa [List.disjoint_singleton] using hcurncl)
  · intro q hq hq2
    have := (hmem q).mp hq
    rcases List.mem_append.mp hq2 with h1 | h1
    · exact inv.disjoint q this.1 h1
    · exact this.2 (List.mem_singleton.mp h1)
  · intro q hq; exact inv.seen_ok q (hseen q hq)
  · left
    rcases inv.start_seen with h1 | ⟨h1, _⟩
    · exact List.mem_append.mpr (Or.inl h1)
    · rw [h1] at hsel
      rw [List.mem_singleton.mp hsel]
      exact List.mem_append.mpr (Or.inr (List.mem_singleton_self _))
  · exact inv.start_g
  · exact inv.start_prev
  · intro n hn hnst
    obtain ⟨q, h1, h2, h3, h4⟩ := inv.prev n (hseen n hn) hnst
    exact ⟨q, h1, List.mem_append.mpr (Or.inl h2), h3, h4⟩
  · intro n hn hnst
    exact inv.fval n ((hmem n).mp hn).1 hnst
  · intro n hn; exact inv.reach n (hseen n hn)
  · intro c hc k hk
    rcases List.mem_append.mp hc with h1 | h1
    · exact inv.closed_opt c h1 k hk
    · rw [List.mem_singleton.mp h1] at hk ⊢
      exact hopt k hk
  · intro c hc x hx hwx hex
    rcases List.mem_append.mp hc with h1 | h1
    · have hold := inv.closed_nbr c h1 x hx hwx (fun _ h => by cases h)
      exact ⟨hseen2 x hold.1, hold.2⟩
    · have hcc := List.mem_singleton.mp h1
      rw [hcc] at hx
      exact absurd hx (hex hcc)
  · intro h
    rcases List.mem_append.mp h with h1 | h1
    · exact inv.end_open h1
    · exact hne (List.mem_singleton.mp h1).symm
  · intro n hn
    have := inv.g_open n ((hmem n).mp hn).1
    rw [List.length_append, List.length_singleton]
    omega
  · intro c hc
    rw [List.length_append, List.length_singleton]
    rcases List.mem_append.mp hc with h1 | h1
    · have := inv.g_closed c h1; omega
    · rw [List.mem_singleton.mp h1]
      have := inv.g_open cur hsel; omega

/-! ## The branches of `aStarStep` -/

theorem aStarStep_running {fuel : Nat} {s s1 : State}
    (h : aStarStep fuel s = some (Branch.running, s1)) :
    0 < s.openSet.length ∧ currentNode s ≠ s.endNode ∧ s1 = expand s := by
  unfold aStarStep at h
  by_cases h0 : s.openSet.length > 0
  · simp only [h0, if_true] at h
    by_cases he : currentNode s = s.endNode
    · simp only [he, if_true] at h
      cases hr : reconstructPath s.grid fuel s.endNode with
      | none => simp [hr] at h
      | some path => simp [hr] at h
    · simp only [he, if_false, Option.some.injEq, Prod.mk.injEq, true_and] at h
      exact ⟨h0, he, h.symm⟩
  · simp [h0] at h

theorem aStarStep_noSolution {fuel : Nat} {s s1 : State}
    (h : aStarStep fuel s = some (Branch.noSolution, s1)) :
    s.openSet = [] ∧ s1 = { s with noSolution := true, algorithmRunning := false } := by
  unfold aStarStep at h
  by_cases h0 : s.openSet.length > 0
  · simp only [h0, if_true] at h
    by_cases he : currentNode s = s.endNode
    · simp only [he, if_true] at h
      cases hr : reconstructPath s.grid fuel s.endNode with
      | none => simp [hr] at h
      | some path => simp [hr] at h
    · simp [he] at h
  · simp only [h0, if_false, Option.some.injEq, Prod.mk.injEq, true_and] at h
    exact ⟨List.length_eq_zero.mp (by omega), h.symm⟩

theorem aStarStep_pathFound {fuel : Nat} {s s1 : State}
    (h : aStarStep fuel s = some (Branch.pathFound, s1)) :
    0 < s.openSet.length ∧ currentNode s = s.endNode
      ∧ ∃ path, reconstructPath s.grid fuel s.endNode = some path
        ∧ s1 = { s with algorithmRunning := false, path := path } := by
  unfold aStarStep at h
  by_cases h0 : s.openSet.length > 0
  · simp only [h0, if_true] at h
    by_cases he : currentNode s = s.endNode
    · simp only [he, if_true] at h
      cases hr : reconstructPath s.grid fuel s.endNode with
      | none => simp [hr] at h
      | some path =>
        simp only [hr, Option.some.injEq, Prod.mk.injEq, true_and] at h
        exact ⟨h0, he, path, rfl, h.symm⟩
    · simp [he] at h
  · simp [h0] at h

/-- Between calls the node being expanded plays no part in the invariant. -/
theorem CoreInv.retarget {COLS ROWS : Nat} {W : Pos → Bool} {st en cur : Pos}
    {grid : Pos → Node} {openSet closedSet : List Pos}
    (inv : CoreInv COLS ROWS W st en cur [] grid openSet closedSet) (cur1 : Pos) :
    CoreInv COLS ROWS W st en cur1 [] grid openSet closedSet :=
  { inv with
    closed_nbr := fun c hc nb hnb hw _ => inv.closed_nbr c hc nb hnb hw (fun _ h => by cases h) }

/-- Expanding the selected node keeps the invariant of the search. -/
theorem expand_inv {COLS ROWS : Nat} {W : Pos → Bool} {st en : Pos} {s : State}
    (inv : SearchInv COLS ROWS W st en s) (h0 : 0 < s.openSet.length)
    (hne : currentNode s ≠ s.endNode) :
    SearchInv COLS ROWS W st en (expand s) := by
  obtain ⟨hs, he, core⟩ := inv
  refine ⟨hs, he, ?_⟩
  rw [he] at hne
  have hpre := close_selected core h0 hne
  have hcurIn : InBounds COLS ROWS (currentNode s) :=
    (core.seen_ok _ (Or.inl (selected_mem s.grid s.openSet h0))).1
  have hnbrs : (s.grid (currentNode s)).neighbors = neighborsOf COLS ROWS (currentNode s) :=
    core.gridOK _ hcurIn
  have hloop := @neighborLoop_inv COLS ROWS W st en (currentNode s)
    (s.closedSet ++ [currentNode s])
    (List.mem_append.mpr (Or.inr (List.mem_singleton_self (currentNode s))))
    (neighborsOf COLS ROWS (currentNode s))
    (s.grid, s.openSet.eraseIdx (lowestFIndex s.grid s.openSet)) (fun _ h => h) hpre
  simp only [expand, hnbrs, he]
  exact hloop.retarget st

theorem aStarStep_inv {COLS ROWS : Nat} {W : Pos → Bool} {st en : Pos} {fuel : Nat}
    {s s1 : State} (inv : SearchInv COLS ROWS W st en s)
    (h : aStarStep fuel s = some (Branch.running, s1)) :
    SearchInv COLS ROWS W st en s1 := by
  obtain ⟨h0, hne, rfl⟩ := aStarStep_running h
  exact expand_inv inv h0 hne

/-! ## The reset state and the reachable states -/

theorem reset_inv {COLS ROWS : Nat} {s0 : State} (wf : WellFormed COLS ROWS s0) :
    SearchInv COLS ROWS (wallsOf s0) s0.startNode s0.endNode (resetAStarState COLS ROWS s0) := by
  refine ⟨rfl, rfl, ?_⟩
  have hgrid := resetAStarState_grid COLS ROWS s0
  have hopen : (resetAStarState COLS ROWS s0).openSet = [s0.startNode] := rfl
  have hclosed : (resetAStarState COLS ROWS s0).closedSet = [] := rfl
  rw [hopen, hclosed]
  have hst : (resetAStarState COLS ROWS s0).grid s0.startNode
      = { s0.grid s0.startNode with f := 0, g := 0, h := 0, previous := none } := by
    rw [hgrid, if_pos wf.startIn]
  constructor
  · intro p
    rw [hgrid]
    by_cases h : InBounds COLS ROWS p <;> simp [h, wallsOf]
  · intro p hp
    rw [hgrid, if_pos hp]
    exact wf.gridOK p hp
  · exact List.nodup_singleton _
  · exact List.nodup_nil
  · intro p _ h; cases h
  · intro p hp
    rcases hp with h | h
    · rw [List.mem_singleton.mp h]; exact ⟨wf.startIn, wf.startFree⟩
    · cases h
  · exact Or.inr ⟨rfl, rfl⟩
  · rw [hst]
  · rw [hst]
  · intro n hn hne
    rcases hn with h | h
    · exact absurd (List.mem_singleton.mp h) hne
    · cases h
  · intro n hn hne
    exact absurd (List.mem_singleton.mp hn) hne
  · intro n hn
    rcases hn with h | h
    · rw [List.mem_singleton.mp h, hst]; exact Reach.start
    · cases h
  · intro c hc; cases hc
  · intro c hc; cases hc
  · intro h; cases h
  · intro n hn
    rw [List.mem_singleton.mp hn, hst]; exact Nat.le_refl _
  · intro c hc; cases hc

theorem reachable_inv {COLS ROWS : Nat} {s0 s : State} (wf : WellFormed COLS ROWS s0)
    (h : Reachable COLS ROWS s0 s) :
    SearchInv COLS ROWS (wallsOf s0) s0.startNode s0.endNode s := by
  induction h with
  | reset => exact reset_inv wf
  | step fuel _ hstep ih => exact aStarStep_inv ih hstep

/-! ## Path reconstruction -/

theorem reconstructLoop_mono (grid : Pos → Node) (fuel : Nat) :
    ∀ (n : Pos) (acc r : List Pos) (d : Nat), reconstructLoop grid fuel n acc = some r →
      reconstructLoop grid (fuel + d) n acc = some r := by
  induction fuel with
  | zero => intro n acc r d h; simp [reconstructLoop] at h
  | succ fuel ih =>
    intro n acc r d h
    rw [Nat.add_right_comm]
    unfold reconstructLoop at h ⊢
    cases hp : (grid n).previous with
    | none => simpa [hp] using h
    | some q =>
      simp only [hp] at h ⊢
      exact ih q _ r d h

/-- The loop of `reconstructPath` from a node the search has seen ends within `g + 1` tests and
has pushed the node and its chain of `previous` nodes up to, but not including, the start. -/
theorem reconstructLoop_spec {COLS ROWS : Nat} {W : Pos → Bool} {st en cur : Pos}
    {grid : Pos → Node} {openSet closedSet : List Pos}
    (inv : CoreInv COLS ROWS W st en cur [] grid openSet closedSet) (fuel : Nat) :
    ∀ (n : Pos) (acc : List Pos), n ∈ openSet ∨ n ∈ closedSet → (grid n).g < fuel →
      ∃ chain, reconstructLoop grid fuel n acc = some (acc ++ chain)
        ∧ chain.length = (grid n).g
        ∧ (∀ x, x ∈ chain → (x ∈ openSet ∨ x ∈ closedSet) ∧ x ≠ st)
        ∧ List.Chain' (fun a b => a ∈ neighborsOf COLS ROWS b) (chain ++ [st])
        ∧ (chain ++ [st]).head? = some n := by
  induction fuel with
  | zero => intro n acc _ h; exact absurd h (Nat.not_lt_zero _)
  | succ fuel ih =>
    intro n acc hn hg
    by_cases hst : n = st
    · subst hst
      refine ⟨[], ?_, ?_, ?_, ?_, ?_⟩
      · unfold reconstructLoop; rw [inv.start_prev]; simp
      · rw [inv.start_g]; rfl
      · intro x hx; cases hx
      · simp
      · simp
    · obtain ⟨q, h1, h2, h3, h4⟩ := inv.prev n hn hst
      obtain ⟨chain, c1, c2, c3, c4, c5⟩ := ih q (acc ++ [n]) (Or.inr h2) (by omega)
      refine ⟨n :: chain, ?_, ?_, ?_, ?_, ?_⟩
      · unfold reconstructLoop; rw [h1]
        simp only
        rw [c1, List.append_assoc, List.singleton_append]
      · rw [List.length_cons, c2, h4]
      · intro x hx
        rcases List.mem_cons.mp hx with h | h
        · rw [h]; exact ⟨hn, hst⟩
        · exact c3 x h
      · rw [List.cons_append, List.chain'_cons']
        refine ⟨?_, c4⟩
        intro y hy
        rw [c5] at hy
        cases hy
        exact h3
      · simp

/-- The cells that `reconstructPath` reports for a node the search has seen. -/
theorem reconstructPath_spec {COLS ROWS : Nat} {W : Pos → Bool} {st en cur : Pos}
    {grid : Pos → Node} {openSet closedSet : List Pos}
    (inv : CoreInv COLS ROWS W st en cur [] grid openSet closedSet) (fuel : Nat)
    (n : Pos) (hn : n ∈ openSet ∨ n ∈ closedSet) (hg : (grid n).g < fuel) :
    ∃ path, reconstructPath grid fuel n = some path
      ∧ path.length = (grid n).g
      ∧ (∀ x, x ∈ path → (x ∈ openSet ∨ x ∈ closedSet) ∧ x ≠ st)
      ∧ List.Chain' (fun a b => b ∈ neighborsOf COLS ROWS a) (st :: path)
      ∧ (st :: path).getLast? = some n := by
  obtain ⟨chain, c1, c2, c3, c4, c5⟩ := reconstructLoop_spec inv fuel n [] hn hg
  refine ⟨chain.reverse, ?_, ?_, ?_, ?_, ?_⟩
  · unfold reconstructPath; rw [c1]; simp
  · rw [List.length_reverse, c2]
  · intro x hx; exact c3 x (List.mem_reverse.mp hx)
  · have : st :: chain.reverse = (chain ++ [st]).reverse := by simp
    rw [this, List.chain'_reverse]
    exact c4
  · have : st :: chain.reverse = (chain ++ [st]).reverse := by simp
    rw [this, List.getLast?_reverse]
    exact c5

/-- Whatever fuel made `reconstructPath` return, the result is the one described above. -/
theorem reconstructPath_some {COLS ROWS : Nat} {W : Pos → Bool} {st en cur : Pos}
    {grid : Pos → Node} {openSet closedSet : List Pos}
    (inv : CoreInv COLS ROWS W st en cur [] grid openSet closedSet) (fuel : Nat)
    (n : Pos) (hn : n ∈ openSet ∨ n ∈ closedSet) (path : List Pos)
    (h : reconstructPath grid fuel n = some path) :
    path.length = (grid n).g
      ∧ (∀ x, x ∈ path → (x ∈ openSet ∨ x ∈ closedSet) ∧ x ≠ st)
      ∧ List.Chain' (fun a b => b ∈ neighborsOf COLS ROWS a) (st :: path)
      ∧ (st :: path).getLast? = some n := by
  obtain ⟨path2, p1, p2⟩ :=
    reconstructPath_spec inv (fuel + ((grid n).g + 1)) n hn (by omega)
  have hmono : reconstructPath grid (fuel + ((grid n).g + 1)) n = some path := by
    unfold reconstructPath at h ⊢
    cases hr : reconstructLoop grid fuel n [] with
    | none => simp [hr] at h
    | some r =>
      rw [reconstructLoop_mono grid fuel n [] r _ hr]
      simpa [hr] using h
  rw [hmono] at p1
  cases p1
  exact p2

/-! ## Termination of the search -/

/-- A duplicate-free list of cells of the grid has at most `COLS * ROWS` entries. -/
theorem length_le_cells (COLS ROWS : Nat) (l : List Pos) (hl : l.Nodup)
    (hin : ∀ p, p ∈ l → InBounds COLS ROWS p) : l.length ≤ COLS * ROWS := by
  have hcard : l.toFinset.card = l.length := List.toFinset_card_of_nodup hl
  have hle : l.toFinset.card ≤ (Finset.range COLS ×ˢ Finset.range ROWS).card := by
    apply Finset.card_le_card_of_injOn (fun p : Pos => (p.col, p.row))
    · intro p hp
      have := hin p (List.mem_toFinset.mp hp)
      exact Finset.mem_product.mpr ⟨Finset.mem_range.mpr this.1, Finset.mem_range.mpr this.2⟩
    · intro p _ q _ hpq
      simp only [Prod.mk.injEq] at hpq
      cases p; cases q; simp_all
  rw [Finset.card_product, Finset.card_range, Finset.card_range] at hle
  omega

/-- The closed set never holds the end node, so it has fewer entries than the grid has cells. -/
theorem closed_lt_cells {COLS ROWS : Nat} {W : Pos → Bool} {st en : Pos} {s : State}
    (inv : SearchInv COLS ROWS W st en s) (hen : InBounds COLS ROWS en) :
    s.closedSet.length + 1 ≤ COLS * ROWS := by
  obtain ⟨_, _, core⟩ := inv
  have := length_le_cells COLS ROWS (en :: s.closedSet)
    (List.nodup_cons.mpr ⟨core.end_open, core.closed_nodup⟩)
    (by
      intro p hp
      rcases List.mem_cons.mp hp with h | h
      · rw [h]; exact hen
      · exact (core.seen_ok p (Or.inr h)).1)
  simpa using this

theorem expand_closedSet (s : State) : (expand s).closedSet = s.closedSet ++ [currentNode s] :=
  rfl

/-- From a state of the search, `aStarStep` reaches a terminal branch within as many calls as
the grid has cells that are not closed yet. -/
theorem search_terminates {COLS ROWS : Nat} {W : Pos → Bool} {st en : Pos}
    (hen : InBounds COLS ROWS en) (fuel : Nat) (hfuel : COLS * ROWS ≤ fuel) (steps : Nat) :
    ∀ (s : State), SearchInv COLS ROWS W st en s →
      COLS * ROWS ≤ steps + s.closedSet.length →
      ∃ b s1, search fuel steps s = some (b, s1) ∧ b ≠ Branch.running := by
  induction steps with
  | zero =>
    intro s inv h
    have := closed_lt_cells inv hen
    omega
  | succ steps ih =>
    intro s inv h
    have hlt := closed_lt_cells inv hen
    unfold search
    by_cases h0 : s.openSet.length > 0
    · by_cases he : currentNode s = s.endNode
      · obtain ⟨_, hend, core⟩ := inv
        have hmem : s.endNode ∈ s.openSet := he ▸ selected_mem s.grid s.openSet h0
        have hg := core.g_open _ hmem
        obtain ⟨path, hp, _⟩ := reconstructPath_spec core fuel s.endNode (Or.inl hmem)
          (by omega)
        refine ⟨Branch.pathFound, { s with algorithmRunning := false, path := path }, ?_, ?_⟩
        · simp [aStarStep, h0, he, hp]
        · simp
      · have hstep : aStarStep fuel s = some (Branch.running, expand s) := by
          simp [aStarStep, h0, he]
        rw [hstep]
        apply ih (expand s) (expand_inv inv h0 he)
        rw [expand_closedSet, List.length_append, List.length_singleton]
        omega
    · refine ⟨Branch.noSolution, { s with noSolution := true, algorithmRunning := false },
        ?_, ?_⟩
      · simp [aStarStep, h0]
      · simp

/-- A terminal result of the search is the result of one call of `aStarStep` on a state of the
search. -/
theorem search_last {COLS ROWS : Nat} {s0 : State} (fuel steps : Nat) :
    ∀ (s : State) (b : Branch) (s1 : State), Reachable COLS ROWS s0 s →
      search fuel steps s = some (b, s1) →
      ∃ sp, Reachable COLS ROWS s0 sp ∧ aStarStep fuel sp = some (b, s1)
        ∧ b ≠ Branch.running := by
  induction steps with
  | zero => intro s b s1 _ h; simp [search] at h
  | succ steps ih =>
    intro s b s1 hr h
    unfold search at h
    cases hstep : aStarStep fuel s with
    | none => simp [hstep] at h
    | some res =>
      obtain ⟨b2, s2⟩ := res
      cases b2 with
      | running =>
        simp only [hstep] at h
        exact ih s2 b s1 (Reachable.step fuel hr hstep) h
      | pathFound =>
        simp only [hstep, Option.some.injEq, Prod.mk.injEq] at h
        obtain ⟨rfl, rfl⟩ := h
        exact ⟨s, hr, hstep, by simp⟩
      | noSolution =>
        simp only [hstep, Option.some.injEq, Prod.mk.injEq] at h
        obtain ⟨rfl, rfl⟩ := h
        exact ⟨s, hr, hstep, by simp⟩

/-! ## Routes -/

theorem adjacent_of_mem_neighborsOf {COLS ROWS : Nat} {p q : Pos}
    (h : q ∈ neighborsOf COLS ROWS p) : Adjacent p q := by
  rw [mem_neighborsOf] at h
  obtain ⟨pc, pr⟩ := p
  obtain ⟨qc, qr⟩ := q
  simp only [Adjacent, Pos.mk.injEq] at *
  omega

theorem adjacent_symm {p q : Pos} (h : Adjacent p q) : Adjacent q p := by
  unfold Adjacent at h ⊢
  omega

theorem mem_neighborsOf_symm {COLS ROWS : Nat} {p q : Pos} (hp : InBounds COLS ROWS p)
    (h : q ∈ neighborsOf COLS ROWS p) : p ∈ neighborsOf COLS ROWS q := by
  have h1 := (mem_neighborsOf_iff_adjacent COLS ROWS p q hp).mp h
  exact (mem_neighborsOf_iff_adjacent COLS ROWS q p h1.2).mpr ⟨adjacent_symm h1.1, hp⟩

/-- Following a route cell by cell from a reached cell reaches the last cell of the route. -/
theorem reach_along {COLS ROWS : Nat} {W : Pos → Bool} {st : Pos} (r : List Pos) :
    ∀ (a : Pos) (k : Nat), Reach COLS ROWS W st k a → InBounds COLS ROWS a →
      (∀ p, p ∈ r → InBounds COLS ROWS p ∧ W p = false) → List.Chain' Adjacent (a :: r) →
      ∃ b, (a :: r).getLast? = some b ∧ Reach COLS ROWS W st (k + r.length) b := by
  induction r with
  | nil => intro a k h _ _ _; exact ⟨a, rfl, h⟩
  | cons c r ih =>
    intro a k h ha hr hch
    rw [List.chain'_cons] at hch
    have hc := hr c (List.mem_cons_self _ _)
    have hmove : Reach COLS ROWS W st (k + 1) c :=
      Reach.move h ((mem_neighborsOf_iff_adjacent COLS ROWS a c ha).mpr ⟨hch.1, hc.1⟩) hc.2
    obtain ⟨b, hb1, hb2⟩ := ih c (k + 1) hmove hc.1
      (fun p hp => hr p (List.mem_cons_of_mem _ hp)) hch.2
    refine ⟨b, ?_, ?_⟩
    · rw [List.getLast?_cons_cons]; exact hb1
    · rw [List.length_cons]
      have : k + (r.length + 1) = k + 1 + r.length := by omega
      rw [this]; exact hb2

/-- A route from the start to `x` reaches `x` in one move less than it has cells. -/
theorem reach_of_route {COLS ROWS : Nat} {s0 : State} {x : Pos} {r : List Pos}
    (h : IsRouteFromTo COLS ROWS s0.grid s0.startNode x r) :
    Reach COLS ROWS (wallsOf s0) s0.startNode (r.length - 1) x := by
  obtain ⟨⟨hcells, hchain⟩, hhead, hlast⟩ := h
  cases r with
  | nil => simp at hhead
  | cons a r =>
    simp only [List.head?_cons, Option.some.injEq] at hhead
    subst hhead
    obtain ⟨b, hb1, hb2⟩ := reach_along (W := wallsOf s0) r s0.startNode 0 Reach.start
      (hcells _ (List.mem_cons_self _ _)).1
      (fun p hp => hcells p (List.mem_cons_of_mem _ hp)) hchain
    rw [hlast] at hb1
    cases hb1
    simpa using hb2

/-- Admissibility: the heuristic of the start is at most the moves made plus the heuristic of
the cell reached. -/
theorem heuristic_reach {COLS ROWS : Nat} {W : Pos → Bool} {st : Pos} (e : Pos) {k : Nat}
    {x : Pos} (h : Reach COLS ROWS W st k x) : heuristic st e ≤ k + heuristic x e := by
  induction h with
  | start => omega
  | move _ hy _ ih =>
    have := heuristic_neighbor COLS ROWS _ _ e hy
    omega

/-! ## Well-formed states -/

theorem initializeGrid_wellFormed (COLS ROWS : Nat) (h : 2 ≤ COLS * ROWS) :
    WellFormed COLS ROWS (initializeGrid COLS ROWS) := by
  have hC : 0 < COLS := Nat.pos_of_ne_zero (by rintro rfl; simp at h)
  have hR : 0 < ROWS := Nat.pos_of_ne_zero (by rintro rfl; simp at h)
  have hs : (initializeGrid COLS ROWS).startNode = ⟨0, 0⟩ := rfl
  have he : (initializeGrid COLS ROWS).endNode = ⟨COLS - 1, ROWS - 1⟩ := rfl
  have hwall : ∀ p, ((initializeGrid COLS ROWS).grid p).isWall = false := by
    intro p
    rw [initializeGrid_grid]
    by_cases hp : InBounds COLS ROWS p <;> simp [hp, Node.new]
  constructor
  · intro p hp
    rw [initializeGrid_grid, if_pos hp]
  · rw [hs]; exact ⟨hC, hR⟩
  · rw [he]; exact ⟨Nat.sub_lt hC Nat.one_pos, Nat.sub_lt hR Nat.one_pos⟩
  · rw [hs, he]
    intro heq
    simp only [Pos.mk.injEq] at heq
    have h1 : COLS = 1 := by omega
    have h2 : ROWS = 1 := by omega
    rw [h1, h2] at h
    omega
  · exact hwall _
  · exact hwall _

theorem clickWall_wellFormed {COLS ROWS : Nat} {s : State} (wf : WellFormed COLS ROWS s)
    (col row : Nat) : WellFormed COLS ROWS (clickWall COLS ROWS s col row) := by
  unfold clickWall
  by_cases hb : col < COLS ∧ row < ROWS
  · rw [if_pos hb]
    by_cases hne : (⟨col, row⟩ : Pos) ≠ s.startNode ∧ (⟨col, row⟩ : Pos) ≠ s.endNode
    · dsimp only
      rw [if_pos hne]
      constructor
      · intro p hp
        show (setNode s.grid _ _ p).neighbors = _
        by_cases h : p = ⟨col, row⟩
        · rw [h, setNode_same]; exact wf.gridOK _ (h ▸ hp)
        · rw [setNode_other _ _ _ _ h]; exact wf.gridOK p hp
      · exact wf.startIn
      · exact wf.endIn
      · exact wf.distinct
      · show (setNode s.grid _ _ s.startNode).isWall = false
        rw [setNode_other _ _ _ _ (Ne.symm hne.1)]; exact wf.startFree
      · show (setNode s.grid _ _ s.endNode).isWall = false
        rw [setNode_other _ _ _ _ (Ne.symm hne.2)]; exact wf.endFree
    · dsimp only
      rw [if_neg hne]
      exact wf
  · rw [if_neg hb]
    exact wf

/-! ## The two terminal branches -/

/-- What a search that ends in the `'Path found'` branch has computed. -/
theorem pathFound_facts {COLS ROWS : Nat} {s0 : State} (wf : WellFormed COLS ROWS s0)
    {fuel steps : Nat} {s1 : State}
    (h : search fuel steps (resetAStarState COLS ROWS s0) = some (Branch.pathFound, s1)) :
    s1.path.length = (s1.grid s0.endNode).g
      ∧ (∀ x, x ∈ s1.path →
          InBounds COLS ROWS x ∧ (s1.grid x).isWall = false ∧ x ≠ s0.startNode)
      ∧ List.Chain' (fun a b => b ∈ neighborsOf COLS ROWS a) (s0.startNode :: s1.path)
      ∧ (s0.startNode :: s1.path).getLast? = some s0.endNode
      ∧ (∀ k, Reach COLS ROWS (wallsOf s0) s0.startNode k s0.endNode →
          (s1.grid s0.endNode).g ≤ k)
      ∧ Reach COLS ROWS (wallsOf s0) s0.startNode (s1.grid s0.endNode).g s0.endNode
      ∧ GridOK COLS ROWS s1.grid
      ∧ (∀ p, (s1.grid p).isWall = (s0.grid p).isWall) := by
  obtain ⟨sp, hreach, hstep, _⟩ := search_last fuel steps _ _ _ Reachable.reset h
  obtain ⟨hs, he, core⟩ := reachable_inv wf hreach
  obtain ⟨h0, hcur, path, hpath, rfl⟩ := aStarStep_pathFound hstep
  have hmem : sp.endNode ∈ sp.openSet := hcur ▸ selected_mem sp.grid sp.openSet h0
  obtain ⟨p1, p2, p3, p4⟩ :=
    reconstructPath_some core fuel sp.endNode (Or.inl hmem) path hpath
  rw [he] at p1 p4 hmem
  refine ⟨p1, ?_, p3, p4, ?_, core.reach _ (Or.inl hmem), core.gridOK, core.walls⟩
  · intro x hx
    have := p2 x hx
    have hok := core.seen_ok x this.1
    exact ⟨hok.1, (core.walls x).trans hok.2, this.2⟩
  · intro k hk
    have := selected_optimal core h0 (k := k) (by
      show Reach COLS ROWS (wallsOf s0) s0.startNode k (currentNode sp)
      rw [hcur, he]; exact hk)
    have hc : sp.openSet.getD (lowestFIndex sp.grid sp.openSet) default = s0.endNode := by
      rw [← he]; exact hcur
    rw [hc] at this
    exact this

/-- What a search that ends in the `'No solution'` branch has established. -/
theorem noSolution_facts {COLS ROWS : Nat} {s0 : State} (wf : WellFormed COLS ROWS s0)
    {fuel steps : Nat} {s1 : State}
    (h : search fuel steps (resetAStarState COLS ROWS s0) = some (Branch.noSolution, s1)) :
    s1.noSolution = true ∧ s1.openSet = []
      ∧ ∀ k, ¬ Reach COLS ROWS (wallsOf s0) s0.startNode k s0.endNode := by
  obtain ⟨sp, hreach, hstep, _⟩ := search_last fuel steps _ _ _ Reachable.reset h
  obtain ⟨hs, he, core⟩ := reachable_inv wf hreach
  obtain ⟨hopen, rfl⟩ := aStarStep_noSolution hstep
  refine ⟨rfl, hopen, ?_⟩
  intro k hk
  rcases frontier core hk with ⟨hc, _⟩ | ⟨y, hy, _⟩
  · exact core.end_open hc
  · rw [hopen] at hy; cases hy

/-- The search from the reset state reaches a terminal branch within `COLS * ROWS` calls. -/
theorem search_total {COLS ROWS : Nat} {s0 : State} (wf : WellFormed COLS ROWS s0)
    (fuel steps : Nat) (hfuel : COLS * ROWS ≤ fuel) (hsteps : COLS * ROWS ≤ steps) :
    ∃ b s1, search fuel steps (resetAStarState COLS ROWS s0) = some (b, s1)
      ∧ b ≠ Branch.running :=
  search_terminates wf.endIn fuel hfuel steps _ (reset_inv wf) (by
    show COLS * ROWS ≤ steps + 0
    omega)

/-- The reported route, with the start node put in front, is a route from start to end. -/
theorem pathFound_route {COLS ROWS : Nat} {s0 : State} (wf : WellFormed COLS ROWS s0)
    {fuel steps : Nat} {s1 : State}
    (h : search fuel steps (resetAStarState COLS ROWS s0) = some (Branch.pathFound, s1)) :
    IsRouteFromTo COLS ROWS s0.grid s0.startNode s0.endNode (s0.startNode :: s1.path) := by
  obtain ⟨_, p2, p3, p4, _, _, _, hw⟩ := pathFound_facts wf h
  refine ⟨⟨?_, ?_⟩, rfl, p4⟩
  · intro p hp
    rcases List.mem_cons.mp hp with h1 | h1
    · rw [h1]; exact ⟨wf.startIn, wf.startFree⟩
    · have := p2 p h1
      exact ⟨this.1, (hw p).symm.trans this.2.1⟩
  · exact p3.imp (fun a b hab => adjacent_of_mem_neighborsOf hab)

/-! ## Reachability in particular layouts -/

theorem reach_free {COLS ROWS : Nat} {W : Pos → Bool} {st : Pos} (hst : W st = false)
    {k : Nat} {x : Pos} (h : Reach COLS ROWS W st k x) : W x = false := by
  cases h with
  | start => exact hst
  | move _ _ hw => exact hw

/-- In a grid without walls the end corner is reached from the start corner along the first
row and then along the last column. -/
theorem open_grid_reach {COLS ROWS : Nat} {W : Pos → Bool} (hC : 0 < COLS) (hR : 0 < ROWS)
    (hW : ∀ p, InBounds COLS ROWS p → W p = false) :
    Reach COLS ROWS W ⟨0, 0⟩ ((COLS - 1) + (ROWS - 1)) ⟨COLS - 1, ROWS - 1⟩ := by
  have hrow : ∀ i, i < COLS → Reach COLS ROWS W ⟨0, 0⟩ i ⟨i, 0⟩ := by
    intro i
    induction i with
    | zero => intro _; exact Reach.start
    | succ i ih =>
      intro hi
      refine Reach.move (ih (by omega)) ?_ (hW _ ⟨hi, hR⟩)
      rw [mem_neighborsOf]
      exact Or.inl ⟨by show i < COLS - 1; omega, rfl⟩
  have hcol : ∀ j, j < ROWS → Reach COLS ROWS W ⟨0, 0⟩ ((COLS - 1) + j) ⟨COLS - 1, j⟩ := by
    intro j
    induction j with
    | zero => intro _; exact hrow (COLS - 1) (by omega)
    | succ j ih =>
      intro hj
      refine Reach.move (ih (by omega)) ?_ (hW _ ⟨by show COLS - 1 < COLS; omega, hj⟩)
      rw [mem_neighborsOf]
      exact Or.inr (Or.inr (Or.inl ⟨by show j < ROWS - 1; omega, rfl⟩))
  exact hcol (ROWS - 1) (by omega)

/-- No route leads to an end node all of whose neighbours in the grid are walls. -/
theorem enclosed_unreachable {COLS ROWS : Nat} {s0 : State} (wf : WellFormed COLS ROWS s0)
    (henc : ∀ nb, InBounds COLS ROWS nb → Adjacent s0.endNode nb → (s0.grid nb).isWall = true)
    (k : Nat) : ¬ Reach COLS ROWS (wallsOf s0) s0.startNode k s0.endNode := by
  intro h
  generalize hx : s0.endNode = x at h
  cases h with
  | start => exact wf.distinct hx.symm
  | @move k y _ hprev hmem _ =>
    have hyIn := reach_inBounds COLS ROWS _ _ wf.startIn hprev
    have hfree : wallsOf s0 y = false := reach_free (by exact wf.startFree) hprev
    have hadj := adjacent_symm (adjacent_of_mem_neighborsOf hmem)
    rw [← hx] at hadj
    have := henc y hyIn hadj
    rw [show wallsOf s0 y = (s0.grid y).isWall from rfl, this] at hfree
    cases hfree

theorem initializeGrid_noWalls (COLS ROWS : Nat) (p : Pos) :
    ((initializeGrid COLS ROWS).grid p).isWall = false := by
  rw [initializeGrid_grid]
  by_cases hp : InBounds COLS ROWS p <;> simp [hp, Node.new]

/-! ## The claims on the outcome of a search -/

/-- C1, counterexample: on the grid of 2 columns and 1 row without walls, start `(0,0)` and
end `(1,0)`, the search from the reset state ends in the `'Path found'` branch and reports the
path `[(1,0)]`, whose first cell is not the start node. -/
theorem reported_path_omits_start :
    WellFormed 2 1 lineGrid
      ∧ ∃ s1, search 2 2 (resetAStarState 2 1 lineGrid) = some (Branch.pathFound, s1)
        ∧ s1.path = [⟨1, 0⟩] ∧ s1.path.head? ≠ some lineGrid.startNode :=
  ⟨initializeGrid_wellFormed 2 1 (by decide), lineGridFound, rfl, rfl, by decide⟩

/-- C1, as amended: when a search from the reset state ends in the `'Path found'` branch, the
reported path is non-empty, its last cell is `endNode`, `startNode` is not in it, and its first
cell is in the neighbours array of `startNode`. -/
theorem reported_path_endpoints (COLS ROWS : Nat) (s0 : State) (wf : WellFormed COLS ROWS s0)
    (fuel steps : Nat) (s1 : State)
    (h : search fuel steps (resetAStarState COLS ROWS s0) = some (Branch.pathFound, s1)) :
    s1.path ≠ [] ∧ s1.path.getLast? = some s0.endNode ∧ s0.startNode ∉ s1.path
      ∧ ∃ x, s1.path.head? = some x ∧ x ∈ (s1.grid s0.startNode).neighbors := by
  obtain ⟨_, p2, p3, p4, _, _, hok, _⟩ := pathFound_facts wf h
  cases hpath : s1.path with
  | nil =>
    rw [hpath] at p4
    simp only [List.getLast?_singleton, Option.some.injEq] at p4
    exact absurd p4 wf.distinct
  | cons x rest =>
    rw [hpath] at p2 p3 p4
    refine ⟨by simp, ?_, ?_, x, rfl, ?_⟩
    · rw [List.getLast?_cons_cons] at p4; exact p4
    · intro hmem; exact (p2 _ hmem).2.2 rfl
    · rw [hok _ wf.startIn]
      exact (List.chain'_cons.mp p3).1

/-- C1, witness: the amended statement at the search on `lineGrid`, with its hypotheses
discharged there. -/
theorem reported_path_endpoints_witness :
    WellFormed 2 1 lineGrid
      ∧ search 2 2 (resetAStarState 2 1 lineGrid) = some (Branch.pathFound, lineGridFound)
      ∧ (lineGridFound.path ≠ [] ∧ lineGridFound.path.getLast? = some lineGrid.endNode
        ∧ lineGrid.startNode ∉ lineGridFound.path
        ∧ ∃ x, lineGridFound.path.head? = some x
          ∧ x ∈ (lineGridFound.grid lineGrid.startNode).neighbors) :=
  ⟨initializeGrid_wellFormed 2 1 (by decide), rfl,
    reported_path_endpoints 2 1 lineGrid (initializeGrid_wellFormed 2 1 (by decide)) 2 2
      lineGridFound rfl⟩

/-- C2: when a search from the reset state ends in the `'Path found'` branch, `endNode.g` is
the number of cells of the reported path (the length of the chain of `previous` links from
`endNode` back to `startNode`), the reported cells after `startNode` form a route from
`startNode` to `endNode` with `endNode.g` moves, and every route from `startNode` to `endNode`
has at least `endNode.g` moves, that is at least `endNode.g + 1` cells. -/
theorem found_route_is_shortest (COLS ROWS : Nat) (s0 : State) (wf : WellFormed COLS ROWS s0)
    (fuel steps : Nat) (s1 : State)
    (h : search fuel steps (resetAStarState COLS ROWS s0) = some (Branch.pathFound, s1)) :
    (s1.grid s0.endNode).g = s1.path.length
      ∧ IsRouteFromTo COLS ROWS s0.grid s0.startNode s0.endNode (s0.startNode :: s1.path)
      ∧ ∀ r, IsRouteFromTo COLS ROWS s0.grid s0.startNode s0.endNode r →
          (s1.grid s0.endNode).g + 1 ≤ r.length := by
  obtain ⟨p1, _, _, _, p5, _, _, _⟩ := pathFound_facts wf h
  refine ⟨p1.symm, pathFound_route wf h, ?_⟩
  intro r hr
  have hle := p5 _ (reach_of_route hr)
  have hpos : 0 < r.length := by
    cases r with
    | nil => have := hr.2.1; simp at this
    | cons a r => simp
  omega

/-- C2, witness: the statement at the search on `cornerGrid`, where the wall on `(1,0)`
leaves the route `(0,0), (0,1), (1,1)` of 2 moves. -/
theorem found_route_is_shortest_witness :
    WellFormed 2 2 cornerGrid
      ∧ search 4 4 (resetAStarState 2 2 cornerGrid) = some (Branch.pathFound, cornerGridFound)
      ∧ (cornerGridFound.grid cornerGrid.endNode).g = cornerGridFound.path.length
      ∧ IsRouteFromTo 2 2 cornerGrid.grid cornerGrid.startNode cornerGrid.endNode
          (cornerGrid.startNode :: cornerGridFound.path)
      ∧ (cornerGridFound.grid cornerGrid.endNode).g + 1
          ≤ [(⟨0, 0⟩ : Pos), ⟨0, 1⟩, ⟨1, 1⟩].length :=
  have wf : WellFormed 2 2 cornerGrid :=
    clickWall_wellFormed (initializeGrid_wellFormed 2 2 (by decide)) 1 0
  have hroute : IsRouteFromTo 2 2 cornerGrid.grid cornerGrid.startNode cornerGrid.endNode
      [⟨0, 0⟩, ⟨0, 1⟩, ⟨1, 1⟩] := by
    refine ⟨⟨by decide, ?_⟩, rfl, rfl⟩
    exact List.Chain'.cons (by decide) (List.Chain'.cons (by decide) (List.chain'_singleton _))
  have hthm := found_route_is_shortest 2 2 cornerGrid wf 4 4 cornerGridFound rfl
  ⟨wf, rfl, hthm.1, hthm.2.1, hthm.2.2 _ hroute⟩

/-- A terminal branch is one of the two returns of `aStarStep`. -/
theorem terminal_cases {b : Branch} (h : b ≠ Branch.running) :
    b = Branch.pathFound ∨ b = Branch.noSolution := by
  cases b with
  | pathFound => exact Or.inl rfl
  | noSolution => exact Or.inr rfl
  | running => exact absurd rfl h

/-- When the end node is reached by some sequence of moves, the search ends in the
`'Path found'` branch. -/
theorem found_of_reach {COLS ROWS : Nat} {s0 : State} (wf : WellFormed COLS ROWS s0)
    (fuel steps : Nat) (hfuel : COLS * ROWS ≤ fuel) (hsteps : COLS * ROWS ≤ steps) {k : Nat}
    (hk : Reach COLS ROWS (wallsOf s0) s0.startNode k s0.endNode) :
    ∃ s1, search fuel steps (resetAStarState COLS ROWS s0) = some (Branch.pathFound, s1) := by
  obtain ⟨b, s1, hs, hb⟩ := search_total wf fuel steps hfuel hsteps
  rcases terminal_cases hb with rfl | rfl
  · exact ⟨s1, hs⟩
  · exact absurd hk ((noSolution_facts wf hs).2.2 k)

/-- When no sequence of moves reaches the end node, the search ends in the `'No solution'`
branch. -/
theorem noSolution_of_unreachable {COLS ROWS : Nat} {s0 : State}
    (wf : WellFormed COLS ROWS s0) (fuel steps : Nat) (hfuel : COLS * ROWS ≤ fuel)
    (hsteps : COLS * ROWS ≤ steps)
    (hno : ∀ k, ¬ Reach COLS ROWS (wallsOf s0) s0.startNode k s0.endNode) :
    ∃ s1, search fuel steps (resetAStarState COLS ROWS s0) = some (Branch.noSolution, s1)
      ∧ s1.noSolution = true ∧ s1.openSet = [] := by
  obtain ⟨b, s1, hs, hb⟩ := search_total wf fuel steps hfuel hsteps
  rcases terminal_cases hb with rfl | rfl
  · exact absurd (pathFound_facts wf hs).2.2.2.2.2.1 (hno _)
  · have := noSolution_facts wf hs
    exact ⟨s1, hs, this.1, this.2.1⟩

/-- C3, counterexample: on the grid of 3 columns and 3 rows without walls the search from
`(0,0)` to `(2,2)` ends in the `'Path found'` branch with a path of 4 cells, not of
`(3-1)+(3-1)+1 = 5` cells. -/
theorem open_grid_path_has_four_cells :
    WellFormed 3 3 squareGrid
      ∧ (∀ p, (squareGrid.grid p).isWall = false)
      ∧ ∃ s1, search 9 10 (resetAStarState 3 3 squareGrid) = some (Branch.pathFound, s1)
        ∧ s1.path = [⟨1, 0⟩, ⟨2, 0⟩, ⟨2, 1⟩, ⟨2, 2⟩]
        ∧ s1.path.length ≠ (3 - 1) + (3 - 1) + 1 := by
  refine ⟨initializeGrid_wellFormed 3 3 (by decide), initializeGrid_noWalls 3 3, ?_⟩
  have hmap : (search 9 10 (resetAStarState 3 3 squareGrid)).map (fun r => (r.1, r.2.path))
      = some (Branch.pathFound, [⟨1, 0⟩, ⟨2, 0⟩, ⟨2, 1⟩, ⟨2, 2⟩]) := by decide
  cases hs : search 9 10 (resetAStarState 3 3 squareGrid) with
  | none => rw [hs] at hmap; cases hmap
  | some res =>
    obtain ⟨b, s1⟩ := res
    rw [hs] at hmap
    simp only [Option.map_some', Option.some.injEq, Prod.mk.injEq] at hmap
    obtain ⟨rfl, hpath⟩ := hmap
    exact ⟨s1, rfl, hpath, by rw [hpath]; decide⟩

/-- C3, as amended: for every grid of `COLS` columns and `ROWS` rows with `COLS * ROWS ≥ 2`
and no walls, the search from start `(0,0)` to end `(COLS-1, ROWS-1)`, started from the reset
state and stepped with `aStarStep` until it stops, ends in the `'Path found'` branch and the
reported path has exactly `(COLS-1) + (ROWS-1)` cells. -/
theorem open_grid_path_length (COLS ROWS : Nat) (s0 : State) (wf : WellFormed COLS ROWS s0)
    (hwalls : ∀ p, InBounds COLS ROWS p → (s0.grid p).isWall = false)
    (hstart : s0.startNode = ⟨0, 0⟩) (hend : s0.endNode = ⟨COLS - 1, ROWS - 1⟩)
    (fuel steps : Nat) (hfuel : COLS * ROWS ≤ fuel) (hsteps : COLS * ROWS ≤ steps) :
    ∃ s1, search fuel steps (resetAStarState COLS ROWS s0) = some (Branch.pathFound, s1)
      ∧ s1.path.length = (COLS - 1) + (ROWS - 1) := by
  have hC : 0 < COLS := by have := wf.startIn.1; omega
  have hR : 0 < ROWS := by have := wf.startIn.2; omega
  have hreach : Reach COLS ROWS (wallsOf s0) s0.startNode ((COLS - 1) + (ROWS - 1))
      s0.endNode := by
    rw [hstart, hend]
    exact open_grid_reach hC hR hwalls
  obtain ⟨s1, hs⟩ := found_of_reach wf fuel steps hfuel hsteps hreach
  refine ⟨s1, hs, ?_⟩
  obtain ⟨p1, _, _, _, p5, p6, _, _⟩ := pathFound_facts wf hs
  have hup := p5 _ hreach
  have hlow := heuristic_reach s0.endNode p6
  rw [heuristic_self] at hlow
  have hh : heuristic s0.startNode s0.endNode = (COLS - 1) + (ROWS - 1) := by
    rw [hstart, hend]
    unfold heuristic
    simp only
    omega
  omega

/-- C3, witness: the amended statement on the 25 × 20 grid of the program, right after
`initializeGrid`; the reported path has `24 + 19 = 43` cells. -/
theorem open_grid_path_length_witness :
    WellFormed 25 20 (initializeGrid 25 20)
      ∧ 25 * 20 ≤ 500
      ∧ ∃ s1, search 500 500 (resetAStarState 25 20 (initializeGrid 25 20))
          = some (Branch.pathFound, s1)
        ∧ s1.path.length = (25 - 1) + (20 - 1) :=
  ⟨initializeGrid_wellFormed 25 20 (by decide), by decide,
    open_grid_path_length 25 20 (initializeGrid 25 20)
      (initializeGrid_wellFormed 25 20 (by decide))
      (fun p _ => initializeGrid_noWalls 25 20 p) rfl rfl 500 500 (by decide) (by decide)⟩

/-- C4: a search from the reset state ends in the `'Path found'` branch if and only if there
is a route (a sequence of edge-adjacent non-wall cells of the grid) from `startNode` to
`endNode`, and it ends in the `'No solution'` branch, with `noSolution = true`, if and only if
there is no such route. -/
theorem search_decides_reachability (COLS ROWS : Nat) (s0 : State)
    (wf : WellFormed COLS ROWS s0) (fuel steps : Nat) (hfuel : COLS * ROWS ≤ fuel)
    (hsteps : COLS * ROWS ≤ steps) :
    ((∃ s1, search fuel steps (resetAStarState COLS ROWS s0) = some (Branch.pathFound, s1))
        ↔ ∃ r, IsRouteFromTo COLS ROWS s0.grid s0.startNode s0.endNode r)
      ∧ ((∃ s1, search fuel steps (resetAStarState COLS ROWS s0)
              = some (Branch.noSolution, s1) ∧ s1.noSolution = true)
        ↔ ¬ ∃ r, IsRouteFromTo COLS ROWS s0.grid s0.startNode s0.endNode r) := by
  constructor
  · constructor
    · rintro ⟨s1, hs⟩
      exact ⟨_, pathFound_route wf hs⟩
    · rintro ⟨r, hr⟩
      exact found_of_reach wf fuel steps hfuel hsteps (reach_of_route hr)
  · constructor
    · rintro ⟨s1, hs, _⟩ ⟨r, hr⟩
      exact (noSolution_facts wf hs).2.2 _ (reach_of_route hr)
    · intro hno
      obtain ⟨b, s1, hs, hb⟩ := search_total wf fuel steps hfuel hsteps
      rcases terminal_cases hb with rfl | rfl
      · exact absurd ⟨_, pathFound_route wf hs⟩ hno
      · exact ⟨s1, hs, (noSolution_facts wf hs).1⟩

/-- C4, witness: on `cornerGrid` a route exists and the search ends in `'Path found'`. -/
theorem search_decides_reachability_witness :
    WellFormed 2 2 cornerGrid ∧ 2 * 2 ≤ 4
      ∧ IsRouteFromTo 2 2 cornerGrid.grid cornerGrid.startNode cornerGrid.endNode
          [⟨0, 0⟩, ⟨0, 1⟩, ⟨1, 1⟩]
      ∧ ∃ s1, search 4 4 (resetAStarState 2 2 cornerGrid) = some (Branch.pathFound, s1) :=
  have wf : WellFormed 2 2 cornerGrid :=
    clickWall_wellFormed (initializeGrid_wellFormed 2 2 (by decide)) 1 0
  have hroute : IsRouteFromTo 2 2 cornerGrid.grid cornerGrid.startNode cornerGrid.endNode
      [⟨0, 0⟩, ⟨0, 1⟩, ⟨1, 1⟩] :=
    ⟨⟨by decide,
      List.Chain'.cons (by decide) (List.Chain'.cons (by decide) (List.chain'_singleton _))⟩,
      rfl, rfl⟩
  ⟨wf, by decide, hroute,
    (search_decides_reachability 2 2 cornerGrid wf 4 4 (by decide) (by decide)).1.mpr
      ⟨_, hroute⟩⟩

/-- C5: when every cell of the grid that shares an edge with `endNode` is a wall, the search
from the reset state ends in the `'No solution'` branch with `noSolution = true` and an empty
`openSet`, and it does not end in the `'Path found'` branch. -/
theorem enclosed_end_no_solution (COLS ROWS : Nat) (s0 : State)
    (wf : WellFormed COLS ROWS s0)
    (henc : ∀ nb, InBounds COLS ROWS nb → Adjacent s0.endNode nb → (s0.grid nb).isWall = true)
    (fuel steps : Nat) (hfuel : COLS * ROWS ≤ fuel) (hsteps : COLS * ROWS ≤ steps) :
    (∃ s1, search fuel steps (resetAStarState COLS ROWS s0) = some (Branch.noSolution, s1)
        ∧ s1.noSolution = true ∧ s1.openSet = [])
      ∧ ∀ s2, search fuel steps (resetAStarState COLS ROWS s0)
          ≠ some (Branch.pathFound, s2) := by
  obtain ⟨s1, hs, h1, h2⟩ := noSolution_of_unreachable wf fuel steps hfuel hsteps
    (enclosed_unreachable wf henc)
  refine ⟨⟨s1, hs, h1, h2⟩, ?_⟩
  intro s2 hs2
  rw [hs] at hs2
  cases hs2

/-- C5, witness: the statement on `enclosedGrid`, where both neighbours `(1,2)` and `(2,1)` of
the end node `(2,2)` are walls. -/
theorem enclosed_end_no_solution_witness :
    WellFormed 3 3 enclosedGrid
      ∧ (∀ nb, nb ∈ neighborsOf 3 3 enclosedGrid.endNode → (enclosedGrid.grid nb).isWall = true)
      ∧ 3 * 3 ≤ 9
      ∧ (∃ s1, search 9 9 (resetAStarState 3 3 enclosedGrid) = some (Branch.noSolution, s1)
          ∧ s1.noSolution = true ∧ s1.openSet = [])
      ∧ ∀ s2, search 9 9 (resetAStarState 3 3 enclosedGrid) ≠ some (Branch.pathFound, s2) :=
  have wf : WellFormed 3 3 enclosedGrid :=
    clickWall_wellFormed
      (clickWall_wellFormed (initializeGrid_wellFormed 3 3 (by decide)) 1 2) 2 1
  have hnb : ∀ nb, nb ∈ neighborsOf 3 3 enclosedGrid.endNode →
      (enclosedGrid.grid nb).isWall = true := by decide
  have hthm := enclosed_end_no_solution 3 3 enclosedGrid wf
    (fun nb hin hadj =>
      hnb nb ((mem_neighborsOf_iff_adjacent 3 3 _ nb wf.endIn).mpr ⟨hadj, hin⟩))
    9 9 (by decide) (by decide)
  ⟨wf, hnb, by decide, hthm.1, hthm.2⟩

/-- C6: from the reset state, repeated calls of `aStarStep` reach a terminal branch
(`'Path found'` or `'No solution'`) within `COLS * ROWS + 1` calls; every call that takes no
terminal branch moves one cell of `openSet` that was not closed before to the end of
`closedSet`, and afterwards no closed cell is in `openSet`. -/
theorem search_terminates_within (COLS ROWS : Nat) (s0 : State)
    (wf : WellFormed COLS ROWS s0) (fuel steps : Nat) (hfuel : COLS * ROWS ≤ fuel)
    (hsteps : COLS * ROWS + 1 ≤ steps) :
    (∃ b s1, search fuel steps (resetAStarState COLS ROWS s0) = some (b, s1)
        ∧ (b = Branch.pathFound ∨ b = Branch.noSolution))
      ∧ ∀ s s2, Reachable COLS ROWS s0 s → aStarStep fuel s = some (Branch.running, s2) →
          ∃ c, c ∈ s.openSet ∧ c ∉ s.closedSet ∧ s2.closedSet = s.closedSet ++ [c]
            ∧ ∀ p, p ∈ s2.closedSet → p ∉ s2.openSet := by
  constructor
  · obtain ⟨b, s1, hs, hb⟩ := search_total wf fuel steps hfuel (by omega)
    exact ⟨b, s1, hs, terminal_cases hb⟩
  · intro s s2 hr hstep
    have inv := reachable_inv wf hr
    obtain ⟨h0, hne, rfl⟩ := aStarStep_running hstep
    have inv2 := expand_inv inv h0 hne
    refine ⟨currentNode s, selected_mem s.grid s.openSet h0, ?_, rfl, ?_⟩
    · exact inv.2.2.disjoint _ (selected_mem s.grid s.openSet h0)
    · intro p hp hopen
      exact inv2.2.2.disjoint p hopen hp

/-- C6, witness: the statement on `cornerGrid`, with the first call of `aStarStep` as the
non-terminal call. -/
theorem search_terminates_within_witness :
    WellFormed 2 2 cornerGrid ∧ 2 * 2 ≤ 4 ∧ 2 * 2 + 1 ≤ 5
      ∧ (∃ b s1, search 4 5 (resetAStarState 2 2 cornerGrid) = some (b, s1)
          ∧ (b = Branch.pathFound ∨ b = Branch.noSolution))
      ∧ ∃ c, c ∈ (resetAStarState 2 2 cornerGrid).openSet
          ∧ c ∉ (resetAStarState 2 2 cornerGrid).closedSet
          ∧ (expand (resetAStarState 2 2 cornerGrid)).closedSet
              = (resetAStarState 2 2 cornerGrid).closedSet ++ [c]
          ∧ ∀ p, p ∈ (expand (resetAStarState 2 2 cornerGrid)).closedSet →
              p ∉ (expand (resetAStarState 2 2 cornerGrid)).openSet :=
  have wf : WellFormed 2 2 cornerGrid :=
    clickWall_wellFormed (initializeGrid_wellFormed 2 2 (by decide)) 1 0
  have hthm := search_terminates_within 2 2 cornerGrid wf 4 5 (by decide) (by decide)
  ⟨wf, by decide, by decide, hthm.1,
    hthm.2 (resetAStarState 2 2 cornerGrid) (expand (resetAStarState 2 2 cornerGrid))
      Reachable.reset rfl⟩

/-- C7: in the path reported by a search from the reset state, every two consecutive cells
share an edge and each is in the neighbours array of the other, and no cell of the path is a
wall. -/
theorem reported_path_contiguous (COLS ROWS : Nat) (s0 : State)
    (wf : WellFormed COLS ROWS s0) (fuel steps : Nat) (s1 : State)
    (h : search fuel steps (resetAStarState COLS ROWS s0) = some (Branch.pathFound, s1)) :
    List.Chain'
        (fun a b => Adjacent a b ∧ b ∈ (s1.grid a).neighbors ∧ a ∈ (s1.grid b).neighbors)
        s1.path
      ∧ ∀ p, p ∈ s1.path → (s1.grid p).isWall = false := by
  obtain ⟨_, p2, p3, _, _, _, hok, _⟩ := pathFound_facts wf h
  refine ⟨?_, fun p hp => (p2 p hp).2.1⟩
  have htail : List.Chain' (fun a b => b ∈ neighborsOf COLS ROWS a) s1.path := p3.tail
  refine (List.Chain'.iff_mem.mp htail).imp ?_
  rintro a b ⟨ha, hb, hab⟩
  refine ⟨adjacent_of_mem_neighborsOf hab, ?_, ?_⟩
  · rw [hok a (p2 a ha).1]; exact hab
  · rw [hok b (p2 b hb).1]; exact mem_neighborsOf_symm (p2 a ha).1 hab

/-- C7, witness: the statement at the path `[(0,1), (1,1)]` reported on `cornerGrid`. -/
theorem reported_path_contiguous_witness :
    WellFormed 2 2 cornerGrid
      ∧ search 4 4 (resetAStarState 2 2 cornerGrid) = some (Branch.pathFound, cornerGridFound)
      ∧ List.Chain'
          (fun a b => Adjacent a b ∧ b ∈ (cornerGridFound.grid a).neighbors
            ∧ a ∈ (cornerGridFound.grid b).neighbors)
          cornerGridFound.path
      ∧ (cornerGridFound.grid ⟨0, 1⟩).isWall = false :=
  have wf : WellFormed 2 2 cornerGrid :=
    clickWall_wellFormed (initializeGrid_wellFormed 2 2 (by decide)) 1 0
  have hthm := reported_path_contiguous 2 2 cornerGrid wf 4 4 cornerGridFound rfl
  ⟨wf, rfl, hthm.1, hthm.2 ⟨0, 1⟩ (by decide)⟩

/-! ## The claims on selection and on the reset state -/

theorem getD_of_getElem? {l : List Pos} {i : Nat} {p : Pos} (h : l[i]? = some p) :
    l.getD i default = p := by
  rw [List.getD_eq_getElem?_getD, h]; rfl

theorem lt_of_getElem? {l : List Pos} {i : Nat} {p : Pos} (h : l[i]? = some p) :
    i < l.length := by
  by_contra hlt
  rw [List.getElem?_eq_none (Nat.le_of_not_lt hlt)] at h
  cases h

/-- C8: when `openSet` is non-empty, the node that `aStarStep` selects is the entry of
`openSet` at index `lowestFIndex`; its `f` is at most the `f` of every entry of `openSet` and
strictly below the `f` of every entry at a smaller index. -/
theorem lowest_f_selected (s : State) (h : 0 < s.openSet.length) :
    lowestFIndex s.grid s.openSet < s.openSet.length
      ∧ s.openSet[lowestFIndex s.grid s.openSet]? = some (currentNode s)
      ∧ (∀ (i : Nat) (p : Pos), s.openSet[i]? = some p →
          (s.grid (currentNode s)).f ≤ (s.grid p).f)
      ∧ (∀ (i : Nat) (p : Pos), i < lowestFIndex s.grid s.openSet → s.openSet[i]? = some p →
          (s.grid (currentNode s)).f < (s.grid p).f) := by
  have hlt := lowestFIndex_lt s.grid s.openSet h
  refine ⟨hlt, ?_, ?_, ?_⟩
  · rw [List.getElem?_eq_getElem hlt]
    unfold currentNode
    rw [List.getD_eq_getElem _ _ hlt]
  · intro i p hp
    have := lowestFIndex_le s.grid s.openSet i (lt_of_getElem? hp)
    rwa [getD_of_getElem? hp] at this
  · intro i p hi hp
    have := lowestFIndex_first s.grid s.openSet i hi
    rwa [getD_of_getElem? hp] at this

/-- C8, witness: in `centreGridExpanded` the entries of `openSet` have `f = 4, 2, 4, 2`; the
selected index is 1, the first of the two entries with the least `f`. -/
theorem lowest_f_selected_witness :
    0 < centreGridExpanded.openSet.length
      ∧ lowestFIndex centreGridExpanded.grid centreGridExpanded.openSet = 1
      ∧ centreGridExpanded.openSet = [⟨2, 1⟩, ⟨0, 1⟩, ⟨1, 2⟩, ⟨1, 0⟩]
      ∧ currentNode centreGridExpanded = ⟨0, 1⟩
      ∧ (centreGridExpanded.grid (currentNode centreGridExpanded)).f
          ≤ (centreGridExpanded.grid ⟨1, 0⟩).f
      ∧ (centreGridExpanded.grid (currentNode centreGridExpanded)).f
          < (centreGridExpanded.grid ⟨2, 1⟩).f :=
  have h0 : 0 < centreGridExpanded.openSet.length := by decide
  have hthm := lowest_f_selected centreGridExpanded h0
  ⟨h0, by decide, by decide, by decide, hthm.2.2.1 3 ⟨1, 0⟩ (by decide),
    hthm.2.2.2 0 ⟨2, 1⟩ (by decide) (by decide)⟩

/-- C9, counterexample: on the grid of 2 columns and 1 row, after `resetAStarState` and
likewise right after `initializeGrid`, the start node has `h = 0` while
`heuristic(startNode, endNode) = 1`. -/
theorem reset_start_h_not_heuristic :
    ((resetAStarState 2 1 lineGrid).grid (resetAStarState 2 1 lineGrid).startNode).h = 0
      ∧ heuristic (resetAStarState 2 1 lineGrid).startNode
          (resetAStarState 2 1 lineGrid).endNode = 1
      ∧ ((resetAStarState 2 1 lineGrid).grid (resetAStarState 2 1 lineGrid).startNode).h
          ≠ heuristic (resetAStarState 2 1 lineGrid).startNode
              (resetAStarState 2 1 lineGrid).endNode
      ∧ (lineGrid.grid lineGrid.startNode).h
          ≠ heuristic lineGrid.startNode lineGrid.endNode := by
  decide

/-- C9, as amended: right after `resetAStarState`, and likewise right after `initializeGrid`,
`startNode` is the only member of `openSet` and has `g = 0`, `h = 0`, `f = 0` and no
`previous`, `closedSet` is empty, and every other cell is in neither `openSet` nor
`closedSet`. -/
theorem reset_start_state (COLS ROWS : Nat) (s : State)
    (hin : InBounds COLS ROWS s.startNode) :
    ((resetAStarState COLS ROWS s).openSet = [(resetAStarState COLS ROWS s).startNode]
        ∧ (resetAStarState COLS ROWS s).closedSet = []
        ∧ ((resetAStarState COLS ROWS s).grid (resetAStarState COLS ROWS s).startNode).g = 0
        ∧ ((resetAStarState COLS ROWS s).grid (resetAStarState COLS ROWS s).startNode).h = 0
        ∧ ((resetAStarState COLS ROWS s).grid (resetAStarState COLS ROWS s).startNode).f = 0
        ∧ ((resetAStarState COLS ROWS s).grid
            (resetAStarState COLS ROWS s).startNode).previous = none
        ∧ ∀ p, p ≠ (resetAStarState COLS ROWS s).startNode →
            p ∉ (resetAStarState COLS ROWS s).openSet
              ∧ p ∉ (resetAStarState COLS ROWS s).closedSet)
      ∧ ((initializeGrid COLS ROWS).openSet = [(initializeGrid COLS ROWS).startNode]
        ∧ (initializeGrid COLS ROWS).closedSet = []
        ∧ ((initializeGrid COLS ROWS).grid (initializeGrid COLS ROWS).startNode).g = 0
        ∧ ((initializeGrid COLS ROWS).grid (initializeGrid COLS ROWS).startNode).h = 0
        ∧ ((initializeGrid COLS ROWS).grid (initializeGrid COLS ROWS).startNode).f = 0
        ∧ ((initializeGrid COLS ROWS).grid (initializeGrid COLS ROWS).startNode).previous = none
        ∧ ∀ p, p ≠ (initializeGrid COLS ROWS).startNode →
            p ∉ (initializeGrid COLS ROWS).openSet
              ∧ p ∉ (initializeGrid COLS ROWS).closedSet) := by
  have hst : (resetAStarState COLS ROWS s).startNode = s.startNode := rfl
  have hnode : (resetAStarState COLS ROWS s).grid s.startNode
      = { s.grid s.startNode with f := 0, g := 0, h := 0, previous := none } := by
    rw [resetAStarState_grid, if_pos hin]
  have hinit : ∀ p, ((initializeGrid COLS ROWS).grid p).g = 0
      ∧ ((initializeGrid COLS ROWS).grid p).h = 0 ∧ ((initializeGrid COLS ROWS).grid p).f = 0
      ∧ ((initializeGrid COLS ROWS).grid p).previous = none := by
    intro p
    rw [initializeGrid_grid]
    by_cases hp : InBounds COLS ROWS p <;> simp [hp, Node.new]
  refine ⟨⟨rfl, rfl, ?_, ?_, ?_, ?_, ?_⟩, ⟨rfl, rfl, (hinit _).1, (hinit _).2.1,
    (hinit _).2.2.1, (hinit _).2.2.2, ?_⟩⟩
  · rw [hst, hnode]
  · rw [hst, hnode]
  · rw [hst, hnode]
  · rw [hst, hnode]
  · intro p hp
    refine ⟨?_, by intro h; cases h⟩
    intro hmem
    exact hp (List.mem_singleton.mp hmem)
  · intro p hp
    refine ⟨?_, by intro h; cases h⟩
    intro hmem
    exact hp (List.mem_singleton.mp hmem)

/-- C9, witness: the amended statement at the reset of `cornerGridFound`, a state left by a
finished search, for the start node and for the cell `(0,1)`. -/
theorem reset_start_state_witness :
    InBounds 2 2 cornerGridFound.startNode
      ∧ (resetAStarState 2 2 cornerGridFound).openSet = [⟨0, 0⟩]
      ∧ ((resetAStarState 2 2 cornerGridFound).grid ⟨0, 0⟩).h = 0
      ∧ ((resetAStarState 2 2 cornerGridFound).grid ⟨0, 0⟩).f = 0
      ∧ (⟨0, 1⟩ : Pos) ∉ (resetAStarState 2 2 cornerGridFound).openSet
      ∧ (⟨0, 1⟩ : Pos) ∉ (resetAStarState 2 2 cornerGridFound).closedSet :=
  have hin : InBounds 2 2 cornerGridFound.startNode := by decide
  have hthm := (reset_start_state 2 2 cornerGridFound hin).1
  ⟨hin, hthm.1, hthm.2.2.2.1, hthm.2.2.2.2.1,
    (hthm.2.2.2.2.2.2 ⟨0, 1⟩ (by decide)).1, (hthm.2.2.2.2.2.2 ⟨0, 1⟩ (by decide)).2⟩

theorem State.eq_of_fields {a b : State} (h1 : a.grid = b.grid)
    (h2 : a.startNode = b.startNode) (h3 : a.endNode = b.endNode)
    (h4 : a.openSet = b.openSet) (h5 : a.closedSet = b.closedSet) (h6 : a.path = b.path)
    (h7 : a.noSolution = b.noSolution) (h8 : a.algorithmRunning = b.algorithmRunning) :
    a = b := by
  cases a; cases b; simp_all

/-- C10: from any prior state, after `resetAStarState` we have `openSet = [startNode]`,
`closedSet = []`, `path = []`, `noSolution = false`, every cell of the grid has `f = 0`,
`g = 0`, `h = 0` and no `previous`, while every `isWall` flag, `startNode` and `endNode` are
unchanged; two prior states with the same start node, end node, wall layout and neighbours
arrays are reset to states that agree on every variable and on every cell of the grid; and
`resetAStarState` is idempotent. -/
theorem reset_leaks_nothing (COLS ROWS : Nat) (s : State) :
    (resetAStarState COLS ROWS s).openSet = [s.startNode]
      ∧ (resetAStarState COLS ROWS s).closedSet = []
      ∧ (resetAStarState COLS ROWS s).path = []
      ∧ (resetAStarState COLS ROWS s).noSolution = false
      ∧ (∀ p, InBounds COLS ROWS p →
          ((resetAStarState COLS ROWS s).grid p).f = 0
            ∧ ((resetAStarState COLS ROWS s).grid p).g = 0
            ∧ ((resetAStarState COLS ROWS s).grid p).h = 0
            ∧ ((resetAStarState COLS ROWS s).grid p).previous = none)
      ∧ (∀ p, ((resetAStarState COLS ROWS s).grid p).isWall = (s.grid p).isWall)
      ∧ (resetAStarState COLS ROWS s).startNode = s.startNode
      ∧ (resetAStarState COLS ROWS s).endNode = s.endNode
      ∧ (∀ s2 : State, s2.startNode = s.startNode → s2.endNode = s.endNode →
          (∀ p, InBounds COLS ROWS p → (s2.grid p).isWall = (s.grid p).isWall
            ∧ (s2.grid p).neighbors = (s.grid p).neighbors) →
          (resetAStarState COLS ROWS s2).openSet = (resetAStarState COLS ROWS s).openSet
            ∧ (resetAStarState COLS ROWS s2).closedSet = (resetAStarState COLS ROWS s).closedSet
            ∧ (resetAStarState COLS ROWS s2).path = (resetAStarState COLS ROWS s).path
            ∧ (resetAStarState COLS ROWS s2).noSolution
                = (resetAStarState COLS ROWS s).noSolution
            ∧ (resetAStarState COLS ROWS s2).algorithmRunning
                = (resetAStarState COLS ROWS s).algorithmRunning
            ∧ (resetAStarState COLS ROWS s2).startNode = (resetAStarState COLS ROWS s).startNode
            ∧ (resetAStarState COLS ROWS s2).endNode = (resetAStarState COLS ROWS s).endNode
            ∧ ∀ p, InBounds COLS ROWS p →
                (resetAStarState COLS ROWS s2).grid p = (resetAStarState COLS ROWS s).grid p)
      ∧ resetAStarState COLS ROWS (resetAStarState COLS ROWS s)
          = resetAStarState COLS ROWS s := by
  refine ⟨rfl, rfl, rfl, rfl, ?_, ?_, rfl, rfl, ?_, ?_⟩
  · intro p hp
    rw [resetAStarState_grid, if_pos hp]
    exact ⟨rfl, rfl, rfl, rfl⟩
  · intro p
    rw [resetAStarState_grid]
    by_cases hp : InBounds COLS ROWS p <;> simp [hp]
  · intro s2 hs he hcells
    refine ⟨?_, rfl, rfl, rfl, rfl, hs, he, ?_⟩
    · show [s2.startNode] = [s.startNode]
      rw [hs]
    · intro p hp
      rw [resetAStarState_grid, resetAStarState_grid, if_pos hp, if_pos hp]
      have := hcells p hp
      simp only [Node.mk.injEq, this.1, this.2, and_self]
  · apply State.eq_of_fields
    · funext p
      rw [resetAStarState_grid, resetAStarState_grid]
      by_cases hp : InBounds COLS ROWS p <;> simp [hp]
    all_goals rfl

/-- C10, witness: the statement at `cornerGridFound`, the state left by a search that ended in
`'Path found'`: its reset agrees with the reset of `cornerGrid`, the state before the
search. -/
theorem reset_leaks_nothing_witness :
    (resetAStarState 2 2 cornerGridFound).openSet = [⟨0, 0⟩]
      ∧ (resetAStarState 2 2 cornerGridFound).path = []
      ∧ ((resetAStarState 2 2 cornerGridFound).grid ⟨1, 1⟩).g = 0
      ∧ ((resetAStarState 2 2 cornerGridFound).grid ⟨1, 1⟩).previous = none
      ∧ (cornerGridFound.grid ⟨1, 1⟩).g = 2
      ∧ (resetAStarState 2 2 cornerGrid).grid ⟨1, 1⟩
          = (resetAStarState 2 2 cornerGridFound).grid ⟨1, 1⟩ :=
  have hthm := reset_leaks_nothing 2 2 cornerGridFound
  have hcell := hthm.2.2.2.2.1 ⟨1, 1⟩ (by decide)
  have hsame := hthm.2.2.2.2.2.2.2.2.1 cornerGrid rfl rfl
    (fun p hp => by
      obtain ⟨c, r⟩ := p
      have hc : c < 2 := hp.1
      have hr : r < 2 := hp.2
      interval_cases c <;> interval_cases r <;> decide)
  ⟨hthm.1, hthm.2.2.1, hcell.2.1, hcell.2.2.2, by decide,
    hsame.2.2.2.2.2.2.2 ⟨1, 1⟩ (by decide)⟩

/-! ## Terminal calls -/

theorem aStarStep_of_empty (fuel : Nat) (s : State) (h : s.openSet = []) :
    aStarStep fuel s
      = some (Branch.noSolution, { s with noSolution := true, algorithmRunning := false }) := by
  unfold aStarStep
  simp [h]

theorem reconstructPath_mono (grid : Pos → Node) (fuel fuel2 : Nat) (n : Pos)
    (path : List Pos) (hle : fuel ≤ fuel2) (h : reconstructPath grid fuel n = some path) :
    reconstructPath grid fuel2 n = some path := by
  unfold reconstructPath at h ⊢
  cases hr : reconstructLoop grid fuel n [] with
  | none => simp [hr] at h
  | some r =>
    have := reconstructLoop_mono grid fuel n [] r (fuel2 - fuel) hr
    rw [Nat.add_sub_cancel' hle] at this
    rw [this]
    simpa [hr] using h

/-- C11: a call of `aStarStep` on an empty `openSet` takes the `'No solution'` branch, sets
`noSolution = true` and leaves `openSet`, `closedSet`, `path` and the whole node store as they
were, and every further call does the same and returns the same state; a call that takes the
`'Path found'` branch leaves `openSet`, `closedSet` and the node store as they were, and a
further call takes the same branch and reports the same path again. -/
theorem terminal_call_is_noop (fuel : Nat) (s : State) :
    (s.openSet = [] →
        ∃ s1, aStarStep fuel s = some (Branch.noSolution, s1)
          ∧ s1.openSet = s.openSet ∧ s1.closedSet = s.closedSet ∧ s1.path = s.path
          ∧ s1.grid = s.grid ∧ s1.noSolution = true
          ∧ (∀ fuel2, aStarStep fuel2 s1 = some (Branch.noSolution, s1))
          ∧ ∀ s2, Calls s1 s2 → s2 = s1)
      ∧ ∀ s1, aStarStep fuel s = some (Branch.pathFound, s1) →
          s1.openSet = s.openSet ∧ s1.closedSet = s.closedSet ∧ s1.grid = s.grid
            ∧ ∀ fuel2, fuel ≤ fuel2 → aStarStep fuel2 s1 = some (Branch.pathFound, s1) := by
  constructor
  · intro hopen
    have hfix : ∀ fuel2, aStarStep fuel2
        { s with noSolution := true, algorithmRunning := false }
        = some (Branch.noSolution, { s with noSolution := true, algorithmRunning := false }) :=
      fun fuel2 => aStarStep_of_empty fuel2 _ hopen
    refine ⟨_, aStarStep_of_empty fuel s hopen, rfl, rfl, rfl, rfl, rfl, hfix, ?_⟩
    intro s2 hcalls
    induction hcalls with
    | none => rfl
    | call fuel2 b _ hstep ih =>
      rw [ih, hfix fuel2] at hstep
      simp only [Option.some.injEq, Prod.mk.injEq] at hstep
      exact hstep.2.symm
  · intro s1 hstep
    obtain ⟨h0, hcur, path, hpath, rfl⟩ := aStarStep_pathFound hstep
    refine ⟨rfl, rfl, rfl, ?_⟩
    intro fuel2 hle
    have hpath2 := reconstructPath_mono s.grid fuel fuel2 s.endNode path hle hpath
    have hcur2 : currentNode { s with algorithmRunning := false, path := path }
        = s.endNode := hcur
    unfold aStarStep
    simp only [gt_iff_lt, h0, if_true, hcur2, hpath2]

/-- C11, witness: the statement at `enclosedGridExhausted`, whose `openSet` is empty, and at
the state of the search on `cornerGrid` in which the end node is selected. -/
theorem terminal_call_is_noop_witness :
    enclosedGridExhausted.openSet = []
      ∧ aStarStep 4 (expand (expand (resetAStarState 2 2 cornerGrid)))
          = some (Branch.pathFound, cornerGridFound)
      ∧ (∃ s1, aStarStep 9 enclosedGridExhausted = some (Branch.noSolution, s1)
          ∧ s1.closedSet = enclosedGridExhausted.closedSet ∧ s1.noSolution = true
          ∧ aStarStep 9 s1 = some (Branch.noSolution, s1))
      ∧ aStarStep 4 cornerGridFound = some (Branch.pathFound, cornerGridFound) :=
  have hempty : enclosedGridExhausted.openSet = [] := by decide
  have h1 := (terminal_call_is_noop 9 enclosedGridExhausted).1 hempty
  have h2 := (terminal_call_is_noop 4 (expand (expand (resetAStarState 2 2 cornerGrid)))).2
    cornerGridFound rfl
  ⟨hempty, rfl,
    h1.elim (fun s1 hs => ⟨s1, hs.1, hs.2.2.1, hs.2.2.2.2.2.1, hs.2.2.2.2.2.2.1 9⟩),
    h2.2.2.2 4 (Nat.le_refl 4)⟩

/-! ## The heuristic as a distance bound -/

theorem heuristic_adjacent {a b : Pos} (e : Pos) (h : Adjacent a b) :
    heuristic a e ≤ 1 + heuristic b e := by
  unfold Adjacent at h
  unfold heuristic
  omega

theorem heuristic_chain (e : Pos) (r : List Pos) :
    ∀ a, List.Chain' Adjacent r → r.head? = some a → r.getLast? = some e →
      heuristic a e + 1 ≤ r.length := by
  induction r with
  | nil => intro a _ h; simp at h
  | cons x rest ih =>
    intro a hch hhead hlast
    simp only [List.head?_cons, Option.some.injEq] at hhead
    subst hhead
    cases rest with
    | nil =>
      simp only [List.getLast?_singleton, Option.some.injEq] at hlast
      subst hlast
      rw [heuristic_self]; simp
    | cons y rest2 =>
      rw [List.chain'_cons] at hch
      rw [List.getLast?_cons_cons] at hlast
      have := ih y hch.2 rfl hlast
      have hadj := heuristic_adjacent e hch.1
      simp only [List.length_cons] at this ⊢
      omega

/-- C13: `heuristic` is the Manhattan distance, it is never negative, it is `0` from a cell to
itself, it changes by at most 1 between two cells that share an edge, and from `a` to `e` it
is at most the number of moves of any sequence of edge-adjacent cells from `a` to `e`, hence
of any route in any wall layout. -/
theorem heuristic_admissible_consistent (a b e : Pos) :
    ((heuristic a e : Int) = |(a.col : Int) - (e.col : Int)| + |(a.row : Int) - (e.row : Int)|)
      ∧ (0 : Int) ≤ (heuristic a e : Int)
      ∧ heuristic e e = 0
      ∧ (Adjacent a b → heuristic a e ≤ 1 + heuristic b e)
      ∧ (∀ r : List Pos, List.Chain' Adjacent r → r.head? = some a → r.getLast? = some e →
          heuristic a e + 1 ≤ r.length)
      ∧ ∀ (COLS ROWS : Nat) (grid : Pos → Node) (r : List Pos),
          IsRouteFromTo COLS ROWS grid a e r → heuristic a e + 1 ≤ r.length := by
  refine ⟨?_, Int.natCast_nonneg _, heuristic_self e, heuristic_adjacent e,
    fun r h1 h2 h3 => heuristic_chain e r a h1 h2 h3, ?_⟩
  · unfold heuristic
    rw [Int.natCast_add, Int.natCast_natAbs, Int.natCast_natAbs]
  · intro COLS ROWS grid r hr
    exact heuristic_chain e r a hr.1.2 hr.2.1 hr.2.2

/-- C13, witness: the statement at `a = (0,0)`, `b = (0,1)`, `e = (1,1)` and the route
`(0,0), (0,1), (1,1)` of `cornerGrid`. -/
theorem heuristic_admissible_consistent_witness :
    Adjacent ⟨0, 0⟩ ⟨0, 1⟩
      ∧ IsRouteFromTo 2 2 cornerGrid.grid ⟨0, 0⟩ ⟨1, 1⟩ [⟨0, 0⟩, ⟨0, 1⟩, ⟨1, 1⟩]
      ∧ heuristic ⟨0, 0⟩ ⟨1, 1⟩ = 2
      ∧ heuristic ⟨0, 0⟩ ⟨1, 1⟩ ≤ 1 + heuristic ⟨0, 1⟩ ⟨1, 1⟩
      ∧ heuristic ⟨0, 0⟩ ⟨1, 1⟩ + 1 ≤ [(⟨0, 0⟩ : Pos), ⟨0, 1⟩, ⟨1, 1⟩].length :=
  have hadj : Adjacent ⟨0, 0⟩ ⟨0, 1⟩ := by decide
  have hroute : IsRouteFromTo 2 2 cornerGrid.grid ⟨0, 0⟩ ⟨1, 1⟩ [⟨0, 0⟩, ⟨0, 1⟩, ⟨1, 1⟩] :=
    ⟨⟨by decide,
      List.Chain'.cons (by decide) (List.Chain'.cons (by decide) (List.chain'_singleton _))⟩,
      rfl, rfl⟩
  have hthm := heuristic_admissible_consistent ⟨0, 0⟩ ⟨0, 1⟩ ⟨1, 1⟩
  ⟨hadj, hroute, by decide, hthm.2.2.2.1 hadj, hthm.2.2.2.2.2 2 2 cornerGrid.grid _ hroute⟩

/-! ## The neighbours arrays -/

theorem addNeighbors_nil (COLS ROWS i j : Nat) :
    addNeighbors COLS ROWS i j []
      = (if i + 1 < COLS then [(⟨i + 1, j⟩ : Pos)] else [])
        ++ (if 0 < i then [(⟨i - 1, j⟩ : Pos)] else [])
        ++ (if j + 1 < ROWS then [(⟨i, j + 1⟩ : Pos)] else [])
        ++ (if 0 < j then [(⟨i, j - 1⟩ : Pos)] else []) := by
  unfold addNeighbors
  have h1 : i < COLS - 1 ↔ i + 1 < COLS := by omega
  simp only [h1, show j < ROWS - 1 ↔ j + 1 < ROWS by omega, gt_iff_lt]
  by_cases c1 : i + 1 < COLS <;> by_cases c2 : 0 < i <;> by_cases c3 : j + 1 < ROWS <;>
    by_cases c4 : 0 < j <;> simp [c1, c2, c3, c4]

theorem neighborsOf_nodup (COLS ROWS : Nat) (p : Pos) : (neighborsOf COLS ROWS p).Nodup := by
  unfold neighborsOf
  rw [addNeighbors_nil]
  by_cases c1 : p.col + 1 < COLS <;> by_cases c2 : 0 < p.col <;>
    by_cases c3 : p.row + 1 < ROWS <;> by_cases c4 : 0 < p.row <;>
    simp [c1, c2, c3, c4] <;> omega

theorem neighborsOf_length (COLS ROWS : Nat) (p : Pos) :
    (neighborsOf COLS ROWS p).length ≤ 4 := by
  unfold neighborsOf
  rw [addNeighbors_nil]
  by_cases c1 : p.col + 1 < COLS <;> by_cases c2 : 0 < p.col <;>
    by_cases c3 : p.row + 1 < ROWS <;> by_cases c4 : 0 < p.row <;>
    simp [c1, c2, c3, c4]

theorem not_mem_neighborsOf_self (COLS ROWS : Nat) (p : Pos) :
    p ∉ neighborsOf COLS ROWS p := by
  intro h
  have := adjacent_of_mem_neighborsOf h
  unfold Adjacent at this
  omega

/-- C14: after `initializeGrid`, the neighbours array of every cell `(i, j)` of the grid is the
list `(i+1, j)`, `(i-1, j)`, `(i, j+1)`, `(i, j-1)` with the entries outside the grid left out;
its members are exactly the cells of the grid that share an edge with `(i, j)`; it has at most
4 entries, no duplicates, never contains `(i, j)` itself; and `a` is in the array of `b` if and
only if `b` is in the array of `a`. -/
theorem initializeGrid_neighbors (COLS ROWS i j : Nat) (hi : i < COLS) (hj : j < ROWS) :
    ((initializeGrid COLS ROWS).grid ⟨i, j⟩).neighbors
        = (if i + 1 < COLS then [(⟨i + 1, j⟩ : Pos)] else [])
          ++ (if 0 < i then [(⟨i - 1, j⟩ : Pos)] else [])
          ++ (if j + 1 < ROWS then [(⟨i, j + 1⟩ : Pos)] else [])
          ++ (if 0 < j then [(⟨i, j - 1⟩ : Pos)] else [])
      ∧ (∀ q, q ∈ ((initializeGrid COLS ROWS).grid ⟨i, j⟩).neighbors
          ↔ InBounds COLS ROWS q ∧ Adjacent ⟨i, j⟩ q)
      ∧ ((initializeGrid COLS ROWS).grid ⟨i, j⟩).neighbors.length ≤ 4
      ∧ ((initializeGrid COLS ROWS).grid ⟨i, j⟩).neighbors.Nodup
      ∧ (⟨i, j⟩ : Pos) ∉ ((initializeGrid COLS ROWS).grid ⟨i, j⟩).neighbors
      ∧ ∀ a b, InBounds COLS ROWS a → InBounds COLS ROWS b →
          (a ∈ ((initializeGrid COLS ROWS).grid b).neighbors
            ↔ b ∈ ((initializeGrid COLS ROWS).grid a).neighbors) := by
  have hgrid : ∀ p, InBounds COLS ROWS p →
      ((initializeGrid COLS ROWS).grid p).neighbors = neighborsOf COLS ROWS p := by
    intro p hp
    rw [initializeGrid_grid, if_pos hp]
  have hin : InBounds COLS ROWS ⟨i, j⟩ := ⟨hi, hj⟩
  rw [hgrid _ hin]
  refine ⟨addNeighbors_nil COLS ROWS i j, ?_, neighborsOf_length COLS ROWS _,
    neighborsOf_nodup COLS ROWS _, not_mem_neighborsOf_self COLS ROWS _, ?_⟩
  · intro q
    rw [mem_neighborsOf_iff_adjacent COLS ROWS _ q hin]
    exact And.comm
  · intro a b ha hb
    rw [hgrid a ha, hgrid b hb]
    exact ⟨mem_neighborsOf_symm hb, mem_neighborsOf_symm ha⟩

/-- C14, witness: the statement at the corner `(0,0)` and at the cell `(1,3)` of the 25 × 20
grid of the program. -/
theorem initializeGrid_neighbors_witness :
    0 < 25 ∧ 0 < 20 ∧ 1 < 25 ∧ 3 < 20
      ∧ ((initializeGrid 25 20).grid ⟨0, 0⟩).neighbors = [⟨1, 0⟩, ⟨0, 1⟩]
      ∧ ((initializeGrid 25 20).grid ⟨1, 3⟩).neighbors = [⟨2, 3⟩, ⟨0, 3⟩, ⟨1, 4⟩, ⟨1, 2⟩]
      ∧ ((initializeGrid 25 20).grid ⟨1, 3⟩).neighbors.Nodup :=
  have h1 := initializeGrid_neighbors 25 20 0 0 (by decide) (by decide)
  have h2 := initializeGrid_neighbors 25 20 1 3 (by decide) (by decide)
  ⟨by decide, by decide, by decide, by decide, h1.1, h2.1, h2.2.2.2.1⟩

/-! ## What a call writes to a node -/

/-- The three shapes of the result of one iteration of the neighbour loop. -/
theorem visitNeighbor_cases (cur en : Pos) (closedSet : List Pos)
    (acc : (Pos → Node) × List Pos) (nb : Pos) :
    visitNeighbor cur en closedSet acc nb = acc
      ∨ (nb ∉ closedSet ∧ nb ∈ acc.2 ∧ (acc.1 cur).g + 1 < (acc.1 nb).g
          ∧ visitNeighbor cur en closedSet acc nb
            = (setNode acc.1 nb
                { acc.1 nb with
                  g := (acc.1 cur).g + 1
                  h := heuristic nb en
                  f := (acc.1 cur).g + 1 + heuristic nb en
                  previous := some cur }, acc.2))
      ∨ (nb ∉ closedSet ∧ nb ∉ acc.2 ∧ (acc.1 nb).isWall = false
          ∧ visitNeighbor cur en closedSet acc nb
            = (setNode acc.1 nb
                { acc.1 nb with
                  g := (acc.1 cur).g + 1
                  h := heuristic nb en
                  f := (acc.1 cur).g + 1 + heuristic nb en
                  previous := some cur }, acc.2 ++ [nb])) := by
  obtain ⟨grid, openSet⟩ := acc
  unfold visitNeighbor
  by_cases hw : (grid nb).isWall = true
  · left; simp [hw]
  · have hw2 : (grid nb).isWall = false := by simpa using hw
    by_cases hcl : nb ∈ closedSet
    · left; simp [hcl]
    · by_cases hop : nb ∈ openSet
      · by_cases hlt : (grid cur).g + 1 < (grid nb).g
        · right; left
          refine ⟨hcl, hop, hlt, ?_⟩
          simp [hw2, hcl, hop, hlt]
        · left; simp [hw2, hcl, hop, hlt]
      · right; right
        refine ⟨hcl, hop, hw2, ?_⟩
        simp [hw2, hcl, hop]

/-- One iteration of the neighbour loop keeps `f = g + h` at every node. -/
theorem visitNeighbor_fgh (cur en : Pos) (closedSet : List Pos)
    (acc : (Pos → Node) × List Pos) (nb p : Pos)
    (h : (acc.1 p).f = (acc.1 p).g + (acc.1 p).h) :
    ((visitNeighbor cur en closedSet acc nb).1 p).f
      = ((visitNeighbor cur en closedSet acc nb).1 p).g
        + ((visitNeighbor cur en closedSet acc nb).1 p).h := by
  rcases visitNeighbor_cases cur en closedSet acc nb with h1 | ⟨_, _, _, h1⟩ | ⟨_, _, _, h1⟩
  · rw [h1]; exact h
  · rw [h1]
    by_cases hp : p = nb
    · subst hp; simp only [setNode_same]
    · simp only [setNode_other _ _ _ _ hp]; exact h
  · rw [h1]
    by_cases hp : p = nb
    · subst hp; simp only [setNode_same]
    · simp only [setNode_other _ _ _ _ hp]; exact h

theorem neighborLoop_fgh (cur en : Pos) (closedSet : List Pos) (todo : List Pos) (p : Pos) :
    ∀ (acc : (Pos → Node) × List Pos), (acc.1 p).f = (acc.1 p).g + (acc.1 p).h →
      ((todo.foldl (visitNeighbor cur en closedSet) acc).1 p).f
        = ((todo.foldl (visitNeighbor cur en closedSet) acc).1 p).g
          + ((todo.foldl (visitNeighbor cur en closedSet) acc).1 p).h := by
  induction todo with
  | nil => intro acc h; exact h
  | cons nb rest ih =>
    intro acc h
    rw [List.foldl_cons]
    exact ih _ (visitNeighbor_fgh cur en closedSet acc nb p h)

/-- The node store after a call of `aStarStep` is the node store before it in the two terminal
branches and the result of the neighbour loop otherwise. -/
theorem aStarStep_grid {fuel : Nat} {s s1 : State} {b : Branch}
    (h : aStarStep fuel s = some (b, s1)) :
    (b ≠ Branch.running ∧ s1.grid = s.grid ∧ s1.openSet = s.openSet
        ∧ s1.closedSet = s.closedSet ∧ s1.startNode = s.startNode ∧ s1.endNode = s.endNode)
      ∨ (b = Branch.running ∧ 0 < s.openSet.length ∧ currentNode s ≠ s.endNode
        ∧ s1 = expand s) := by
  cases b with
  | running =>
    obtain ⟨h0, hne, rfl⟩ := aStarStep_running h
    exact Or.inr ⟨rfl, h0, hne, rfl⟩
  | pathFound =>
    obtain ⟨_, _, path, _, rfl⟩ := aStarStep_pathFound h
    exact Or.inl ⟨by simp, rfl, rfl, rfl, rfl, rfl⟩
  | noSolution =>
    obtain ⟨_, rfl⟩ := aStarStep_noSolution h
    exact Or.inl ⟨by simp, rfl, rfl, rfl, rfl, rfl⟩

theorem aStarStep_fgh {fuel : Nat} {s s1 : State} {b : Branch}
    (h : aStarStep fuel s = some (b, s1)) (p : Pos)
    (hp : (s.grid p).f = (s.grid p).g + (s.grid p).h) :
    (s1.grid p).f = (s1.grid p).g + (s1.grid p).h := by
  rcases aStarStep_grid h with ⟨_, hg, _⟩ | ⟨_, _, _, rfl⟩
  · rw [hg]; exact hp
  · exact neighborLoop_fgh _ _ _ _ p _ hp

theorem calls_fgh {s s1 : State} (h : Calls s s1) (p : Pos)
    (hp : (s.grid p).f = (s.grid p).g + (s.grid p).h) :
    (s1.grid p).f = (s1.grid p).g + (s1.grid p).h := by
  induction h with
  | none => exact hp
  | call fuel b _ hstep ih => exact aStarStep_fgh hstep p ih

/-- C18: in every state reached from `initializeGrid` or from `resetAStarState` by calls of
`aStarStep`, every cell of the grid has `f = g + h`, with `g` and `h` not negative. -/
theorem cost_sum_invariant (COLS ROWS : Nat) (s : State)
    (h : Calls (initializeGrid COLS ROWS) s ∨ ∃ s0, Calls (resetAStarState COLS ROWS s0) s)
    (i j : Nat) (hi : i < COLS) (hj : j < ROWS) :
    (s.grid ⟨i, j⟩).f = (s.grid ⟨i, j⟩).g + (s.grid ⟨i, j⟩).h
      ∧ 0 ≤ (s.grid ⟨i, j⟩).g ∧ 0 ≤ (s.grid ⟨i, j⟩).h := by
  refine ⟨?_, Nat.zero_le _, Nat.zero_le _⟩
  rcases h with h | ⟨s0, h⟩
  · apply calls_fgh h
    rw [initializeGrid_grid, if_pos ⟨hi, hj⟩]
    rfl
  · apply calls_fgh h
    rw [resetAStarState_grid, if_pos ⟨hi, hj⟩]
    rfl

/-- C18, witness: the statement at the cell `(0,1)` of `cornerGrid` after the reset and one
expansion, where `g = 1`, `h = 1` and `f = 2`. -/
theorem cost_sum_invariant_witness :
    Calls (resetAStarState 2 2 cornerGrid) (expand (resetAStarState 2 2 cornerGrid))
      ∧ 0 < 2 ∧ 1 < 2
      ∧ ((expand (resetAStarState 2 2 cornerGrid)).grid ⟨0, 1⟩).g = 1
      ∧ ((expand (resetAStarState 2 2 cornerGrid)).grid ⟨0, 1⟩).f
          = ((expand (resetAStarState 2 2 cornerGrid)).grid ⟨0, 1⟩).g
            + ((expand (resetAStarState 2 2 cornerGrid)).grid ⟨0, 1⟩).h :=
  have hcalls : Calls (resetAStarState 2 2 cornerGrid)
      (expand (resetAStarState 2 2 cornerGrid)) :=
    Calls.call 4 Branch.running Calls.none rfl
  ⟨hcalls, by decide, by decide, by decide,
    (cost_sum_invariant 2 2 _ (Or.inr ⟨cornerGrid, hcalls⟩) 0 1 (by decide) (by decide)).1⟩

/-! ## The `g` of a node the search has seen -/

theorem mem_eraseIdx_of_ne {l : List Pos} {k : Nat} {p : Pos} (hp : p ∈ l)
    (hne : p ≠ l.getD k default) : p ∈ l.eraseIdx k := by
  rw [List.mem_eraseIdx_iff_getElem?]
  obtain ⟨i, hi, rfl⟩ := List.getElem_of_mem hp
  refine ⟨i, ?_, List.getElem?_eq_getElem hi⟩
  rintro rfl
  exact hne (List.getD_eq_getElem _ _ hi).symm

/-- One iteration of the neighbour loop, at a node that is open or closed: the node stays open
or closed, it is left as it was or its `g` gets strictly smaller, and it is left as it was when
it is closed. -/
theorem visitNeighbor_seen (cur en : Pos) (closedSet : List Pos)
    (acc : (Pos → Node) × List Pos) (nb p : Pos) (hp : p ∈ acc.2 ∨ p ∈ closedSet) :
    (p ∈ (visitNeighbor cur en closedSet acc nb).2 ∨ p ∈ closedSet)
      ∧ ((visitNeighbor cur en closedSet acc nb).1 p = acc.1 p
        ∨ ((visitNeighbor cur en closedSet acc nb).1 p).g < (acc.1 p).g)
      ∧ (p ∈ closedSet → (visitNeighbor cur en closedSet acc nb).1 p = acc.1 p) := by
  rcases visitNeighbor_cases cur en closedSet acc nb with
    h1 | ⟨hcl, hop, hlt, h1⟩ | ⟨hcl, hop, _, h1⟩
  · rw [h1]; exact ⟨hp, Or.inl rfl, fun _ => rfl⟩
  · rw [h1]
    refine ⟨hp, ?_, ?_⟩
    · by_cases h : p = nb
      · subst h
        right
        simp only [setNode_same]
        exact hlt
      · left; exact setNode_other _ _ _ _ h
    · intro hpc
      exact setNode_other _ _ _ _ (fun h => hcl (h ▸ hpc))
  · rw [h1]
    have hne : p ≠ nb := by
      rintro rfl
      rcases hp with h | h
      · exact hop h
      · exact hcl h
    refine ⟨?_, Or.inl (setNode_other _ _ _ _ hne), fun _ => setNode_other _ _ _ _ hne⟩
    rcases hp with h | h
    · exact Or.inl (List.mem_append.mpr (Or.inl h))
    · exact Or.inr h

theorem neighborLoop_seen (cur en : Pos) (closedSet : List Pos) (todo : List Pos) (p : Pos) :
    ∀ (acc : (Pos → Node) × List Pos), p ∈ acc.2 ∨ p ∈ closedSet →
      (p ∈ (todo.foldl (visitNeighbor cur en closedSet) acc).2 ∨ p ∈ closedSet)
        ∧ ((todo.foldl (visitNeighbor cur en closedSet) acc).1 p = acc.1 p
          ∨ ((todo.foldl (visitNeighbor cur en closedSet) acc).1 p).g < (acc.1 p).g)
        ∧ (p ∈ closedSet → (todo.foldl (visitNeighbor cur en closedSet) acc).1 p = acc.1 p) := by
  induction todo with
  | nil => intro acc hp; exact ⟨hp, Or.inl rfl, fun _ => rfl⟩
  | cons nb rest ih =>
    intro acc hp
    rw [List.foldl_cons]
    obtain ⟨h1, h2, h3⟩ := visitNeighbor_seen cur en closedSet acc nb p hp
    obtain ⟨k1, k2, k3⟩ := ih _ h1
    refine ⟨k1, ?_, fun hc => (k3 hc).trans (h3 hc)⟩
    rcases k2 with k2 | k2
    · rw [k2]; exact h2
    · right
      rcases h2 with h2 | h2
      · rw [h2] at k2; exact k2
      · exact Nat.lt_trans k2 h2

/-- One call of `aStarStep`, at a node that is open or closed. -/
theorem aStarStep_seen {fuel : Nat} {s s1 : State} {b : Branch}
    (h : aStarStep fuel s = some (b, s1)) (p : Pos)
    (hp : p ∈ s.openSet ∨ p ∈ s.closedSet) :
    (p ∈ s1.openSet ∨ p ∈ s1.closedSet)
      ∧ (s1.grid p = s.grid p ∨ (s1.grid p).g < (s.grid p).g)
      ∧ (p ∈ s.closedSet → p ∈ s1.closedSet ∧ s1.grid p = s.grid p) := by
  rcases aStarStep_grid h with ⟨_, hg, ho, hc, _⟩ | ⟨_, h0, _, rfl⟩
  · rw [hg, ho, hc]
    exact ⟨hp, Or.inl rfl, fun hpc => ⟨hpc, rfl⟩⟩
  · have hstart : p ∈ s.openSet.eraseIdx (lowestFIndex s.grid s.openSet)
        ∨ p ∈ s.closedSet ++ [currentNode s] := by
      rcases hp with hp | hp
      · by_cases hcur : p = currentNode s
        · exact Or.inr (List.mem_append.mpr (Or.inr (by rw [hcur]; exact List.mem_singleton_self _)))
        · exact Or.inl (mem_eraseIdx_of_ne hp hcur)
      · exact Or.inr (List.mem_append.mpr (Or.inl hp))
    obtain ⟨k1, k2, k3⟩ := neighborLoop_seen (currentNode s) s.endNode
      (s.closedSet ++ [currentNode s]) (s.grid (currentNode s)).neighbors p
      (s.grid, s.openSet.eraseIdx (lowestFIndex s.grid s.openSet)) hstart
    refine ⟨k1, k2, fun hpc => ?_⟩
    have hmem : p ∈ s.closedSet ++ [currentNode s] := List.mem_append.mpr (Or.inl hpc)
    exact ⟨hmem, k3 hmem⟩

/-- C12: once a cell is in `openSet` or `closedSet`, a call of `aStarStep` leaves its node as
it was or stores a strictly smaller `g`, and leaves it as it was when the cell is closed; so
over any sequence of calls its `g` never increases, and it is never written once the cell is
closed. -/
theorem g_never_increases (s : State) (p : Pos) (hp : p ∈ s.openSet ∨ p ∈ s.closedSet) :
    (∀ fuel b s1, aStarStep fuel s = some (b, s1) →
        (p ∈ s1.openSet ∨ p ∈ s1.closedSet)
          ∧ (s1.grid p = s.grid p ∨ (s1.grid p).g < (s.grid p).g)
          ∧ (p ∈ s.closedSet → p ∈ s1.closedSet ∧ s1.grid p = s.grid p))
      ∧ ∀ s2, Calls s s2 →
          (p ∈ s2.openSet ∨ p ∈ s2.closedSet) ∧ (s2.grid p).g ≤ (s.grid p).g
            ∧ (p ∈ s.closedSet → p ∈ s2.closedSet ∧ s2.grid p = s.grid p) := by
  refine ⟨fun fuel b s1 h => aStarStep_seen h p hp, ?_⟩
  intro s2 hcalls
  induction hcalls with
  | none => exact ⟨hp, Nat.le_refl _, fun h => ⟨h, rfl⟩⟩
  | call fuel b _ hstep ih =>
    obtain ⟨i1, i2, i3⟩ := ih
    obtain ⟨k1, k2, k3⟩ := aStarStep_seen hstep p i1
    refine ⟨k1, ?_, ?_⟩
    · rcases k2 with k2 | k2
      · rw [k2]; exact i2
      · exact Nat.le_trans (Nat.le_of_lt k2) i2
    · intro hpc
      obtain ⟨j1, j2⟩ := i3 hpc
      obtain ⟨j3, j4⟩ := k3 j1
      exact ⟨j3, j4.trans j2⟩

/-- C12, witness: the statement at the cell `(0,1)`, open with `g = 1` after the first
expansion on `cornerGrid`, and the next call of `aStarStep`, which closes it. -/
theorem g_never_increases_witness :
    ((⟨0, 1⟩ : Pos) ∈ (expand (resetAStarState 2 2 cornerGrid)).openSet
        ∨ (⟨0, 1⟩ : Pos) ∈ (expand (resetAStarState 2 2 cornerGrid)).closedSet)
      ∧ aStarStep 4 (expand (resetAStarState 2 2 cornerGrid))
          = some (Branch.running, expand (expand (resetAStarState 2 2 cornerGrid)))
      ∧ ((expand (resetAStarState 2 2 cornerGrid)).grid ⟨0, 1⟩).g = 1
      ∧ ((expand (expand (resetAStarState 2 2 cornerGrid))).grid ⟨0, 1⟩).g
          ≤ ((expand (resetAStarState 2 2 cornerGrid)).grid ⟨0, 1⟩).g :=
  have hp : (⟨0, 1⟩ : Pos) ∈ (expand (resetAStarState 2 2 cornerGrid)).openSet
      ∨ (⟨0, 1⟩ : Pos) ∈ (expand (resetAStarState 2 2 cornerGrid)).closedSet :=
    Or.inl (by decide)
  have hthm := g_never_increases (expand (resetAStarState 2 2 cornerGrid)) ⟨0, 1⟩ hp
  ⟨hp, rfl, by decide,
    (hthm.2 _ (Calls.call 4 Branch.running Calls.none rfl)).2.1⟩

/-! ## The invariant over all calls -/

theorem aStarStep_inv_any {COLS ROWS : Nat} {W : Pos → Bool} {st en : Pos} {fuel : Nat}
    {s s1 : State} {b : Branch} (inv : SearchInv COLS ROWS W st en s)
    (h : aStarStep fuel s = some (b, s1)) : SearchInv COLS ROWS W st en s1 := by
  rcases aStarStep_grid h with ⟨_, hg, ho, hc, hs, he⟩ | ⟨_, h0, hne, rfl⟩
  · obtain ⟨i1, i2, core⟩ := inv
    refine ⟨hs.trans i1, he.trans i2, ?_⟩
    rw [hg, ho, hc]
    exact core
  · exact expand_inv inv h0 hne

theorem calls_inv {COLS ROWS : Nat} {s0 s : State} (wf : WellFormed COLS ROWS s0)
    (h : Calls (resetAStarState COLS ROWS s0) s) :
    SearchInv COLS ROWS (wallsOf s0) s0.startNode s0.endNode s := by
  induction h with
  | none => exact reset_inv wf
  | call fuel b _ hstep ih => exact aStarStep_inv_any ih hstep

theorem calls_trans {s s1 s2 : State} (h1 : Calls s s1) (h2 : Calls s1 s2) : Calls s s2 := by
  induction h2 with
  | none => exact h1
  | call fuel b _ hstep ih => exact Calls.call fuel b ih hstep

/-- A call of `aStarStep` keeps `closedSet` or appends one cell to it. -/
theorem aStarStep_closed_grows {fuel : Nat} {s s1 : State} {b : Branch}
    (h : aStarStep fuel s = some (b, s1)) : s.closedSet <+: s1.closedSet := by
  rcases aStarStep_grid h with ⟨_, _, _, hc, _⟩ | ⟨_, _, _, rfl⟩
  · exact hc ▸ List.prefix_refl _
  · exact List.prefix_append _ _

theorem calls_closed_grows {s s1 : State} (h : Calls s s1) :
    s.closedSet <+: s1.closedSet := by
  induction h with
  | none => exact List.prefix_refl _
  | call fuel b _ hstep ih => exact ih.trans (aStarStep_closed_grows hstep)

/-- C19: in every state reached from the reset state by calls of `aStarStep`, `openSet` and
`closedSet` have no duplicates, share no cell and hold no wall; and over any further calls
`closedSet` only grows at its end, and no cell that was closed is in `openSet` afterwards. -/
theorem open_closed_sets_invariant (COLS ROWS : Nat) (s0 : State)
    (wf : WellFormed COLS ROWS s0) (s : State)
    (h : Calls (resetAStarState COLS ROWS s0) s) :
    s.openSet.Nodup ∧ s.closedSet.Nodup
      ∧ (∀ p, p ∈ s.openSet → p ∉ s.closedSet)
      ∧ (∀ p, p ∈ s.openSet ∨ p ∈ s.closedSet → (s.grid p).isWall = false)
      ∧ ∀ s2, Calls s s2 →
          s.closedSet <+: s2.closedSet
            ∧ ∀ p, p ∈ s.closedSet → p ∈ s2.closedSet ∧ p ∉ s2.openSet := by
  obtain ⟨_, _, core⟩ := calls_inv wf h
  refine ⟨core.open_nodup, core.closed_nodup, core.disjoint, ?_, ?_⟩
  · intro p hp
    rw [core.walls p]
    exact (core.seen_ok p hp).2
  · intro s2 h2
    have hpre := calls_closed_grows h2
    obtain ⟨_, _, core2⟩ := calls_inv wf (calls_trans h h2)
    refine ⟨hpre, fun p hp => ?_⟩
    have hmem : p ∈ s2.closedSet := hpre.subset hp
    exact ⟨hmem, fun hopen => core2.disjoint p hopen hmem⟩

/-- C19, witness: the statement at the state after one expansion on `cornerGrid` and the state
after a second one. -/
theorem open_closed_sets_invariant_witness :
    WellFormed 2 2 cornerGrid
      ∧ Calls (resetAStarState 2 2 cornerGrid) (expand (resetAStarState 2 2 cornerGrid))
      ∧ (expand (resetAStarState 2 2 cornerGrid)).closedSet = [⟨0, 0⟩]
      ∧ (expand (resetAStarState 2 2 cornerGrid)).openSet.Nodup
      ∧ (expand (resetAStarState 2 2 cornerGrid)).closedSet
          <+: (expand (expand (resetAStarState 2 2 cornerGrid))).closedSet
      ∧ (⟨0, 0⟩ : Pos) ∉ (expand (expand (resetAStarState 2 2 cornerGrid))).openSet :=
  have wf : WellFormed 2 2 cornerGrid :=
    clickWall_wellFormed (initializeGrid_wellFormed 2 2 (by decide)) 1 0
  have hcalls : Calls (resetAStarState 2 2 cornerGrid)
      (expand (resetAStarState 2 2 cornerGrid)) :=
    Calls.call 4 Branch.running Calls.none rfl
  have hthm := open_closed_sets_invariant 2 2 cornerGrid wf _ hcalls
  have hnext := hthm.2.2.2.2 (expand (expand (resetAStarState 2 2 cornerGrid)))
    (Calls.call 4 Branch.running Calls.none rfl)
  ⟨wf, hcalls, by decide, hthm.1, hnext.1, (hnext.2 ⟨0, 0⟩ (by decide)).2⟩

/-! ## The chain of `previous` links -/

/-- Following `previous` from a node the search has seen: after `k ≤ g` links the chain is at a
seen node whose `g` is smaller by `k`. -/
theorem ancestor_spec {COLS ROWS : Nat} {W : Pos → Bool} {st en cur : Pos}
    {grid : Pos → Node} {openSet closedSet : List Pos}
    (inv : CoreInv COLS ROWS W st en cur [] grid openSet closedSet) (k : Nat) :
    ∀ n, n ∈ openSet ∨ n ∈ closedSet → k ≤ (grid n).g →
      ∃ m, ancestor grid k n = some m ∧ (m ∈ openSet ∨ m ∈ closedSet)
        ∧ (grid m).g + k = (grid n).g := by
  induction k with
  | zero => intro n hn _; exact ⟨n, rfl, hn, rfl⟩
  | succ k ih =>
    intro n hn hk
    have hne : n ≠ st := by
      rintro rfl
      rw [inv.start_g] at hk
      omega
    obtain ⟨q, h1, h2, _, h4⟩ := inv.prev n hn hne
    obtain ⟨m, m1, m2, m3⟩ := ih q (Or.inr h2) (by omega)
    refine ⟨m, ?_, m2, by omega⟩
    unfold ancestor
    rw [h1]
    exact m1

/-- A seen node with `g = 0` is the start node. -/
theorem seen_g_zero {COLS ROWS : Nat} {W : Pos → Bool} {st en cur : Pos}
    {grid : Pos → Node} {openSet closedSet : List Pos}
    (inv : CoreInv COLS ROWS W st en cur [] grid openSet closedSet) (m : Pos)
    (hm : m ∈ openSet ∨ m ∈ closedSet) (hg : (grid m).g = 0) : m = st := by
  by_contra hne
  obtain ⟨q, _, _, _, h4⟩ := inv.prev m hm hne
  omega

/-- C20: in every state reached from the reset state by calls of `aStarStep`, every open or
closed node other than the start node has a `previous` that is closed, shares an edge with it
and has a `g` smaller by one, while the start node has `g = 0` and no `previous`; so from an
open or closed node `n` the chain of `previous` links reaches the start node after exactly
`n.g` links and not before, and `reconstructPath(n)` ends and returns exactly `n.g` cells. -/
theorem previous_chain_invariant (COLS ROWS : Nat) (s0 : State)
    (wf : WellFormed COLS ROWS s0) (s : State)
    (h : Calls (resetAStarState COLS ROWS s0) s) (n : Pos)
    (hn : n ∈ s.openSet ∨ n ∈ s.closedSet) :
    (n ≠ s.startNode → ∃ q, (s.grid n).previous = some q ∧ q ∈ s.closedSet
        ∧ Adjacent n q ∧ (s.grid n).g = (s.grid q).g + 1)
      ∧ (s.grid s.startNode).g = 0 ∧ (s.grid s.startNode).previous = none
      ∧ ancestor s.grid (s.grid n).g n = some s.startNode
      ∧ (∀ k, k < (s.grid n).g → ancestor s.grid k n ≠ some s.startNode)
      ∧ ∀ fuel, (s.grid n).g < fuel →
          ∃ path, reconstructPath s.grid fuel n = some path
            ∧ path.length = (s.grid n).g := by
  obtain ⟨hs, _, core⟩ := calls_inv wf h
  rw [hs]
  refine ⟨?_, core.start_g, core.start_prev, ?_, ?_, ?_⟩
  · intro hne
    obtain ⟨q, h1, h2, h3, h4⟩ := core.prev n hn hne
    exact ⟨q, h1, h2, adjacent_symm (adjacent_of_mem_neighborsOf h3), h4⟩
  · obtain ⟨m, m1, m2, m3⟩ := ancestor_spec core (s.grid n).g n hn (Nat.le_refl _)
    rw [m1, seen_g_zero core m m2 (by omega)]
  · intro k hk
    obtain ⟨m, m1, _, m3⟩ := ancestor_spec core k n hn (Nat.le_of_lt hk)
    rw [m1]
    intro heq
    simp only [Option.some.injEq] at heq
    rw [heq, core.start_g] at m3
    omega
  · intro fuel hfuel
    obtain ⟨path, p1, p2, _⟩ := reconstructPath_spec core fuel n hn hfuel
    exact ⟨path, p1, p2⟩

/-- C20, witness: the statement at the end node `(1,1)` of `cornerGrid` after two expansions,
where it is open with `g = 2` and `previous = (0,1)`. -/
theorem previous_chain_invariant_witness :
    WellFormed 2 2 cornerGrid
      ∧ Calls (resetAStarState 2 2 cornerGrid)
          (expand (expand (resetAStarState 2 2 cornerGrid)))
      ∧ (⟨1, 1⟩ : Pos) ∈ (expand (expand (resetAStarState 2 2 cornerGrid))).openSet
      ∧ ((expand (expand (resetAStarState 2 2 cornerGrid))).grid ⟨1, 1⟩).g = 2
      ∧ ancestor (expand (expand (resetAStarState 2 2 cornerGrid))).grid
          ((expand (expand (resetAStarState 2 2 cornerGrid))).grid ⟨1, 1⟩).g ⟨1, 1⟩
          = some (expand (expand (resetAStarState 2 2 cornerGrid))).startNode
      ∧ ∃ path, reconstructPath (expand (expand (resetAStarState 2 2 cornerGrid))).grid 3
            ⟨1, 1⟩ = some path
          ∧ path.length = ((expand (expand (resetAStarState 2 2 cornerGrid))).grid ⟨1, 1⟩).g :=
  have wf : WellFormed 2 2 cornerGrid :=
    clickWall_wellFormed (initializeGrid_wellFormed 2 2 (by decide)) 1 0
  have hcalls : Calls (resetAStarState 2 2 cornerGrid)
      (expand (expand (resetAStarState 2 2 cornerGrid))) :=
    Calls.call 4 Branch.running (Calls.call 4 Branch.running Calls.none rfl) rfl
  have hmem : (⟨1, 1⟩ : Pos) ∈ (expand (expand (resetAStarState 2 2 cornerGrid))).openSet := by
    decide
  have hthm := previous_chain_invariant 2 2 cornerGrid wf _ hcalls ⟨1, 1⟩ (Or.inl hmem)
  ⟨wf, hcalls, hmem, by decide, hthm.2.2.2.1, hthm.2.2.2.2.2 3 (by decide)⟩

/-! ## The page -/

/-- One iteration of the neighbour loop changes no wall flag. -/
theorem visitNeighbor_isWall (cur en : Pos) (closedSet : List Pos)
    (acc : (Pos → Node) × List Pos) (nb p : Pos) :
    ((visitNeighbor cur en closedSet acc nb).1 p).isWall = (acc.1 p).isWall := by
  rcases visitNeighbor_cases cur en closedSet acc nb with h1 | ⟨_, _, _, h1⟩ | ⟨_, _, _, h1⟩
  · rw [h1]
  · rw [h1]
    by_cases hp : p = nb
    · subst hp; simp only [setNode_same]
    · simp only [setNode_other _ _ _ _ hp]
  · rw [h1]
    by_cases hp : p = nb
    · subst hp; simp only [setNode_same]
    · simp only [setNode_other _ _ _ _ hp]

theorem neighborLoop_isWall (cur en : Pos) (closedSet : List Pos) (todo : List Pos) (p : Pos) :
    ∀ (acc : (Pos → Node) × List Pos),
      ((todo.foldl (visitNeighbor cur en closedSet) acc).1 p).isWall = (acc.1 p).isWall := by
  induction todo with
  | nil => intro acc; rfl
  | cons nb rest ih =>
    intro acc
    rw [List.foldl_cons, ih, visitNeighbor_isWall]

/-- A call of `aStarStep` changes no wall flag and neither endpoint. -/
theorem aStarStep_frame {fuel : Nat} {s s1 : State} {b : Branch}
    (h : aStarStep fuel s = some (b, s1)) :
    s1.startNode = s.startNode ∧ s1.endNode = s.endNode
      ∧ ∀ p, (s1.grid p).isWall = (s.grid p).isWall := by
  rcases aStarStep_grid h with ⟨_, hg, _, _, hs, he⟩ | ⟨_, _, _, rfl⟩
  · exact ⟨hs, he, fun p => by rw [hg]⟩
  · exact ⟨rfl, rfl, fun p => neighborLoop_isWall _ _ _ _ p _⟩

theorem resetAStarState_isWall (COLS ROWS : Nat) (s : State) (p : Pos) :
    ((resetAStarState COLS ROWS s).grid p).isWall = (s.grid p).isWall := by
  rw [resetAStarState_grid]
  by_cases hp : InBounds COLS ROWS p <;> simp [hp]

theorem aStarStep_endpoints {fuel : Nat} {s s1 : State} {b : Branch}
    (h : aStarStep fuel s = some (b, s1)) (ok : EndpointsOK s) : EndpointsOK s1 := by
  obtain ⟨hs, he, hw⟩ := aStarStep_frame h
  unfold EndpointsOK
  rw [hs, he, hw, hw]
  exact ok

theorem resetAStarState_endpoints (COLS ROWS : Nat) (s : State) (ok : EndpointsOK s) :
    EndpointsOK (resetAStarState COLS ROWS s) := by
  unfold EndpointsOK
  rw [resetAStarState_isWall, resetAStarState_isWall]
  exact ok

theorem canvasMouseDown_endpoints (COLS ROWS : Nat) (u : Page) (col row : Int)
    (ok : EndpointsOK u.state) : EndpointsOK (canvasMouseDown COLS ROWS u col row).state := by
  obtain ⟨hne, hsf, hef⟩ := ok
  unfold canvasMouseDown
  by_cases hrun : u.state.algorithmRunning = true
  · rw [if_pos hrun]; exact ⟨hne, hsf, hef⟩
  · rw [if_neg hrun]
    by_cases hb : col ≥ 0 ∧ col < (COLS : Int) ∧ row ≥ 0 ∧ row < (ROWS : Int)
    · rw [if_pos hb]
      dsimp only
      cases hm : u.currentMode with
      | drawWall =>
        dsimp only
        by_cases hc : (⟨col.toNat, row.toNat⟩ : Pos) ≠ u.state.startNode
            ∧ (⟨col.toNat, row.toNat⟩ : Pos) ≠ u.state.endNode
        · rw [if_pos hc]
          refine ⟨hne, ?_, ?_⟩
          · show (setNode u.state.grid _ _ u.state.startNode).isWall = false
            rw [setNode_other _ _ _ _ (Ne.symm hc.1)]; exact hsf
          · show (setNode u.state.grid _ _ u.state.endNode).isWall = false
            rw [setNode_other _ _ _ _ (Ne.symm hc.2)]; exact hef
        · rw [if_neg hc]; exact ⟨hne, hsf, hef⟩
      | setStart =>
        dsimp only
        by_cases hc : (⟨col.toNat, row.toNat⟩ : Pos) ≠ u.state.endNode
            ∧ (u.state.grid ⟨col.toNat, row.toNat⟩).isWall = false
        · rw [if_pos hc]
          apply resetAStarState_endpoints
          refine ⟨hc.1, ?_, ?_⟩
          · show (setNode u.state.grid u.state.startNode _ ⟨col.toNat, row.toNat⟩).isWall = false
            by_cases hcs : (⟨col.toNat, row.toNat⟩ : Pos) = u.state.startNode
            · rw [hcs, setNode_same]
            · rw [setNode_other _ _ _ _ hcs]; exact hc.2
          · show (setNode u.state.grid u.state.startNode _ u.state.endNode).isWall = false
            rw [setNode_other _ _ _ _ (Ne.symm hne)]; exact hef
        · rw [if_neg hc]; exact ⟨hne, hsf, hef⟩
      | setEnd =>
        dsimp only
        by_cases hc : (⟨col.toNat, row.toNat⟩ : Pos) ≠ u.state.startNode
            ∧ (u.state.grid ⟨col.toNat, row.toNat⟩).isWall = false
        · rw [if_pos hc]
          apply resetAStarState_endpoints
          refine ⟨Ne.symm hc.1, ?_, ?_⟩
          · show (setNode u.state.grid u.state.endNode _ u.state.startNode).isWall = false
            rw [setNode_other _ _ _ _ hne]; exact hsf
          · show (setNode u.state.grid u.state.endNode _ ⟨col.toNat, row.toNat⟩).isWall = false
            by_cases hce : (⟨col.toNat, row.toNat⟩ : Pos) = u.state.endNode
            · rw [hce, setNode_same]
            · rw [setNode_other _ _ _ _ hce]; exact hc.2
        · rw [if_neg hc]; exact ⟨hne, hsf, hef⟩
    · rw [if_neg hb]; exact ⟨hne, hsf, hef⟩

theorem initializeGrid_endpoints (COLS ROWS : Nat) (h : 2 ≤ COLS * ROWS) :
    EndpointsOK (initializeGrid COLS ROWS) :=
  have wf := initializeGrid_wellFormed COLS ROWS h
  ⟨wf.distinct, wf.startFree, wf.endFree⟩

theorem handle_endpoints (COLS ROWS fuel : Nat) (h : 2 ≤ COLS * ROWS) (u u1 : Page)
    (ev : Event) (hev : handle COLS ROWS fuel u ev = some u1) (ok : EndpointsOK u.state) :
    EndpointsOK u1.state := by
  cases ev with
  | mousedown col row =>
    simp only [handle, Option.some.injEq] at hev
    subst hev
    exact canvasMouseDown_endpoints COLS ROWS u col row ok
  | startButton =>
    simp only [handle, startButtonClick] at hev
    by_cases hc : (!u.state.algorithmRunning && !u.state.noSolution) = true
    · rw [if_pos hc] at hev
      cases hstep : aStarStep fuel
          (resetAStarState COLS ROWS { u.state with algorithmRunning := true }) with
      | none => rw [hstep] at hev; cases hev
      | some r =>
        rw [hstep] at hev
        simp only [Option.map_some', Option.some.injEq] at hev
        subst hev
        obtain ⟨b, s1⟩ := r
        exact aStarStep_endpoints hstep (resetAStarState_endpoints COLS ROWS _ ok)
    · rw [if_neg hc] at hev
      simp only [Option.some.injEq] at hev
      subst hev
      exact ok
  | setStartButton =>
    simp only [handle, modeButtonClick, Option.some.injEq] at hev
    subst hev
    by_cases hc : (!u.state.algorithmRunning) = true
    · rw [if_pos hc]; exact ok
    · rw [if_neg hc]; exact ok
  | setEndButton =>
    simp only [handle, modeButtonClick, Option.some.injEq] at hev
    subst hev
    by_cases hc : (!u.state.algorithmRunning) = true
    · rw [if_pos hc]; exact ok
    · rw [if_neg hc]; exact ok
  | resetButton =>
    simp only [handle, resetButtonClick, Option.some.injEq] at hev
    subst hev
    exact initializeGrid_endpoints COLS ROWS h
  | frame =>
    simp only [handle] at hev
    cases hstep : aStarStep fuel u.state with
    | none => rw [hstep] at hev; cases hev
    | some r =>
      rw [hstep] at hev
      simp only [Option.map_some', Option.some.injEq] at hev
      subst hev
      obtain ⟨b, s1⟩ := r
      exact aStarStep_endpoints hstep ok

/-- A click in wall-drawing mode on the start node or on the end node changes nothing. -/
theorem wall_click_on_endpoint (COLS ROWS : Nat) (u : Page) (col row : Int)
    (hm : u.currentMode = Mode.drawWall)
    (hc : (⟨col.toNat, row.toNat⟩ : Pos) = u.state.startNode
      ∨ (⟨col.toNat, row.toNat⟩ : Pos) = u.state.endNode) :
    canvasMouseDown COLS ROWS u col row = u := by
  unfold canvasMouseDown
  by_cases hrun : u.state.algorithmRunning = true
  · rw [if_pos hrun]
  · rw [if_neg hrun]
    by_cases hb : col ≥ 0 ∧ col < (COLS : Int) ∧ row ≥ 0 ∧ row < (ROWS : Int)
    · rw [if_pos hb]
      dsimp only
      rw [hm]
      dsimp only
      rw [if_neg]
      intro hne
      rcases hc with h | h
      · exact hne.1 h
      · exact hne.2 h
    · rw [if_neg hb]

/-- C17: in every page reached from `initializeGrid` by `mousedown` events in any mode, clicks
on the mode buttons, on Start and on Reset, and calls of `aStarStep`, the start and end nodes
differ and neither is a wall; and a click in wall-drawing mode on the start node or on the end
node leaves the page, hence every wall flag, as it was. -/
theorem endpoints_invariant (COLS ROWS : Nat) (h : 2 ≤ COLS * ROWS) (u : Page)
    (hr : PageReachable COLS ROWS u) :
    u.state.startNode ≠ u.state.endNode
      ∧ (u.state.grid u.state.startNode).isWall = false
      ∧ (u.state.grid u.state.endNode).isWall = false
      ∧ ∀ col row : Int, u.currentMode = Mode.drawWall →
          ((⟨col.toNat, row.toNat⟩ : Pos) = u.state.startNode
            ∨ (⟨col.toNat, row.toNat⟩ : Pos) = u.state.endNode) →
          canvasMouseDown COLS ROWS u col row = u := by
  have ok : EndpointsOK u.state := by
    induction hr with
    | init => exact initializeGrid_endpoints COLS ROWS h
    | event fuel ev _ hev ih => exact handle_endpoints COLS ROWS fuel h _ _ ev hev ih
  exact ⟨ok.1, ok.2.1, ok.2.2,
    fun col row hm hc => wall_click_on_endpoint COLS ROWS u col row hm hc⟩

/-- C17, witness: the statement at `startedPage`, reached from the initial page of the 3 × 3
grid by a click on Start, and a click in wall-drawing mode on its start node `(0,0)`. -/
theorem endpoints_invariant_witness :
    2 ≤ 3 * 3
      ∧ PageReachable 3 3 startedPage
      ∧ startedPage.state.startNode ≠ startedPage.state.endNode
      ∧ (startedPage.state.grid startedPage.state.startNode).isWall = false
      ∧ (startedPage.state.grid startedPage.state.endNode).isWall = false
      ∧ canvasMouseDown 3 3 startedPage 0 0 = startedPage :=
  have hr : PageReachable 3 3 startedPage :=
    PageReachable.event 9 Event.startButton PageReachable.init rfl
  have hthm := endpoints_invariant 3 3 (by decide) startedPage hr
  ⟨by decide, hr, hthm.1, hthm.2.1, hthm.2.2.1, hthm.2.2.2 0 0 rfl (Or.inl rfl)⟩

/-- C16, the code at the failing input: on the 25 × 20 grid of the program, after a click on
Start and then a `mousedown` on the cell `(1,1)` in wall-drawing mode, the wall flag of `(1,1)`
has been toggled while the algorithm was not running, but `closedSet` is still `[(0,0)]`,
`openSet` is still `[(1,0), (0,1)]` and the node `(1,0)` still has `g = 1` and
`previous = (0,0)`: the search state is not the reset state. Likewise on the 3 × 3 grid of
`noSolutionPage`, reached by two wall clicks, a click on Start and six further calls of
`aStarStep`: after a `mousedown` that removes the wall `(1,2)`, `noSolution` is still `true`
and `closedSet` still has 6 cells, and the following click on Start changes nothing. -/
theorem wall_click_keeps_search_state :
    (handle 25 20 500 (initialPage 25 20) Event.startButton).map
        (fun u =>
          (u.state.algorithmRunning, (u.state.grid ⟨1, 1⟩).isWall,
            ((canvasMouseDown 25 20 u 1 1).state.grid ⟨1, 1⟩).isWall,
            (canvasMouseDown 25 20 u 1 1).state.closedSet))
        = some (false, false, true, [⟨0, 0⟩])
      ∧ (handle 25 20 500 (initialPage 25 20) Event.startButton).map
          (fun u =>
            ((canvasMouseDown 25 20 u 1 1).state.openSet,
              ((canvasMouseDown 25 20 u 1 1).state.grid ⟨1, 0⟩).g,
              ((canvasMouseDown 25 20 u 1 1).state.grid ⟨1, 0⟩).previous))
          = some ([⟨1, 0⟩, ⟨0, 1⟩], 1, some ⟨0, 0⟩)
      ∧ PageReachable 3 3 noSolutionPage
      ∧ noSolutionPage.state.algorithmRunning = false
      ∧ (noSolutionPage.state.grid ⟨1, 2⟩).isWall = true
      ∧ handle 3 3 9 noSolutionPage (Event.mousedown 1 2) = some noSolutionPageOpened
      ∧ (noSolutionPageOpened.state.grid ⟨1, 2⟩).isWall = false
      ∧ noSolutionPageOpened.state.noSolution = true
      ∧ noSolutionPageOpened.state.closedSet.length = 6
      ∧ handle 3 3 9 noSolutionPageOpened Event.startButton = some noSolutionPageOpened := by
  refine ⟨?_, ?_, ?_, by decide, by decide, rfl, by decide, by decide, by decide, rfl⟩
  · set_option maxRecDepth 1000000 in decide
  · set_option maxRecDepth 1000000 in decide
  · exact
      PageReachable.event 9 Event.frame
        (PageReachable.event 9 Event.frame
          (PageReachable.event 9 Event.frame
            (PageReachable.event 9 Event.frame
              (PageReachable.event 9 Event.frame
                (PageReachable.event 9 Event.frame
                  (PageReachable.event 9 Event.startButton
                    (PageReachable.event 9 (Event.mousedown 2 1)
                      (PageReachable.event 9 (Event.mousedown 1 2) PageReachable.init rfl)
                      rfl)
                    rfl)
                  rfl)
                rfl)
              rfl)
            rfl)
          rfl)
        rfl

/-! ## The exact effect of one expansion -/

/-- When an iteration of the neighbour loop changes nothing, the neighbour is a wall, or
closed, or open with a `g` that is not improved. -/
theorem visitNeighbor_unchanged (cur en : Pos) (closedSet : List Pos)
    (acc : (Pos → Node) × List Pos) (nb : Pos)
    (h : (acc.1 nb).isWall = true ∨ nb ∈ closedSet
      ∨ (nb ∈ acc.2 ∧ ¬ (acc.1 cur).g + 1 < (acc.1 nb).g)) :
    visitNeighbor cur en closedSet acc nb = acc := by
  obtain ⟨grid, openSet⟩ := acc
  unfold visitNeighbor
  simp only at h
  rcases h with h | h | ⟨h1, h2⟩
  · simp [h]
  · simp [h]
  · by_cases hw : (grid nb).isWall = true
    · simp [hw]
    · by_cases hcl : nb ∈ closedSet
      · simp [hcl]
      · simp [hw, hcl, h1, h2]

/-- One iteration of the neighbour loop, exactly: the neighbour is appended to the open set
when it is no wall, not closed and not open; its node is rewritten when it is no wall, not
closed, and not open or improved; nothing else changes. -/
theorem visitNeighbor_exact (cur en : Pos) (closedSet : List Pos) (hcur : cur ∈ closedSet)
    (acc : (Pos → Node) × List Pos) (nb : Pos) :
    (visitNeighbor cur en closedSet acc nb).2
        = acc.2 ++ [nb].filter
            (fun n => !(acc.1 n).isWall && !closedSet.contains n && !acc.2.contains n)
      ∧ (∀ p, p ≠ nb → (visitNeighbor cur en closedSet acc nb).1 p = acc.1 p)
      ∧ (visitNeighbor cur en closedSet acc nb).1 cur = acc.1 cur
      ∧ (((acc.1 nb).isWall = false ∧ nb ∉ closedSet
            ∧ (nb ∉ acc.2 ∨ (acc.1 cur).g + 1 < (acc.1 nb).g)) →
          (visitNeighbor cur en closedSet acc nb).1 nb
            = { acc.1 nb with
                g := (acc.1 cur).g + 1
                h := heuristic nb en
                f := (acc.1 cur).g + 1 + heuristic nb en
                previous := some cur })
      ∧ (¬ ((acc.1 nb).isWall = false ∧ nb ∉ closedSet
            ∧ (nb ∉ acc.2 ∨ (acc.1 cur).g + 1 < (acc.1 nb).g)) →
          (visitNeighbor cur en closedSet acc nb).1 nb = acc.1 nb) := by
  by_cases hskip : (acc.1 nb).isWall = true ∨ nb ∈ closedSet
      ∨ (nb ∈ acc.2 ∧ ¬ (acc.1 cur).g + 1 < (acc.1 nb).g)
  · rw [visitNeighbor_unchanged cur en closedSet acc nb hskip]
    refine ⟨?_, fun _ _ => rfl, rfl, ?_, fun _ => rfl⟩
    · have hf : [nb].filter
          (fun n => !(acc.1 n).isWall && !closedSet.contains n && !acc.2.contains n) = [] := by
        rcases hskip with h | h | ⟨h, _⟩ <;> simp [h]
      rw [hf, List.append_nil]
    · rintro ⟨h1, h2, h3⟩
      rcases hskip with h | h | ⟨h, hlt⟩
      · rw [h1] at h; cases h
      · exact absurd h h2
      · rcases h3 with h3 | h3
        · exact absurd h h3
        · exact absurd h3 hlt
  · have hw : (acc.1 nb).isWall = false := by
      cases hb : (acc.1 nb).isWall with
      | false => rfl
      | true => exact absurd (Or.inl hb) hskip
    have hcl : nb ∉ closedSet := fun h => hskip (Or.inr (Or.inl h))
    have hne : cur ≠ nb := fun h => hcl (h ▸ hcur)
    rcases visitNeighbor_cases cur en closedSet acc nb with
      h1 | ⟨_, hop, hlt, h1⟩ | ⟨_, hop, _, h1⟩
    · exfalso
      by_cases hop : nb ∈ acc.2
      · by_cases hlt : (acc.1 cur).g + 1 < (acc.1 nb).g
        · have hcase : visitNeighbor cur en closedSet acc nb
              = (setNode acc.1 nb
                  { acc.1 nb with
                    g := (acc.1 cur).g + 1
                    h := heuristic nb en
                    f := (acc.1 cur).g + 1 + heuristic nb en
                    previous := some cur }, acc.2) := by
            obtain ⟨grid, openSet⟩ := acc
            unfold visitNeighbor
            simp only at hw hcl hop hlt
            simp [hw, hcl, hop, hlt]
          rw [hcase] at h1
          have := congrArg (fun a => (a.1 nb).g) h1
          simp only [setNode_same] at this
          omega
        · exact hskip (Or.inr (Or.inr ⟨hop, hlt⟩))
      · have hcase : (visitNeighbor cur en closedSet acc nb).2 = acc.2 ++ [nb] := by
          obtain ⟨grid, openSet⟩ := acc
          unfold visitNeighbor
          simp only at hw hcl hop
          simp [hw, hcl, hop]
        rw [h1] at hcase
        have := congrArg List.length hcase
        simp at this
    · rw [h1]
      refine ⟨?_, fun p hp => setNode_other _ _ _ _ hp, setNode_other _ _ _ _ hne, ?_, ?_⟩
      · have hf : [nb].filter
            (fun n => !(acc.1 n).isWall && !closedSet.contains n && !acc.2.contains n)
            = [] := by simp [hop]
        rw [hf, List.append_nil]
      · intro _; exact setNode_same _ _ _
      · intro hnot; exact absurd ⟨hw, hcl, Or.inr hlt⟩ hnot
    · rw [h1]
      refine ⟨?_, fun p hp => setNode_other _ _ _ _ hp, setNode_other _ _ _ _ hne, ?_, ?_⟩
      · have hf : [nb].filter
            (fun n => !(acc.1 n).isWall && !closedSet.contains n && !acc.2.contains n)
            = [nb] := by simp [hw, hcl, hop]
        rw [hf]
      · intro _; exact setNode_same _ _ _
      · intro hnot; exact absurd ⟨hw, hcl, Or.inl hop⟩ hnot

/-- The whole neighbour loop over a duplicate-free list of neighbours, exactly. -/
theorem neighborLoop_exact (cur en : Pos) (closedSet : List Pos) (hcur : cur ∈ closedSet)
    (todo : List Pos) :
    ∀ (acc : (Pos → Node) × List Pos), todo.Nodup →
      (todo.foldl (visitNeighbor cur en closedSet) acc).2
          = acc.2 ++ todo.filter
              (fun n => !(acc.1 n).isWall && !closedSet.contains n && !acc.2.contains n)
        ∧ (todo.foldl (visitNeighbor cur en closedSet) acc).1 cur = acc.1 cur
        ∧ (∀ p, p ∈ todo → (acc.1 p).isWall = false → p ∉ closedSet →
            (p ∉ acc.2 ∨ (acc.1 cur).g + 1 < (acc.1 p).g) →
            (todo.foldl (visitNeighbor cur en closedSet) acc).1 p
              = { acc.1 p with
                  g := (acc.1 cur).g + 1
                  h := heuristic p en
                  f := (acc.1 cur).g + 1 + heuristic p en
                  previous := some cur })
        ∧ (∀ p, ¬ (p ∈ todo ∧ (acc.1 p).isWall = false ∧ p ∉ closedSet
              ∧ (p ∉ acc.2 ∨ (acc.1 cur).g + 1 < (acc.1 p).g)) →
            (todo.foldl (visitNeighbor cur en closedSet) acc).1 p = acc.1 p) := by
  induction todo with
  | nil =>
    intro acc _
    exact ⟨by simp, rfl, fun p hp => absurd hp (List.not_mem_nil p), fun _ _ => rfl⟩
  | cons nb rest ih =>
    intro acc hnd
    rw [List.nodup_cons] at hnd
    obtain ⟨hnb, hrest⟩ := hnd
    obtain ⟨e1, e2, e3, e4, e5⟩ := visitNeighbor_exact cur en closedSet hcur acc nb
    rw [List.foldl_cons]
    generalize visitNeighbor cur en closedSet acc nb = acc1 at e1 e2 e3 e4 e5
    obtain ⟨i1, i2, i3, i4⟩ := ih acc1 hrest
    have hmem : ∀ p, p ≠ nb → (p ∈ acc1.2 ↔ p ∈ acc.2) := by
      intro p hp
      rw [e1, List.mem_append]
      constructor
      · rintro (h | h)
        · exact h
        · exact absurd (List.mem_singleton.mp (List.mem_of_mem_filter h)) hp
      · exact Or.inl
    refine ⟨?_, i2.trans e3, ?_, ?_⟩
    · rw [i1, e1, List.append_assoc]
      congr 1
      have hsplit : nb :: rest = [nb] ++ rest := rfl
      rw [hsplit, List.filter_append]
      congr 1
      apply List.filter_congr
      intro x hx
      have hxne : x ≠ nb := fun h => hnb (h ▸ hx)
      rw [e2 x hxne]
      have : acc1.2.contains x = acc.2.contains x := by
        rw [Bool.eq_iff_iff]
        simpa using hmem x hxne
      rw [e1] at this
      rw [this]
    · intro p hp hw hcl hup
      by_cases hpn : p = nb
      · subst hpn
        rw [i4 p (fun h => hnb h.1)]
        exact e4 ⟨hw, hcl, hup⟩
      · have hpr : p ∈ rest := by
          rcases List.mem_cons.mp hp with h | h
          · exact absurd h hpn
          · exact h
        have := i3 p hpr (by rw [e2 p hpn]; exact hw) hcl (by
          rw [hmem p hpn, e3, e2 p hpn]; exact hup)
        rw [this, e2 p hpn, e3]
    · intro p hnot
      by_cases hpn : p = nb
      · subst hpn
        rw [i4 p (fun h => hnb h.1)]
        apply e5
        intro hu
        exact hnot ⟨List.mem_cons_self _ _, hu⟩
      · rw [i4 p, e2 p hpn]
        rintro ⟨hpr, hw, hcl, hup⟩
        apply hnot
        refine ⟨List.mem_cons_of_mem _ hpr, ?_, hcl, ?_⟩
        · rw [e2 p hpn] at hw; exact hw
        · rw [hmem p hpn, e3, e2 p hpn] at hup; exact hup

/-- C15: a call of `aStarStep` that takes no terminal branch, on a state of a search, with
selected cell `c`: `c` is removed from `openSet` and appended to `closedSet`; the neighbours of
`c` that are no wall, not closed and not open are appended to `openSet` in the order of the
neighbours array; every neighbour `n` of `c` that is no wall and not closed, and that is not
open or has `c.g + 1 < n.g`, gets `g = c.g + 1`, `h = heuristic(n, endNode)`, `f = g + h`,
`previous = c` and is in `openSet`; the node of every other cell, every wall flag, and the
membership of every other cell in `openSet` and `closedSet` are unchanged. -/
theorem expansion_effect (COLS ROWS : Nat) (s0 : State) (wf : WellFormed COLS ROWS s0)
    (s : State) (h : Calls (resetAStarState COLS ROWS s0) s) (fuel : Nat) (s1 : State)
    (hstep : aStarStep fuel s = some (Branch.running, s1)) :
    currentNode s ∈ s.openSet ∧ currentNode s ≠ s.endNode
      ∧ s1.closedSet = s.closedSet ++ [currentNode s]
      ∧ s1.openSet = s.openSet.eraseIdx (lowestFIndex s.grid s.openSet)
          ++ (s.grid (currentNode s)).neighbors.filter
              (fun n => !(s.grid n).isWall && !s.closedSet.contains n && !s.openSet.contains n)
      ∧ currentNode s ∉ s1.openSet
      ∧ (∀ n, n ∈ (s.grid (currentNode s)).neighbors → (s.grid n).isWall = false →
          n ∉ s.closedSet → (n ∉ s.openSet ∨ (s.grid (currentNode s)).g + 1 < (s.grid n).g) →
          (s1.grid n).g = (s.grid (currentNode s)).g + 1
            ∧ (s1.grid n).h = heuristic n s.endNode
            ∧ (s1.grid n).f = (s1.grid n).g + (s1.grid n).h
            ∧ (s1.grid n).previous = some (currentNode s)
            ∧ n ∈ s1.openSet)
      ∧ (∀ p, ¬ (p ∈ (s.grid (currentNode s)).neighbors ∧ (s.grid p).isWall = false
            ∧ p ∉ s.closedSet
            ∧ (p ∉ s.openSet ∨ (s.grid (currentNode s)).g + 1 < (s.grid p).g)) →
          s1.grid p = s.grid p)
      ∧ (∀ p, (s1.grid p).isWall = (s.grid p).isWall)
      ∧ (∀ p, p ≠ currentNode s → (p ∈ s1.closedSet ↔ p ∈ s.closedSet))
      ∧ (∀ p, p ≠ currentNode s →
          ¬ (p ∈ (s.grid (currentNode s)).neighbors ∧ (s.grid p).isWall = false
            ∧ p ∉ s.closedSet ∧ p ∉ s.openSet) →
          (p ∈ s1.openSet ↔ p ∈ s.openSet)) := by
  have inv := calls_inv wf h
  obtain ⟨h0, hne, rfl⟩ := aStarStep_running hstep
  have inv2 := expand_inv inv h0 hne
  obtain ⟨_, _, core⟩ := inv
  have hsel := selected_mem s.grid s.openSet h0
  have hcurIn : InBounds COLS ROWS (currentNode s) := (core.seen_ok _ (Or.inl hsel)).1
  have hnbrs : (s.grid (currentNode s)).neighbors = neighborsOf COLS ROWS (currentNode s) :=
    core.gridOK _ hcurIn
  have hnd : (s.grid (currentNode s)).neighbors.Nodup := by
    rw [hnbrs]; exact neighborsOf_nodup COLS ROWS _
  have hself : ∀ n, n ∈ (s.grid (currentNode s)).neighbors → n ≠ currentNode s := by
    intro n hn heq
    rw [hnbrs, heq] at hn
    exact not_mem_neighborsOf_self COLS ROWS _ hn
  have hmemE := mem_eraseIdx_nodup core.open_nodup _ (lowestFIndex_lt s.grid s.openSet h0)
  have hclosed1 : ∀ n, n ≠ currentNode s →
      (n ∈ s.closedSet ++ [currentNode s] ↔ n ∈ s.closedSet) := by
    intro n hn
    rw [List.mem_append, List.mem_singleton]
    exact ⟨fun hh => hh.elim id (fun e => absurd e hn), Or.inl⟩
  have hopen1 : ∀ n, n ≠ currentNode s →
      (n ∈ s.openSet.eraseIdx (lowestFIndex s.grid s.openSet) ↔ n ∈ s.openSet) := by
    intro n hn
    rw [hmemE n]
    exact ⟨fun hh => hh.1, fun hh => ⟨hh, hn⟩⟩
  obtain ⟨x1, _, x3, x4⟩ := neighborLoop_exact (currentNode s) s.endNode
    (s.closedSet ++ [currentNode s])
    (List.mem_append.mpr (Or.inr (List.mem_singleton_self _)))
    (s.grid (currentNode s)).neighbors
    (s.grid, s.openSet.eraseIdx (lowestFIndex s.grid s.openSet)) hnd
  simp only at x1 x3 x4
  have hopenEq : (expand s).openSet = s.openSet.eraseIdx (lowestFIndex s.grid s.openSet)
      ++ (s.grid (currentNode s)).neighbors.filter
          (fun n => !(s.grid n).isWall && !s.closedSet.contains n && !s.openSet.contains n) := by
    simp only [expand]
    rw [x1]
    congr 1
    apply List.filter_congr
    intro n hn
    have hn1 := hself n hn
    have e1 : (s.closedSet ++ [currentNode s]).contains n = s.closedSet.contains n := by
      rw [Bool.eq_iff_iff]
      simpa using hclosed1 n hn1
    have e2 : (s.openSet.eraseIdx (lowestFIndex s.grid s.openSet)).contains n
        = s.openSet.contains n := by
      rw [Bool.eq_iff_iff]
      simpa using hopen1 n hn1
    simp only [e1, e2]
  have hmemOpen : ∀ p, p ∈ (expand s).openSet ↔
      p ∈ s.openSet.eraseIdx (lowestFIndex s.grid s.openSet)
        ∨ (p ∈ (s.grid (currentNode s)).neighbors ∧ (s.grid p).isWall = false
          ∧ p ∉ s.closedSet ∧ p ∉ s.openSet) := by
    intro p
    rw [hopenEq, List.mem_append, List.mem_filter]
    simp [and_assoc]
  refine ⟨hsel, hne, rfl, hopenEq, ?_, ?_, ?_, ?_, ?_, ?_⟩
  · intro hmem
    exact inv2.2.2.disjoint _ hmem
      (List.mem_append.mpr (Or.inr (List.mem_singleton_self _)))
  · intro n hn hw hcl hup
    have hn1 := hself n hn
    have hnode := x3 n hn hw (fun hh => hcl ((hclosed1 n hn1).mp hh)) (by
      rcases hup with hh | hh
      · exact Or.inl (fun hm => hh ((hopen1 n hn1).mp hm))
      · exact Or.inr hh)
    have hgrid : (expand s).grid n
        = { s.grid n with
            g := (s.grid (currentNode s)).g + 1
            h := heuristic n s.endNode
            f := (s.grid (currentNode s)).g + 1 + heuristic n s.endNode
            previous := some (currentNode s) } := hnode
    rw [hgrid]
    refine ⟨rfl, rfl, rfl, rfl, ?_⟩
    rw [hmemOpen]
    by_cases hop : n ∈ s.openSet
    · exact Or.inl ((hopen1 n hn1).mpr hop)
    · exact Or.inr ⟨hn, hw, hcl, hop⟩
  · intro p hnot
    apply x4 p
    rintro ⟨hp, hw, hcl, hup⟩
    have hp1 := hself p hp
    apply hnot
    refine ⟨hp, hw, fun hh => hcl ((hclosed1 p hp1).mpr hh), ?_⟩
    rcases hup with hh | hh
    · exact Or.inl (fun hm => hh ((hopen1 p hp1).mpr hm))
    · exact Or.inr hh
  · intro p
    exact neighborLoop_isWall _ _ _ _ p _
  · intro p hp
    exact hclosed1 p hp
  · intro p hp hnot
    rw [hmemOpen, hopen1 p hp]
    exact ⟨fun hh => hh.elim id (fun e => absurd e hnot), Or.inl⟩

/-- C15, witness: the statement at the first call of `aStarStep` on `cornerGrid`: `(0,0)` is
closed, its neighbour `(1,0)` is a wall and stays out, and its neighbour `(0,1)` gets `g = 1`,
`previous = (0,0)` and is appended to `openSet`. -/
theorem expansion_effect_witness :
    WellFormed 2 2 cornerGrid
      ∧ Calls (resetAStarState 2 2 cornerGrid) (resetAStarState 2 2 cornerGrid)
      ∧ aStarStep 4 (resetAStarState 2 2 cornerGrid)
          = some (Branch.running, expand (resetAStarState 2 2 cornerGrid))
      ∧ currentNode (resetAStarState 2 2 cornerGrid) = ⟨0, 0⟩
      ∧ (expand (resetAStarState 2 2 cornerGrid)).closedSet
          = (resetAStarState 2 2 cornerGrid).closedSet
            ++ [currentNode (resetAStarState 2 2 cornerGrid)]
      ∧ (expand (resetAStarState 2 2 cornerGrid)).openSet = [⟨0, 1⟩]
      ∧ ((expand (resetAStarState 2 2 cornerGrid)).grid ⟨0, 1⟩).g
          = ((resetAStarState 2 2 cornerGrid).grid
              (currentNode (resetAStarState 2 2 cornerGrid))).g + 1
      ∧ ((expand (resetAStarState 2 2 cornerGrid)).grid ⟨0, 1⟩).previous
          = some (currentNode (resetAStarState 2 2 cornerGrid))
      ∧ (expand (resetAStarState 2 2 cornerGrid)).grid ⟨1, 0⟩
          = (resetAStarState 2 2 cornerGrid).grid ⟨1, 0⟩ :=
  have wf : WellFormed 2 2 cornerGrid :=
    clickWall_wellFormed (initializeGrid_wellFormed 2 2 (by decide)) 1 0
  have hthm := expansion_effect 2 2 cornerGrid wf (resetAStarState 2 2 cornerGrid)
    Calls.none 4 (expand (resetAStarState 2 2 cornerGrid)) rfl
  have hn := hthm.2.2.2.2.2.1 ⟨0, 1⟩ (by decide) (by decide) (by decide) (Or.inl (by decide))
  ⟨wf, Calls.none, rfl, by decide, hthm.2.2.1, by decide, hn.1, hn.2.2.2.1,
    hthm.2.2.2.2.2.2.1 ⟨1, 0⟩ (by decide)⟩

end Pathfinding
